import Mathlib

/-!
# Verification of the taskforge dependency-aware task runner

Shallow embedding of the core of the `taskforge` repository:

* `taskforge/config/types.py` — `TaskConfig`, `ProjectConfig`;
* `taskforge/graph/dag.py`    — `TaskGraph` (deterministic topological order,
  subgraph extraction, cycle detection);
* `taskforge/graph/types.py`  — `CycleError`;
* `taskforge/executor/executor.py` and `taskforge/executor/types.py` —
  `Executor._run`, `TaskResult`, `RunResult`.

Conventions of the embedding:

* Python `str` is `String`; Python's lexicographic comparison on code points
  is embedded as `chLt` on `String.data` (Lean's builtin `String` order does
  not reduce in the kernel, so we define our own, provably a linear order).
* Python dicts are association lists; `dict.__setitem__` is `dictSet`
  (replace in place if the key is present, else append, matching insertion
  order semantics), `{**a, **b}` is `dictMerge`.
* Raised exceptions are `Except PyError`; `KeyError(x)` is
  `PyError.KeyError x` and `graph.types.CycleError(p)` is
  `PyError.CycleError p`.
* Python's unbounded recursion / `while` loops are embedded with explicit
  fuel; exhaustion yields the artificial `PyError.OutOfFuel`, proven
  unreachable for the fuel the entry points actually pass.
* The side effects of `subprocess.run` (together with the `time.monotonic`
  stamps around it) are a parameter `spawn : SpawnRequest → SpawnResult`;
  the ambient `os.environ` is a parameter `ambient`.
-/

set_option maxHeartbeats 1000000

namespace Taskforge

/-! ## Lexicographic order on identifiers (Python `sorted` on `str`) -/

/-- Strict lexicographic order on code-point sequences, as Python compares
`str` values. -/
def chLt : List Char → List Char → Bool
  | [], [] => false
  | [], _ :: _ => true
  | _ :: _, [] => false
  | a :: s, b :: t => if a < b then true else if b < a then false else chLt s t

/-- `s ≤ t` in Python's string order. -/
def strLe (s t : String) : Bool := !(chLt t.data s.data)

/-- The order used by Python's `sorted` on identifiers, as a `Prop`. -/
def IdLe (s t : String) : Prop := strLe s t = true

instance : DecidableRel IdLe := fun s t =>
  inferInstanceAs (Decidable (strLe s t = true))

/-- Python's `sorted` builtin on a list of identifiers. -/
def pySorted (l : List String) : List String := List.insertionSort IdLe l

/-! ## Python dict primitives -/

/-- `d[k] = v` on a Python dict modelled as an association list: replace the
binding in place when the key is present, otherwise append (dicts preserve
insertion order). -/
def dictSet {β : Type} (d : List (String × β)) (k : String) (v : β) :
    List (String × β) :=
  if d.any (fun p => p.1 == k) then
    d.map (fun p => if p.1 == k then (k, v) else p)
  else
    d ++ [(k, v)]

/-- `{**a, **b}` on Python dicts: entries of `b` win on conflicting keys. -/
def dictMerge (a b : List (String × String)) : List (String × String) :=
  b.foldl (fun d p => dictSet d p.1 p.2) a

/-! ## `taskforge/config/types.py` -/

/-- `TaskConfig` (config/types.py). `env` is a dict, `working_dir` is
`str | None`. -/
structure TaskConfig where
  id : String
  command : String
  deps : List String
  env : List (String × String)
  working_dir : Option String
deriving DecidableEq, Repr

/-- `ProjectConfig` (config/types.py): a dict from task id to `TaskConfig`. -/
structure ProjectConfig where
  tasks : List (String × TaskConfig)
deriving DecidableEq, Repr

namespace ProjectConfig

/-- `ProjectConfig.has_task`. -/
def has_task (p : ProjectConfig) (id : String) : Bool :=
  (p.tasks.lookup id).isSome

/-- `ProjectConfig.get_task`; `none` models the raised `KeyError`. -/
def get_task (p : ProjectConfig) (id : String) : Option TaskConfig :=
  p.tasks.lookup id

/-- `ProjectConfig.tasks_ids`: `sorted(self.tasks.keys())`. -/
def tasks_ids (p : ProjectConfig) : List String :=
  pySorted (p.tasks.map Prod.fst)

/-- The keys of the task dict (unsorted). -/
def keys (p : ProjectConfig) : List String := p.tasks.map Prod.fst

/-- The declared dependency relation of the task set: `b` is listed in the
`deps` of the task with id `a`. -/
def DepRel (p : ProjectConfig) (a b : String) : Prop :=
  ∃ t, p.get_task a = some t ∧ b ∈ t.deps

end ProjectConfig

/-! ## Errors (`graph/types.py` plus Python builtins) -/

/-- Exceptions that the embedded code can raise.  `KeyError` is Python's
builtin (raised by `subgraph_order` and by dict lookups), `CycleError` is
`taskforge.graph.types.CycleError` carrying its `cycle` list.  `OutOfFuel`
is an artifact of embedding unbounded recursion with fuel; the entry points
are proven never to produce it. -/
inductive PyError where
  | KeyError (target : String)
  | CycleError (cycle : List String)
  | OutOfFuel
deriving DecidableEq, Repr

/-! ## `taskforge/graph/dag.py` -/

/-- The three-coloring marks `_Visit` (dag.py). -/
inductive Visit where
  | UNVISITED
  | VISITING
  | VISITED
deriving DecidableEq, Repr

/-- `TaskGraph` (dag.py): the project plus the precomputed per-task sorted
dependency table `_deps` (a dict keyed in `tasks_ids()` order). -/
structure TaskGraph where
  project : ProjectConfig
  _deps : List (String × List String)
deriving DecidableEq, Repr

namespace TaskGraph

/-- `TaskGraph.from_project`: for every task id (in sorted order) store the
lexicographically sorted tuple of its dependencies.  Every `task_id` comes
from `tasks_ids()`, so `get_task` always finds it and the `.getD []` default
is never used. -/
def from_project (project : ProjectConfig) : TaskGraph :=
  { project := project
    _deps := project.tasks_ids.map fun task_id =>
      (task_id, pySorted (((project.get_task task_id).map TaskConfig.deps).getD [])) }

/-- `self._deps[tid]`, totalized with `[]`; every call site reaches only
keys of `_deps` (loader-validated referential closure). -/
def depsOf (g : TaskGraph) (tid : String) : List String :=
  (g._deps.lookup tid).getD []

/-- The dependency relation recorded in the graph's `_deps` table. -/
def Step (g : TaskGraph) (a b : String) : Prop := b ∈ g.depsOf a

/-- State of the recursive `visit` closure inside `TaskGraph._toposort`:
the three-coloring `state`, the output list `out`, the in-progress path
`stack`, and the `pos` dict mapping each in-progress id to its index in
`stack`. -/
structure TopoState where
  state : String → Visit
  out : List String
  stack : List String
  pos : List (String × Nat)

/-- The recursive `visit` closure of `_toposort`.  `univ` is the `universe`
argument (the key set of `state`); fuel bounds the recursion depth and is
consumed only when a node is expanded.  `pos.pop(tid)` is `eraseP` on the
association list; at that point `(tid, _)` is its head. -/
def visit (g : TaskGraph) (univ : List String) (fuel : Nat) (tid : String)
    (s : TopoState) : Except PyError TopoState :=
    if s.state tid = Visit.VISITING then
      .error (.CycleError (s.stack.drop ((s.pos.lookup tid).getD 0) ++ [tid]))
    else if s.state tid = Visit.VISITED then
      .ok s
    else
      match fuel with
      | 0 => .error .OutOfFuel
      | fuel + 1 => do
        let s₁ : TopoState :=
          { state := fun x => if x = tid then Visit.VISITING else s.state x
            out := s.out
            stack := s.stack ++ [tid]
            pos := (tid, s.stack.length) :: s.pos }
        let s₂ ← (g.depsOf tid).foldlM
          (fun t dep => if dep ∈ univ then visit g univ fuel dep t else .ok t) s₁
        .ok { state := fun x => if x = tid then Visit.VISITED else s₂.state x
              out := s₂.out ++ [tid]
              stack := s₂.stack.dropLast
              pos := s₂.pos.eraseP (fun p => p.1 == tid) }

/-- The state pushed at the start of an expansion of `tid`. -/
def pushTid (s : TaskGraph.TopoState) (tid : String) : TaskGraph.TopoState :=
  { state := fun x => if x = tid then Visit.VISITING else s.state x
    out := s.out
    stack := s.stack ++ [tid]
    pos := (tid, s.stack.length) :: s.pos }

/-- The state after an expansion of `tid` finishes from inner state `s₂`. -/
def popTid (s₂ : TaskGraph.TopoState) (tid : String) : TaskGraph.TopoState :=
  { state := fun x => if x = tid then Visit.VISITED else s₂.state x
    out := s₂.out ++ [tid]
    stack := s₂.stack.dropLast
    pos := s₂.pos.eraseP (fun p => p.1 == tid) }

/-- `TaskGraph._toposort(universe)`: fresh all-`UNVISITED` state, visit the
universe in sorted order, return `out`.  The fuel `univ.length + 1` strictly
exceeds the recursion depth (proven sufficient below). -/
def _toposort (g : TaskGraph) (univ : List String) :
    Except PyError (List String) := do
  let init : TopoState :=
    { state := fun _ => Visit.UNVISITED, out := [], stack := [], pos := [] }
  let s ← (pySorted univ).foldlM
    (fun t tid => visit g univ (univ.length + 1) tid t) init
  .ok s.out

/-- `TaskGraph.topo_order`: `_toposort` over `set(self._deps)` (the key
set of the dependency table). -/
def topo_order (g : TaskGraph) : Except PyError (List String) :=
  g._toposort (g._deps.map Prod.fst)

/-- Fuel that strictly dominates the number of iterations of the
`subgraph_order` worklist loop. -/
def closureFuel (g : TaskGraph) (needed worklist : List String) : Nat :=
  worklist.length +
    (((g._deps.map Prod.fst).filter (fun x => !(needed.contains x))).map
      (fun x => 1 + (g.depsOf x).length)).sum

/-- The `while worklist:` loop of `subgraph_order`.  The worklist is kept
reversed (its head is the end Python pops from and appends to); `needed`
is the discovered set in insertion order. -/
def closureLoop (g : TaskGraph) (fuel : Nat) (worklist needed : List String) :
    Except PyError (List String) :=
  match worklist with
  | [] => .ok needed
  | task_id :: rest =>
    match fuel with
    | 0 => .error .OutOfFuel
    | fuel + 1 =>
      if task_id ∈ needed then
        closureLoop g fuel rest needed
      else
        closureLoop g fuel ((g.depsOf task_id).reverse ++ rest)
          (needed ++ [task_id])

/-- `TaskGraph.subgraph_order(target)`: `KeyError` when the target is not a
key of `_deps`; otherwise compute the transitive dependency closure of the
target by the worklist loop and `_toposort` it. -/
def subgraph_order (g : TaskGraph) (target : String) :
    Except PyError (List String) :=
  if (g._deps.lookup target).isSome then do
    let needed ← closureLoop g (g.closureFuel [] [target] + 1) [target] []
    g._toposort needed
  else
    .error (.KeyError target)

end TaskGraph

/-! ## `taskforge/executor/types.py` -/

/-- `TaskResult` (executor/types.py).  `duration_s` is the wall-clock
measurement produced around the spawn; it is abstract data here. -/
structure TaskResult where
  task_id : String
  returncode : Int
  stdout : String
  stderr : String
  duration_s : Nat
deriving DecidableEq, Repr

/-- `RunResult` (executor/types.py).  `results` is a dict in insertion
(= execution) order. -/
structure RunResult where
  order : List String
  results : List (String × TaskResult)
  failed : List String
  skipped : List String
deriving DecidableEq, Repr

/-! ## `taskforge/executor/executor.py` -/

/-- What `subprocess.run(...)` receives from the engine: the command
string run through the shell, the working directory (`none` = the caller's
current directory), and the fully merged environment. -/
structure SpawnRequest where
  command : String
  cwd : Option String
  env : List (String × String)
deriving DecidableEq, Repr

/-- What the spawned process produces, together with the measured
wall-clock duration.  A process that cannot start surfaces as an
implementation-defined non-zero `returncode`, never as an exception. -/
structure SpawnResult where
  returncode : Int
  stdout : String
  stderr : String
  duration_s : Nat
deriving DecidableEq, Repr

/-- Python truthiness in `task.working_dir or None`: the empty string is
falsy, so it collapses to `None`. -/
def pyOrNone : Option String → Option String
  | some s => if s = "" then none else some s
  | none => none

/-- The request `Executor._run` builds for `subprocess.run`:
`task.command` with `shell=True`, `cwd=task.working_dir or None`, and
`env={**os.environ, **task.env}` built fresh from the ambient snapshot for
every task. -/
def mkSpawnRequest (ambient : List (String × String)) (task : TaskConfig) :
    SpawnRequest :=
  { command := task.command
    cwd := pyOrNone task.working_dir
    env := dictMerge ambient task.env }

/-- The local bookkeeping of `Executor._run`: the results dict, the
failed/skipped lists with their membership sets, the (unused) succeeded
set, the processed set, and the `stopped_early` flag. -/
structure ExecState where
  results : List (String × TaskResult)
  failed_list : List String
  failed_set : List String
  skipped_list : List String
  skipped_set : List String
  succeeded_set : List String
  processed : List String
  stopped_early : Bool
deriving DecidableEq, Repr

/-- The starting bookkeeping of `Executor._run`. -/
def ExecState.init : ExecState :=
  { results := [], failed_list := [], failed_set := [], skipped_list := []
    skipped_set := [], succeeded_set := [], processed := []
    stopped_early := false }

namespace Executor

/-- The `for tid in order:` loop of `Executor._run`.  A `KeyError` from
`get_task` propagates (`.error tid`); the `break` of the fail-fast branch
returns with `stopped_early := true` without touching the rest of the
order. -/
def runLoop (spawn : SpawnRequest → SpawnResult)
    (ambient : List (String × String)) (project : ProjectConfig)
    (fail_fast : Bool) (order : List String) (st : ExecState) :
    Except String ExecState :=
  match order with
  | [] => .ok st
  | tid :: rest =>
    match project.get_task tid with
    | none => .error tid
    | some task =>
      if task.deps.any
          (fun dep => st.failed_set.contains dep || st.skipped_set.contains dep) then
        runLoop spawn ambient project fail_fast rest
          { st with
            skipped_list := st.skipped_list ++ [tid]
            skipped_set := st.skipped_set ++ [tid]
            processed := st.processed ++ [tid] }
      else
        let res := spawn (mkSpawnRequest ambient task)
        let st₁ : ExecState :=
          { st with
            results := dictSet st.results tid
              ⟨tid, res.returncode, res.stdout, res.stderr, res.duration_s⟩ }
        if res.returncode = 0 then
          runLoop spawn ambient project fail_fast rest
            { st₁ with
              succeeded_set := st₁.succeeded_set ++ [tid]
              processed := st₁.processed ++ [tid] }
        else
          let st₂ : ExecState :=
            { st₁ with
              failed_list := st₁.failed_list ++ [tid]
              failed_set := st₁.failed_set ++ [tid]
              processed := st₁.processed ++ [tid] }
          if fail_fast then
            .ok { st₂ with stopped_early := true }
          else
            runLoop spawn ambient project fail_fast rest st₂

/-- The cleanup pass of `Executor._run`: when the walk stopped early, every
id of the order not in `processed` is appended to the skipped list (the
`processed` set itself is not extended during this pass). -/
def lateSkip (order : List String) (st : ExecState) : ExecState :=
  if st.stopped_early then
    order.foldl
      (fun t tid =>
        if t.processed.contains tid then t
        else
          { t with
            skipped_list := t.skipped_list ++ [tid]
            skipped_set := t.skipped_set ++ [tid] })
      st
  else st

/-- `Executor._run`: walk the order, run the cleanup pass, and assemble the
`RunResult` from the input order verbatim and the accumulated bookkeeping. -/
def _run (spawn : SpawnRequest → SpawnResult)
    (ambient : List (String × String)) (project : ProjectConfig)
    (order : List String) (fail_fast : Bool) : Except String RunResult := do
  let st ← runLoop spawn ambient project fail_fast order ExecState.init
  let st := lateSkip order st
  .ok { order := order, results := st.results, failed := st.failed_list
        skipped := st.skipped_list }

/-- `Executor.run_all`: `_run` over the full topological order.  Graph
errors propagate as graph errors, engine-level `KeyError`s as strings. -/
def run_all (spawn : SpawnRequest → SpawnResult)
    (ambient : List (String × String)) (project : ProjectConfig)
    (graph : TaskGraph) (fail_fast : Bool) :
    Except PyError (Except String RunResult) := do
  let order ← graph.topo_order
  .ok (_run spawn ambient project order fail_fast)

/-- `Executor.run_target`: `_run` over the subgraph order of one target. -/
def run_target (spawn : SpawnRequest → SpawnResult)
    (ambient : List (String × String)) (project : ProjectConfig)
    (graph : TaskGraph) (target : String) (fail_fast : Bool) :
    Except PyError (Except String RunResult) := do
  let order ← graph.subgraph_order target
  .ok (_run spawn ambient project order fail_fast)

end Executor

/-! ## Concrete instances used by the final checks -/

/-- Shorthand for a task with no environment overrides and no working
directory. -/
def mkTask (id command : String) (deps : List String) : TaskConfig :=
  ⟨id, command, deps, [], none⟩

/-- Diamond project `A → {B, C}, B → {D}, C → {D}`. -/
def wpDiamond1 : ProjectConfig :=
  ⟨[("A", mkTask "A" "echo A" ["B", "C"]), ("B", mkTask "B" "echo B" ["D"]),
    ("C", mkTask "C" "echo C" ["D"]), ("D", mkTask "D" "echo D" [])]⟩

/-- The diamond again, with task declarations and dependency lists in a
different order. -/
def wpDiamond2 : ProjectConfig :=
  ⟨[("D", mkTask "D" "echo D" []), ("C", mkTask "C" "echo C" ["D"]),
    ("B", mkTask "B" "echo B" ["D"]), ("A", mkTask "A" "echo A" ["C", "B"])]⟩

/-- Two mutually dependent tasks. -/
def wpCyc : ProjectConfig :=
  ⟨[("A", mkTask "A" "echo A" ["B"]), ("B", mkTask "B" "echo B" ["A"])]⟩

/-- A cyclic pair `B ↔ C` next to an independent task `A`. -/
def wpMixed : ProjectConfig :=
  ⟨[("A", mkTask "A" "echo A" []), ("B", mkTask "B" "echo B" ["C"]),
    ("C", mkTask "C" "echo C" ["B"])]⟩

/-- A synthetic spawn oracle for the executor checks: the shell command
`false` exits with code 1, everything else succeeds. -/
def exSpawn : SpawnRequest → SpawnResult :=
  fun req => if req.command = "false" then ⟨1, "", "boom", 2⟩ else ⟨0, "ok", "", 1⟩

/-- A synthetic ambient environment snapshot. -/
def exAmbient : List (String × String) :=
  [("PATH", "/usr/bin"), ("HOME", "/root")]

/-- Executor fixture: `a_fail` fails, `b_dep` depends on it, `c_ind` is
independent and carries environment overrides and a working directory. -/
def exProj : ProjectConfig :=
  ⟨[("a_fail", mkTask "a_fail" "false" []),
    ("b_dep", mkTask "b_dep" "echo b" ["a_fail"]),
    ("c_ind", ⟨"c_ind", "echo c", [], [("PATH", "/opt"), ("X", "1")], some "/tmp"⟩)]⟩

/-- A topological execution order for `exProj`. -/
def exOrder : List String := ["a_fail", "b_dep", "c_ind"]

/-- The run report of the fixture under `fail_fast = true`. -/
def exRunTT : RunResult :=
  ⟨exOrder, [("a_fail", ⟨"a_fail", 1, "", "boom", 2⟩)], ["a_fail"],
    ["b_dep", "c_ind"]⟩

/-- The run report of the fixture under `fail_fast = false`. -/
def exRunFF : RunResult :=
  ⟨exOrder, [("a_fail", ⟨"a_fail", 1, "", "boom", 2⟩),
    ("c_ind", ⟨"c_ind", 0, "ok", "", 1⟩)], ["a_fail"], ["b_dep"]⟩

/-! ## Specification predicates -/

/-- Invariant tying together the paired list/set bookkeeping of
`Executor._run`: the membership sets mirror the report lists, and
`processed` is exactly "executed or skipped". -/
structure ExecInv (st : ExecState) : Prop where
  fs_eq : st.failed_set = st.failed_list
  ss_eq : st.skipped_set = st.skipped_list
  proc_iff : ∀ x, x ∈ st.processed ↔
    (x ∈ st.results.map Prod.fst ∨ x ∈ st.skipped_list)


/-- A list that witnesses a cycle of the relation `R`: consecutive elements
are `R`-steps, the first element equals the last, and there are at least two
entries (so at least one step). -/
def IsCycleList {α : Type} (R : α → α → Prop) (p : List α) : Prop :=
  p.Chain' R ∧ p.head? = p.getLast? ∧ 2 ≤ p.length

/-- Soundness of a cycle report of `_toposort` over `univ`. -/
def CycleSound (g : TaskGraph) (univ : List String) (p : List String) : Prop :=
  IsCycleList (fun a b => b ∈ g.depsOf a) p ∧ ∀ x ∈ p, x ∈ univ

/-- What `_toposort` may signal: never a `KeyError`; a `CycleError` only
with a sound cycle report.  (`OutOfFuel` is dealt with separately.) -/
def ErrSound (g : TaskGraph) (univ : List String) : PyError → Prop
  | .CycleError p => CycleSound g univ p
  | .KeyError _ => False
  | .OutOfFuel => True

/-- Well-formedness invariant of the `visit` traversal state. -/
structure TopoInv (g : TaskGraph) (univ : List String) (s : TaskGraph.TopoState) :
    Prop where
  visiting_iff : ∀ x, s.state x = Visit.VISITING ↔ x ∈ s.stack
  visited_iff : ∀ x, s.state x = Visit.VISITED ↔ x ∈ s.out
  stack_nodup : s.stack.Nodup
  out_nodup : s.out.Nodup
  stack_univ : ∀ x, x ∈ s.stack → x ∈ univ
  out_univ : ∀ x, x ∈ s.out → x ∈ univ
  stack_chain : s.stack.Chain' (fun a b => b ∈ g.depsOf a)
  pos_idx : ∀ (i : Nat) (x : String), s.stack[i]? = some x → s.pos.lookup x = some i
  out_before : ∀ (j : Nat) (x : String), s.out[j]? = some x →
    ∀ d ∈ g.depsOf x, d ∈ univ → ∃ i, i < j ∧ s.out[i]? = some d

/-- Postcondition of a successful `visit tid`. -/
structure VisitPost (g : TaskGraph) (univ : List String)
    (s s' : TaskGraph.TopoState) (tid : String) : Prop where
  inv : TopoInv g univ s'
  stack_eq : s'.stack = s.stack
  pos_eq : s'.pos = s.pos
  mono : ∀ x, s.state x ≠ Visit.UNVISITED → s'.state x = s.state x
  visited : s'.state tid = Visit.VISITED
  out_ext : ∃ l, s'.out = s.out ++ l

/-- Postcondition of a successful run of the dependency fold of `visit`
over the dependency list `l`. -/
structure FoldPost (g : TaskGraph) (univ : List String)
    (s s' : TaskGraph.TopoState) (l : List String) : Prop where
  inv : TopoInv g univ s'
  stack_eq : s'.stack = s.stack
  pos_eq : s'.pos = s.pos
  mono : ∀ x, s.state x ≠ Visit.UNVISITED → s'.state x = s.state x
  out_ext : ∃ t, s'.out = s.out ++ t
  deps_done : ∀ d ∈ l, d ∈ univ → s'.state d = Visit.VISITED

/-- Call context of `visit tid`: `tid` is a dependency of the node on top
of the traversal stack (vacuous for the top-level calls, whose stack is
empty). -/
def CtxOK (g : TaskGraph) (s : TaskGraph.TopoState) (tid : String) : Prop :=
  ∀ p, s.stack.getLast? = some p → tid ∈ g.depsOf p

/-- Number of identifiers of the universe still unvisited: the measure that
bounds the recursion depth of `visit`. -/
def ucount (univ : List String) (s : TaskGraph.TopoState) : Nat :=
  univ.countP (fun x => s.state x == Visit.UNVISITED)

/-- Decidable statement that a walk order is topologically sorted for a
project, relative to a set `seen` of identifiers already walked: every
identifier resolves and all its declared dependencies occur strictly
earlier (in `seen` or before it in the order). -/
def topoOK (project : ProjectConfig) : List String → List String → Bool
  | _, [] => true
  | seen, t :: rest =>
    (match project.get_task t with
     | some task => task.deps.all (fun d => seen.contains d)
     | none => false) && topoOK project (seen ++ [t]) rest

/-! ## Properties of the identifier order -/

theorem chLt_irrefl (s : List Char) : chLt s s = false := by
  induction s with
  | nil => rfl
  | cons a s ih => simp [chLt, lt_irrefl, ih]

theorem chLt_asymm : ∀ s t, chLt s t = true → chLt t s = false
  | [], [], h => by simp [chLt] at h
  | [], _ :: _, _ => rfl
  | _ :: _, [], h => by simp [chLt] at h
  | a :: s, b :: t, h => by
    rcases lt_trichotomy a b with hab | hab | hab
    · simp [chLt, hab, not_lt_of_lt hab]
    · subst hab
      simp only [chLt, lt_irrefl, if_false] at h ⊢
      exact chLt_asymm s t h
    · simp [chLt, hab, not_lt_of_lt hab] at h

theorem chLt_trans : ∀ s t u, chLt s t = true → chLt t u = true → chLt s u = true
  | [], _, _ :: _, _, _ => rfl
  | [], [], [], h, _ => by simp [chLt] at h
  | [], _ :: _, [], _, h => by simp [chLt] at h
  | _ :: _, [], _, h, _ => by simp [chLt] at h
  | _ :: _, _ :: _, [], _, h => by simp [chLt] at h
  | a :: s, b :: t, c :: u, h₁, h₂ => by
    rcases lt_trichotomy a b with hab | hab | hab
    · rcases lt_trichotomy b c with hbc | hbc | hbc
      · simp [chLt, lt_trans hab hbc]
      · subst hbc; simp [chLt, hab]
      · simp [chLt, hbc, not_lt_of_lt hbc] at h₂
    · subst hab
      rcases lt_trichotomy a c with hac | hac | hac
      · simp [chLt, hac]
      · subst hac
        simp only [chLt, lt_irrefl, if_false] at h₁ h₂ ⊢
        exact chLt_trans s t u h₁ h₂
      · simp [chLt, hac, not_lt_of_lt hac] at h₂
    · simp [chLt, hab, not_lt_of_lt hab] at h₁

theorem chLt_conn : ∀ s t, chLt s t = false → chLt t s = false → s = t
  | [], [], _, _ => rfl
  | [], _ :: _, h, _ => by simp [chLt] at h
  | _ :: _, [], _, h => by simp [chLt] at h
  | a :: s, b :: t, h₁, h₂ => by
    rcases lt_trichotomy a b with hab | hab | hab
    · simp [chLt, hab] at h₁
    · subst hab
      simp only [chLt, lt_irrefl, if_false] at h₁ h₂
      rw [chLt_conn s t h₁ h₂]
    · simp [chLt, hab] at h₂

instance : IsTotal String IdLe :=
  ⟨fun s t => by
    unfold IdLe strLe
    cases h : chLt t.data s.data
    · left; simp
    · right; simp [chLt_asymm _ _ h]⟩

instance : IsTrans String IdLe :=
  ⟨fun s t u h₁ h₂ => by
    unfold IdLe strLe at h₁ h₂ ⊢
    simp only [Bool.not_eq_true'] at h₁ h₂ ⊢
    cases hus : chLt u.data s.data
    · rfl
    · exfalso
      cases hst : chLt s.data t.data
      · have hdata : s.data = t.data := chLt_conn _ _ hst h₁
        rw [hdata] at hus
        rw [hus] at h₂
        exact Bool.noConfusion h₂
      · have htr := chLt_trans _ _ _ hus hst
        rw [htr] at h₂
        exact Bool.noConfusion h₂⟩

instance : IsAntisymm String IdLe :=
  ⟨fun s t h₁ h₂ => by
    unfold IdLe strLe at h₁ h₂
    simp only [Bool.not_eq_true'] at h₁ h₂
    exact String.ext (chLt_conn _ _ h₂ h₁)⟩

theorem pySorted_perm (l : List String) : (pySorted l).Perm l :=
  List.perm_insertionSort IdLe l

theorem pySorted_sorted (l : List String) : List.Sorted IdLe (pySorted l) :=
  List.sorted_insertionSort IdLe l

theorem pySorted_eq_of_perm {l₁ l₂ : List String} (h : l₁.Perm l₂) :
    pySorted l₁ = pySorted l₂ :=
  List.eq_of_perm_of_sorted
    (((pySorted_perm l₁).trans h).trans (pySorted_perm l₂).symm)
    (pySorted_sorted l₁) (pySorted_sorted l₂)

theorem mem_pySorted {x : String} {l : List String} :
    x ∈ pySorted l ↔ x ∈ l :=
  (pySorted_perm l).mem_iff

theorem pySorted_nodup {l : List String} (h : l.Nodup) :
    (pySorted l).Nodup :=
  ((pySorted_perm l).nodup_iff).mpr h

/-! ## Properties of the dict primitives -/

theorem lookup_eq_none_of_not_mem {β : Type} {k : String} :
    ∀ {d : List (String × β)}, k ∉ d.map Prod.fst → d.lookup k = none
  | [], _ => rfl
  | (a, b) :: d, h => by
    simp only [List.map_cons, List.mem_cons, not_or] at h
    have hb : (k == a) = false := beq_eq_false_iff_ne.mpr h.1
    simp only [List.lookup, hb]
    exact lookup_eq_none_of_not_mem h.2

theorem lookup_isSome_of_mem {β : Type} {k : String} :
    ∀ {d : List (String × β)}, k ∈ d.map Prod.fst → ∃ w, d.lookup k = some w
  | [], h => by simp at h
  | (a, b) :: d, h => by
    by_cases he : k = a
    · subst he
      exact ⟨b, by simp [List.lookup]⟩
    · have hb : (k == a) = false := beq_eq_false_iff_ne.mpr he
      simp only [List.lookup, hb]
      simp only [List.map_cons, List.mem_cons] at h
      exact lookup_isSome_of_mem (h.resolve_left he)

theorem lookup_append {β : Type} (k : String) :
    ∀ l₁ l₂ : List (String × β),
      (l₁ ++ l₂).lookup k =
        match l₁.lookup k with
        | some v => some v
        | none => l₂.lookup k
  | [], l₂ => by simp [List.lookup]
  | (a, b) :: l₁, l₂ => by
    by_cases h : k = a
    · subst h; simp [List.lookup]
    · have hb : (k == a) = false := beq_eq_false_iff_ne.mpr h
      simp only [List.cons_append, List.lookup, hb]
      exact lookup_append k l₁ l₂

theorem lookup_map_replace {β : Type} (k : String) (v : β) :
    ∀ d : List (String × β),
      ((d.map fun p => if p.1 == k then (k, v) else p).lookup k) =
        (d.lookup k).map (fun _ => v)
  | [] => rfl
  | (a, b) :: d => by
    by_cases h : a = k
    · subst h
      rw [List.map_cons, if_pos (beq_self_eq_true a)]
      simp only [List.lookup, beq_self_eq_true, Option.map_some]
      rfl
    · have hb : (a == k) = false := beq_eq_false_iff_ne.mpr h
      have hb₂ : (k == a) = false := beq_eq_false_iff_ne.mpr (Ne.symm h)
      rw [List.map_cons, if_neg (by rw [hb]; exact Bool.false_ne_true)]
      simp only [List.lookup, hb₂]
      exact lookup_map_replace k v d

theorem lookup_map_replace_ne {β : Type} {k k₂ : String} (v : β)
    (hne : k₂ ≠ k) :
    ∀ d : List (String × β),
      ((d.map fun p => if p.1 == k then (k, v) else p).lookup k₂) = d.lookup k₂
  | [] => rfl
  | (a, b) :: d => by
    by_cases h : a = k
    · subst h
      have hb : (k₂ == a) = false := beq_eq_false_iff_ne.mpr hne
      rw [List.map_cons, if_pos (beq_self_eq_true a)]
      simp only [List.lookup, hb]
      exact lookup_map_replace_ne v hne d
    · have hb : (a == k) = false := beq_eq_false_iff_ne.mpr h
      rw [List.map_cons, if_neg (by rw [hb]; exact Bool.false_ne_true)]
      simp only [List.lookup]
      cases hc : (k₂ == a) with
      | true => rfl
      | false => exact lookup_map_replace_ne v hne d

theorem any_key_iff {β : Type} {k : String} {d : List (String × β)} :
    d.any (fun p => p.1 == k) = true ↔ k ∈ d.map Prod.fst := by
  simp only [List.any_eq_true, beq_iff_eq, List.mem_map]

theorem dictSet_of_not_mem {β : Type} {k : String} {d : List (String × β)}
    (v : β) (h : k ∉ d.map Prod.fst) : dictSet d k v = d ++ [(k, v)] := by
  unfold dictSet
  rw [if_neg fun hc => h (any_key_iff.mp hc)]

theorem lookup_dictSet_self {β : Type} (d : List (String × β)) (k : String)
    (v : β) : (dictSet d k v).lookup k = some v := by
  unfold dictSet
  by_cases h : d.any (fun p => p.1 == k) = true
  · rw [if_pos h, lookup_map_replace]
    rcases lookup_isSome_of_mem (any_key_iff.mp h) with ⟨w, hw⟩
    rw [hw]; rfl
  · rw [if_neg h, lookup_append]
    rw [lookup_eq_none_of_not_mem (fun hc => h (any_key_iff.mpr hc))]
    simp [List.lookup]

theorem lookup_dictSet_ne {β : Type} {k k₂ : String} (d : List (String × β))
    (v : β) (hne : k₂ ≠ k) : (dictSet d k v).lookup k₂ = d.lookup k₂ := by
  unfold dictSet
  by_cases h : d.any (fun p => p.1 == k) = true
  · rw [if_pos h, lookup_map_replace_ne v hne]
  · rw [if_neg h, lookup_append]
    cases hc : d.lookup k₂ with
    | some w => rfl
    | none =>
      have hb : (k₂ == k) = false := beq_eq_false_iff_ne.mpr hne
      simp [List.lookup, hb]

theorem keys_dictSet_of_mem {β : Type} {k : String} {d : List (String × β)}
    (v : β) (h : k ∈ d.map Prod.fst) :
    (dictSet d k v).map Prod.fst = d.map Prod.fst := by
  unfold dictSet
  rw [if_pos (any_key_iff.mpr h), List.map_map]
  apply List.map_congr_left
  intro p _
  show (Prod.fst (if (p.1 == k) = true then (k, v) else p)) = p.1
  by_cases he : (p.1 == k) = true
  · rw [if_pos he]
    exact (beq_iff_eq.mp he).symm
  · rw [if_neg he]

theorem keys_dictSet_of_not_mem {β : Type} {k : String}
    {d : List (String × β)} (v : β) (h : k ∉ d.map Prod.fst) :
    (dictSet d k v).map Prod.fst = d.map Prod.fst ++ [k] := by
  rw [dictSet_of_not_mem v h]
  simp

theorem lookup_dictMerge {b : List (String × String)}
    (hb : (b.map Prod.fst).Nodup) (a : List (String × String)) (k : String) :
    (dictMerge a b).lookup k =
      match b.lookup k with
      | some v => some v
      | none => a.lookup k := by
  induction b generalizing a with
  | nil => rfl
  | cons p b ih =>
    cases p with
    | mk k₁ v₁ =>
      simp only [List.map_cons, List.nodup_cons] at hb
      show (dictMerge (dictSet a k₁ v₁) b).lookup k = _
      rw [ih hb.2]
      by_cases h : k = k₁
      · subst h
        rw [lookup_eq_none_of_not_mem hb.1, lookup_dictSet_self]
        simp [List.lookup]
      · have hbeq : (k == k₁) = false := beq_eq_false_iff_ne.mpr h
        rw [lookup_dictSet_ne a v₁ h]
        simp only [List.lookup, hbeq]

/-- Association-list lookup over a tabulated function. -/
theorem lookup_map_pair {β : Type} (f : String → β) (k : String) :
    ∀ l : List String,
      ((l.map fun x => (x, f x)).lookup k) =
        if k ∈ l then some (f k) else none
  | [] => by simp [List.lookup]
  | a :: l => by
    by_cases h : k = a
    · subst h; simp [List.lookup]
    · have hb : (k == a) = false := beq_eq_false_iff_ne.mpr h
      simp only [List.map_cons, List.lookup, hb, List.mem_cons]
      rw [lookup_map_pair f k l]
      by_cases hm : k ∈ l <;> simp [hm, h]

namespace TaskGraph

theorem visit_visiting {g : TaskGraph} {univ : List String} {fuel : Nat}
    {tid : String} {s : TopoState} (h : s.state tid = Visit.VISITING) :
    visit g univ fuel tid s =
      .error (.CycleError
        (s.stack.drop ((s.pos.lookup tid).getD 0) ++ [tid])) := by
  conv_lhs => rw [visit.eq_def]
  rw [if_pos h]

theorem visit_visited {g : TaskGraph} {univ : List String} {fuel : Nat}
    {tid : String} {s : TopoState} (h₁ : s.state tid ≠ Visit.VISITING)
    (h₂ : s.state tid = Visit.VISITED) :
    visit g univ fuel tid s = .ok s := by
  conv_lhs => rw [visit.eq_def]
  rw [if_neg h₁, if_pos h₂]

theorem visit_zero {g : TaskGraph} {univ : List String}
    {tid : String} {s : TopoState} (h₁ : s.state tid ≠ Visit.VISITING)
    (h₂ : s.state tid ≠ Visit.VISITED) :
    visit g univ 0 tid s = .error .OutOfFuel := by
  conv_lhs => rw [visit.eq_def]
  rw [if_neg h₁, if_neg h₂]

theorem visit_succ {g : TaskGraph} {univ : List String} {fuel : Nat}
    {tid : String} {s : TopoState} (h₁ : s.state tid ≠ Visit.VISITING)
    (h₂ : s.state tid ≠ Visit.VISITED) :
    visit g univ (fuel + 1) tid s =
      ((g.depsOf tid).foldlM
          (fun t dep => if dep ∈ univ then visit g univ fuel dep t else .ok t)
          (pushTid s tid)).bind
        (fun s₂ => .ok (popTid s₂ tid)) := by
  conv_lhs => rw [visit.eq_def]
  rw [if_neg h₁, if_neg h₂]
  rfl

theorem mem_of_getElem {α : Type} {l : List α} {i : Nat} {x : α}
    (h : l[i]? = some x) : x ∈ l :=
  List.mem_iff_getElem?.mpr ⟨i, h⟩

/-- The `CycleError` raised on reaching an in-progress node is a sound
cycle report. -/
theorem cycle_raise_sound {g : TaskGraph} {univ : List String} {tid : String}
    {s : TopoState} (inv : TopoInv g univ s) (htid : tid ∈ univ)
    (ctx : CtxOK g s tid) (h : s.state tid = Visit.VISITING) :
    CycleSound g univ (s.stack.drop ((s.pos.lookup tid).getD 0) ++ [tid]) := by
  have hmem : tid ∈ s.stack := (inv.visiting_iff tid).mp h
  rcases List.mem_iff_getElem?.mp hmem with ⟨i, hi⟩
  have hpos : s.pos.lookup tid = some i := inv.pos_idx i tid hi
  rw [hpos]
  simp only [Option.getD_some]
  have hd_head : (s.stack.drop i).head? = some tid := by
    rw [List.head?_drop]; exact hi
  have hd_ne : s.stack.drop i ≠ [] := by
    intro hc; rw [hc] at hd_head; exact Option.noConfusion hd_head
  have hs_ne : s.stack ≠ [] := by
    intro hc; rw [hc] at hmem; exact List.not_mem_nil tid hmem
  rcases List.eq_nil_or_concat s.stack with hc | ⟨L, p, hLp⟩
  · exact absurd hc hs_ne
  rw [List.concat_eq_append] at hLp
  have hlast : s.stack.getLast? = some p := by rw [hLp]; exact List.getLast?_concat L
  have hdep : tid ∈ g.depsOf p := ctx p hlast
  have hd_last : (s.stack.drop i).getLast? = some p := by
    have := List.take_append_drop i s.stack
    calc (s.stack.drop i).getLast? = (s.stack.take i ++ s.stack.drop i).getLast? :=
          (List.getLast?_append_of_ne_nil _ hd_ne).symm
      _ = s.stack.getLast? := by rw [this]
      _ = some p := hlast
  refine ⟨⟨?_, ?_, ?_⟩, ?_⟩
  · rw [List.chain'_append]
    refine ⟨inv.stack_chain.suffix (List.drop_suffix i s.stack),
      List.chain'_singleton tid, ?_⟩
    intro x hx y hy
    simp only [List.head?_cons, Option.mem_def, Option.some_inj] at hy
    rw [hd_last] at hx
    simp only [Option.mem_def, Option.some_inj] at hx
    subst hx; subst hy
    exact hdep
  · rw [List.head?_append, hd_head, Option.or_some, List.getLast?_concat]
  · have : 1 ≤ (s.stack.drop i).length := by
      cases hc : s.stack.drop i with
      | nil => exact absurd hc hd_ne
      | cons a t => simp
    simp only [List.length_append, List.length_cons, List.length_nil]
    omega
  · intro x hx
    rcases List.mem_append.mp hx with hx | hx
    · exact inv.stack_univ x (List.mem_of_mem_drop hx)
    · simp only [List.mem_singleton] at hx
      subst hx; exact htid

/-- Pushing an unvisited `tid` preserves the traversal invariant and puts
`tid` on top of the stack. -/
theorem pushTid_inv {g : TaskGraph} {univ : List String} {tid : String}
    {s : TopoState} (inv : TopoInv g univ s) (htid : tid ∈ univ)
    (ctx : CtxOK g s tid) (hU : s.state tid = Visit.UNVISITED) :
    TopoInv g univ (pushTid s tid) ∧
      (pushTid s tid).stack.getLast? = some tid := by
  have htid_stack : tid ∉ s.stack := by
    intro hc
    have := (inv.visiting_iff tid).mpr hc
    rw [hU] at this
    exact Visit.noConfusion this
  have htid_out : tid ∉ s.out := by
    intro hc
    have := (inv.visited_iff tid).mpr hc
    rw [hU] at this
    exact Visit.noConfusion this
  refine ⟨⟨?_, ?_, ?_, ?_, ?_, ?_, ?_, ?_, ?_⟩, ?_⟩
  · intro x
    by_cases hx : x = tid
    · subst hx
      simp [pushTid]
    · simp only [pushTid, if_neg hx, List.mem_append, List.mem_singleton]
      rw [inv.visiting_iff x]
      exact ⟨fun h => Or.inl h, fun h => h.resolve_right hx⟩
  · intro x
    by_cases hx : x = tid
    · subst hx
      simp only [pushTid, if_pos rfl]
      exact ⟨fun h => Visit.noConfusion h, fun h => absurd h htid_out⟩
    · simp only [pushTid, if_neg hx]
      exact inv.visited_iff x
  · simp only [pushTid]
    rw [List.nodup_append]
    exact ⟨inv.stack_nodup, List.nodup_singleton tid,
      fun x hx hx' => htid_stack ((List.mem_singleton.mp hx') ▸ hx)⟩
  · exact inv.out_nodup
  · intro x hx
    simp only [pushTid, List.mem_append, List.mem_singleton] at hx
    rcases hx with hx | hx
    · exact inv.stack_univ x hx
    · subst hx; exact htid
  · exact inv.out_univ
  · simp only [pushTid]
    rw [List.chain'_append]
    refine ⟨inv.stack_chain, List.chain'_singleton tid, ?_⟩
    intro x hx y hy
    simp only [List.head?_cons, Option.mem_def, Option.some_inj] at hy
    subst hy
    exact ctx x hx
  · intro i x hix
    simp only [pushTid] at hix ⊢
    rw [List.getElem?_append] at hix
    by_cases hlt : i < s.stack.length
    · rw [if_pos hlt] at hix
      have hxs : x ∈ s.stack := mem_of_getElem hix
      have hxne : (x == tid) = false :=
        beq_eq_false_iff_ne.mpr (fun he => htid_stack (he ▸ hxs))
      simp only [List.lookup, hxne]
      exact inv.pos_idx i x hix
    · rw [if_neg hlt] at hix
      have h0 : i - s.stack.length = 0 := by
        cases hc : i - s.stack.length with
        | zero => rfl
        | succ m => rw [hc] at hix; simp at hix
      have hx : x = tid := by
        rw [h0] at hix
        simp at hix
        exact hix.symm
      subst hx
      have hieq : i = s.stack.length := by omega
      subst hieq
      simp [List.lookup]
  · intro j x hjx d hd hdu
    exact inv.out_before j x hjx d hd hdu
  · simp only [pushTid]
    exact List.getLast?_concat s.stack

/-- Popping `tid` after a successful dependency fold restores the outer
stack and position table and yields the full `visit` postcondition. -/
theorem popTid_post {g : TaskGraph} {univ : List String} {tid : String}
    {s s₂ : TopoState} (inv : TopoInv g univ s) (htid : tid ∈ univ)
    (hU : s.state tid = Visit.UNVISITED)
    (fp : FoldPost g univ (pushTid s tid) s₂ (g.depsOf tid)) :
    VisitPost g univ s (popTid s₂ tid) tid := by
  have htid_stack : tid ∉ s.stack := by
    intro hc
    have := (inv.visiting_iff tid).mpr hc
    rw [hU] at this
    exact Visit.noConfusion this
  have hst₂ : s₂.stack = s.stack ++ [tid] := fp.stack_eq
  have hpos₂ : s₂.pos = (tid, s.stack.length) :: s.pos := fp.pos_eq
  have hs₂tid : s₂.state tid = Visit.VISITING := by
    have h₁ : (pushTid s tid).state tid = Visit.VISITING := by
      show (if tid = tid then Visit.VISITING else s.state tid) = _
      rw [if_pos rfl]
    have := fp.mono tid (by rw [h₁]; exact fun h => Visit.noConfusion h)
    rw [this, h₁]
  have htid_out₂ : tid ∉ s₂.out := by
    intro hc
    have := (fp.inv.visited_iff tid).mpr hc
    rw [hs₂tid] at this
    exact Visit.noConfusion this
  have hstate_tid : (popTid s₂ tid).state tid = Visit.VISITED := by
    show (if tid = tid then Visit.VISITED else s₂.state tid) = _
    rw [if_pos rfl]
  have hstate_ne : ∀ x, x ≠ tid → (popTid s₂ tid).state x = s₂.state x := by
    intro x hx
    show (if x = tid then Visit.VISITED else s₂.state x) = _
    rw [if_neg hx]
  have hstack_pop : (popTid s₂ tid).stack = s.stack := by
    show s₂.stack.dropLast = s.stack
    rw [hst₂, List.dropLast_concat]
  have hpos_pop : (popTid s₂ tid).pos = s.pos := by
    show s₂.pos.eraseP (fun p => p.1 == tid) = s.pos
    rw [hpos₂]
    exact List.eraseP_cons_of_pos (by simp)
  have hout_pop : (popTid s₂ tid).out = s₂.out ++ [tid] := rfl
  have hpush_ne : ∀ x, x ≠ tid → (pushTid s tid).state x = s.state x := by
    intro x hx
    show (if x = tid then Visit.VISITING else s.state x) = _
    rw [if_neg hx]
  have hmono : ∀ x, s.state x ≠ Visit.UNVISITED →
      (popTid s₂ tid).state x = s.state x := by
    intro x hx
    have hxne : x ≠ tid := fun he => hx (he ▸ hU)
    rw [hstate_ne x hxne, fp.mono x (by rw [hpush_ne x hxne]; exact hx),
      hpush_ne x hxne]
  refine ⟨⟨?_, ?_, ?_, ?_, ?_, ?_, ?_, ?_, ?_⟩, hstack_pop, hpos_pop, hmono,
    hstate_tid, ?_⟩
  · intro x
    rw [hstack_pop]
    by_cases hx : x = tid
    · subst hx
      rw [hstate_tid]
      exact ⟨fun h => Visit.noConfusion h, fun hc => absurd hc htid_stack⟩
    · rw [hstate_ne x hx, fp.inv.visiting_iff x, hst₂, List.mem_append,
        List.mem_singleton]
      exact ⟨fun h => h.resolve_right hx, fun h => Or.inl h⟩
  · intro x
    rw [hout_pop, List.mem_append, List.mem_singleton]
    by_cases hx : x = tid
    · subst hx
      rw [hstate_tid]
      exact ⟨fun _ => Or.inr rfl, fun _ => rfl⟩
    · rw [hstate_ne x hx, fp.inv.visited_iff x]
      exact ⟨fun h => Or.inl h, fun h => h.resolve_right hx⟩
  · rw [hstack_pop]
    exact inv.stack_nodup
  · rw [hout_pop, List.nodup_append]
    exact ⟨fp.inv.out_nodup, List.nodup_singleton tid,
      fun x hx hx' => htid_out₂ ((List.mem_singleton.mp hx') ▸ hx)⟩
  · intro x hx
    rw [hstack_pop] at hx
    exact inv.stack_univ x hx
  · intro x hx
    rw [hout_pop, List.mem_append, List.mem_singleton] at hx
    rcases hx with hx | hx
    · exact fp.inv.out_univ x hx
    · subst hx; exact htid
  · rw [hstack_pop]
    exact inv.stack_chain
  · intro i x hix
    rw [hstack_pop] at hix
    rw [hpos_pop]
    exact inv.pos_idx i x hix
  · intro j x hjx d hd hdu
    rw [hout_pop] at hjx ⊢
    rw [List.getElem?_append] at hjx
    by_cases hlt : j < s₂.out.length
    · rw [if_pos hlt] at hjx
      rcases fp.inv.out_before j x hjx d hd hdu with ⟨i, hij, hi⟩
      refine ⟨i, hij, ?_⟩
      rw [List.getElem?_append, if_pos (lt_trans hij hlt)]
      exact hi
    · rw [if_neg hlt] at hjx
      have h0 : j - s₂.out.length = 0 := by
        cases hc : j - s₂.out.length with
        | zero => rfl
        | succ m => rw [hc] at hjx; simp at hjx
      have hx : x = tid := by
        rw [h0] at hjx
        simp at hjx
        exact hjx.symm
      subst hx
      have hdv : s₂.state d = Visit.VISITED := fp.deps_done d hd hdu
      have hdo : d ∈ s₂.out := (fp.inv.visited_iff d).mp hdv
      rcases List.mem_iff_getElem?.mp hdo with ⟨i, hi⟩
      have hib : i < s₂.out.length := by
        rcases List.getElem?_eq_some.mp hi with ⟨hb, _⟩
        exact hb
      refine ⟨i, by omega, ?_⟩
      rw [List.getElem?_append, if_pos hib]
      exact hi
  · rcases fp.out_ext with ⟨t, ht⟩
    refine ⟨t ++ [tid], ?_⟩
    rw [hout_pop, ht]
    show (pushTid s tid).out ++ t ++ [tid] = _
    rw [List.append_assoc]
    rfl

/-- Soundness of the dependency fold of `visit`, given soundness of `visit`
at the inner fuel. -/
theorem foldVisit_sound (g : TaskGraph) (univ : List String) (fuel : Nat)
    (IH : ∀ (tid : String) (s : TopoState), TopoInv g univ s → tid ∈ univ →
      CtxOK g s tid →
      (∀ e, visit g univ fuel tid s = .error e → ErrSound g univ e) ∧
      (∀ s', visit g univ fuel tid s = .ok s' → VisitPost g univ s s' tid))
    (tid0 : String) :
    ∀ (l : List String), (∀ d ∈ l, d ∈ g.depsOf tid0) →
    ∀ s : TopoState, TopoInv g univ s → s.stack.getLast? = some tid0 →
    (∀ e, l.foldlM
        (fun t dep => if dep ∈ univ then visit g univ fuel dep t else .ok t) s
        = .error e → ErrSound g univ e) ∧
    (∀ s', l.foldlM
        (fun t dep => if dep ∈ univ then visit g univ fuel dep t else .ok t) s
        = .ok s' → FoldPost g univ s s' l) := by
  intro l
  induction l with
  | nil =>
    intro _ s inv _
    constructor
    · intro e he
      rw [List.foldlM_nil] at he
      exact Except.noConfusion he
    · intro s' hs'
      rw [List.foldlM_nil] at hs'
      have : s = s' := Except.noConfusion hs' (fun h => h)
      subst this
      exact ⟨inv, rfl, rfl, fun _ _ => rfl, ⟨[], by simp⟩, by simp⟩
  | cons d l ihl =>
    intro hsub s inv hlast
    rw [List.foldlM_cons]
    by_cases hdu : d ∈ univ
    · rw [if_pos hdu]
      have hctx : CtxOK g s d := by
        intro p hp
        rw [hlast] at hp
        rw [← Option.some_inj.mp hp]
        exact hsub d (List.mem_cons_self d l)
      rcases IH d s inv hdu hctx with ⟨herr, hok⟩
      cases hv : visit g univ fuel d s with
      | error e =>
        constructor
        · intro e' he'
          have : Except.error e = Except.error e' := he'
          have he : e = e' := Except.noConfusion this (fun h => h)
          exact he ▸ herr e hv
        · intro s' hs'
          exact Except.noConfusion hs'
      | ok s₁ =>
        have post₁ := hok s₁ hv
        have hlast₁ : s₁.stack.getLast? = some tid0 := by
          rw [post₁.stack_eq]; exact hlast
        rcases ihl (fun x hx => hsub x (List.mem_cons_of_mem d hx)) s₁
          post₁.inv hlast₁ with ⟨herr₂, hok₂⟩
        constructor
        · intro e he
          exact herr₂ e he
        · intro s' hs'
          have post₂ := hok₂ s' hs'
          refine ⟨post₂.inv, ?_, ?_, ?_, ?_, ?_⟩
          · rw [post₂.stack_eq, post₁.stack_eq]
          · rw [post₂.pos_eq, post₁.pos_eq]
          · intro x hx
            rw [post₂.mono x (by rw [post₁.mono x hx]; exact hx),
              post₁.mono x hx]
          · rcases post₁.out_ext with ⟨t₁, ht₁⟩
            rcases post₂.out_ext with ⟨t₂, ht₂⟩
            exact ⟨t₁ ++ t₂, by rw [ht₂, ht₁, List.append_assoc]⟩
          · intro x hx hxu
            rcases List.mem_cons.mp hx with hx | hx
            · subst hx
              rw [post₂.mono x (by rw [post₁.visited]; exact fun h => Visit.noConfusion h)]
              exact post₁.visited
            · exact post₂.deps_done x hx hxu
    · rw [if_neg hdu]
      rcases ihl (fun x hx => hsub x (List.mem_cons_of_mem d hx)) s inv hlast
        with ⟨herr₂, hok₂⟩
      constructor
      · intro e he
        exact herr₂ e he
      · intro s' hs'
        have post₂ := hok₂ s' hs'
        refine ⟨post₂.inv, post₂.stack_eq, post₂.pos_eq, post₂.mono,
          post₂.out_ext, ?_⟩
        intro x hx hxu
        rcases List.mem_cons.mp hx with hx | hx
        · subst hx
          exact absurd hxu hdu
        · exact post₂.deps_done x hx hxu

/-- Master soundness lemma for `visit`: with a well-formed state, a
universe member as argument and a valid call context, every error is a
sound cycle report (or fuel exhaustion) and every success satisfies
`VisitPost`. -/
theorem visit_sound (g : TaskGraph) (univ : List String) :
    ∀ (fuel : Nat) (tid : String) (s : TopoState),
      TopoInv g univ s → tid ∈ univ → CtxOK g s tid →
      (∀ e, visit g univ fuel tid s = .error e → ErrSound g univ e) ∧
      (∀ s', visit g univ fuel tid s = .ok s' → VisitPost g univ s s' tid) := by
  intro fuel
  induction fuel with
  | zero =>
    intro tid s inv htid ctx
    by_cases h₁ : s.state tid = Visit.VISITING
    · constructor
      · intro e he
        rw [visit_visiting h₁] at he
        have := Except.noConfusion he (fun h => h)
        rw [← this]
        exact cycle_raise_sound inv htid ctx h₁
      · intro s' hs'
        rw [visit_visiting h₁] at hs'
        exact Except.noConfusion hs'
    · by_cases h₂ : s.state tid = Visit.VISITED
      · constructor
        · intro e he
          rw [visit_visited h₁ h₂] at he
          exact Except.noConfusion he
        · intro s' hs'
          rw [visit_visited h₁ h₂] at hs'
          have : s = s' := Except.noConfusion hs' (fun h => h)
          subst this
          exact ⟨inv, rfl, rfl, fun _ _ => rfl, h₂, ⟨[], by simp⟩⟩
      · constructor
        · intro e he
          rw [visit_zero h₁ h₂] at he
          have := Except.noConfusion he (fun h => h)
          rw [← this]
          trivial
        · intro s' hs'
          rw [visit_zero h₁ h₂] at hs'
          exact Except.noConfusion hs'
  | succ fuel IH =>
    intro tid s inv htid ctx
    by_cases h₁ : s.state tid = Visit.VISITING
    · constructor
      · intro e he
        rw [visit_visiting h₁] at he
        have := Except.noConfusion he (fun h => h)
        rw [← this]
        exact cycle_raise_sound inv htid ctx h₁
      · intro s' hs'
        rw [visit_visiting h₁] at hs'
        exact Except.noConfusion hs'
    · by_cases h₂ : s.state tid = Visit.VISITED
      · constructor
        · intro e he
          rw [visit_visited h₁ h₂] at he
          exact Except.noConfusion he
        · intro s' hs'
          rw [visit_visited h₁ h₂] at hs'
          have : s = s' := Except.noConfusion hs' (fun h => h)
          subst this
          exact ⟨inv, rfl, rfl, fun _ _ => rfl, h₂, ⟨[], by simp⟩⟩
      · have hU : s.state tid = Visit.UNVISITED := by
          cases hs : s.state tid
          · rfl
          · exact absurd hs h₁
          · exact absurd hs h₂
        rcases pushTid_inv inv htid ctx hU with ⟨inv₁, hlast₁⟩
        rcases foldVisit_sound g univ fuel IH tid (g.depsOf tid)
          (fun _ hd => hd) (pushTid s tid) inv₁ hlast₁ with ⟨herr, hok⟩
        rw [visit_succ h₁ h₂]
        cases hfo : (g.depsOf tid).foldlM
            (fun t dep => if dep ∈ univ then visit g univ fuel dep t else .ok t)
            (pushTid s tid) with
        | error e =>
          constructor
          · intro e' he'
            have : (Except.error e : Except PyError TopoState).bind
                (fun s₂ => Except.ok (popTid s₂ tid)) = Except.error e := rfl
            rw [this] at he'
            have he : e = e' := Except.noConfusion he' (fun h => h)
            exact he ▸ herr e hfo
          · intro s' hs'
            exact Except.noConfusion hs'
        | ok s₂ =>
          have hbind : (Except.ok s₂ : Except PyError TopoState).bind
              (fun s₂ => Except.ok (popTid s₂ tid)) =
              Except.ok (popTid s₂ tid) := rfl
          constructor
          · intro e he
            rw [hbind] at he
            exact Except.noConfusion he
          · intro s' hs'
            rw [hbind] at hs'
            have : popTid s₂ tid = s' := Except.noConfusion hs' (fun h => h)
            rw [← this]
            exact popTid_post inv htid hU (hok s₂ hfo)

/-- Pushing an unvisited universe member decreases the unvisited count by
exactly one. -/
theorem ucount_pushTid {univ : List String} {tid : String} {s : TopoState}
    (hnd : univ.Nodup) (htid : tid ∈ univ)
    (hU : s.state tid = Visit.UNVISITED) :
    ucount univ (pushTid s tid) + 1 = ucount univ s := by
  rcases List.append_of_mem htid with ⟨l₁, l₂, hsplit⟩
  subst hsplit
  rw [List.nodup_append] at hnd
  have htid₁ : tid ∉ l₁ := fun hc =>
    hnd.2.2 hc (List.mem_cons_self tid l₂)
  have htid₂ : tid ∉ l₂ := by
    have := hnd.2.1
    rw [List.nodup_cons] at this
    exact this.1
  have hagree : ∀ x, x ≠ tid →
      ((pushTid s tid).state x == Visit.UNVISITED) =
        (s.state x == Visit.UNVISITED) := by
    intro x hx
    have : (pushTid s tid).state x = s.state x := by
      show (if x = tid then Visit.VISITING else s.state x) = _
      rw [if_neg hx]
    rw [this]
  unfold ucount
  rw [List.countP_append, List.countP_append, List.countP_cons,
    List.countP_cons]
  have h₁ : List.countP (fun x => (pushTid s tid).state x == Visit.UNVISITED) l₁ =
      List.countP (fun x => s.state x == Visit.UNVISITED) l₁ := by
    apply List.countP_congr
    intro x hx
    rw [hagree x (fun he => htid₁ (he ▸ hx))]
  have h₂ : List.countP (fun x => (pushTid s tid).state x == Visit.UNVISITED) l₂ =
      List.countP (fun x => s.state x == Visit.UNVISITED) l₂ := by
    apply List.countP_congr
    intro x hx
    rw [hagree x (fun he => htid₂ (he ▸ hx))]
  have hptid : ((pushTid s tid).state tid == Visit.UNVISITED) = false := by
    have : (pushTid s tid).state tid = Visit.VISITING := by
      show (if tid = tid then Visit.VISITING else s.state tid) = _
      rw [if_pos rfl]
    rw [this]
    rfl
  have hstid : (s.state tid == Visit.UNVISITED) = true := by rw [hU]; rfl
  rw [h₁, h₂, hptid, hstid, if_neg Bool.false_ne_true, if_pos rfl]
  omega

/-- Successful `visit` calls never decrease the set of non-unvisited
nodes, so the unvisited count is monotone. -/
theorem ucount_le_of_post {g : TaskGraph} {univ : List String} {tid : String}
    {s s' : TopoState} (post : VisitPost g univ s s' tid) :
    ucount univ s' ≤ ucount univ s := by
  apply List.countP_mono_left
  intro x _ hx
  by_contra hc
  have hne : s.state x ≠ Visit.UNVISITED := by
    intro he
    rw [he] at hc
    exact hc rfl
  rw [post.mono x hne] at hx
  have := beq_iff_eq.mp hx
  exact hne this

/-- The dependency fold never runs out of fuel when the unvisited count is
below the fuel, given the same property for `visit` at that fuel. -/
theorem foldVisit_no_fuel (g : TaskGraph) (univ : List String)
    (fuel : Nat)
    (IHv : ∀ (tid : String) (s : TopoState), TopoInv g univ s → tid ∈ univ →
      CtxOK g s tid → ucount univ s < fuel →
      visit g univ fuel tid s ≠ .error .OutOfFuel)
    (tid0 : String) :
    ∀ (l : List String), (∀ d ∈ l, d ∈ g.depsOf tid0) →
    ∀ s : TopoState, TopoInv g univ s → s.stack.getLast? = some tid0 →
      ucount univ s < fuel →
      l.foldlM
        (fun t dep => if dep ∈ univ then visit g univ fuel dep t else .ok t) s
        ≠ .error .OutOfFuel := by
  intro l
  induction l with
  | nil =>
    intro _ s _ _ _ hc
    rw [List.foldlM_nil] at hc
    exact Except.noConfusion hc
  | cons d l ihl =>
    intro hsub s inv hlast hcount
    rw [List.foldlM_cons]
    by_cases hdu : d ∈ univ
    · rw [if_pos hdu]
      have hctx : CtxOK g s d := by
        intro p hp
        rw [hlast] at hp
        rw [← Option.some_inj.mp hp]
        exact hsub d (List.mem_cons_self d l)
      cases hv : visit g univ fuel d s with
      | error e =>
        intro hc
        have he : e = PyError.OutOfFuel := Except.noConfusion hc (fun h => h)
        subst he
        exact IHv d s inv hdu hctx hcount hv
      | ok s₁ =>
        have post := (visit_sound g univ fuel d s inv hdu hctx).2 s₁ hv
        have hlast₁ : s₁.stack.getLast? = some tid0 := by
          rw [post.stack_eq]; exact hlast
        have hcount₁ : ucount univ s₁ < fuel :=
          lt_of_le_of_lt (ucount_le_of_post post) hcount
        exact ihl (fun x hx => hsub x (List.mem_cons_of_mem d hx)) s₁
          post.inv hlast₁ hcount₁
    · rw [if_neg hdu]
      exact ihl (fun x hx => hsub x (List.mem_cons_of_mem d hx)) s inv hlast
        hcount

/-- `visit` never runs out of fuel while the unvisited count is below the
fuel. -/
theorem visit_no_fuel (g : TaskGraph) {univ : List String}
    (hnd : univ.Nodup) :
    ∀ (fuel : Nat) (tid : String) (s : TopoState), TopoInv g univ s →
      tid ∈ univ → CtxOK g s tid → ucount univ s < fuel →
      visit g univ fuel tid s ≠ .error .OutOfFuel := by
  intro fuel
  induction fuel with
  | zero =>
    intro tid s _ _ _ hcount
    omega
  | succ fuel IH =>
    intro tid s inv htid ctx hcount
    by_cases h₁ : s.state tid = Visit.VISITING
    · rw [visit_visiting h₁]
      intro hc
      exact PyError.noConfusion (Except.noConfusion hc (fun h => h))
    · by_cases h₂ : s.state tid = Visit.VISITED
      · rw [visit_visited h₁ h₂]
        intro hc
        exact Except.noConfusion hc
      · have hU : s.state tid = Visit.UNVISITED := by
          cases hs : s.state tid
          · rfl
          · exact absurd hs h₁
          · exact absurd hs h₂
        rcases pushTid_inv inv htid ctx hU with ⟨inv₁, hlast₁⟩
        have hcount₁ : ucount univ (pushTid s tid) < fuel := by
          have := ucount_pushTid hnd htid hU
          omega
        rw [visit_succ h₁ h₂]
        cases hfo : (g.depsOf tid).foldlM
            (fun t dep => if dep ∈ univ then visit g univ fuel dep t else .ok t)
            (pushTid s tid) with
        | error e =>
          intro hc
          have he : e = PyError.OutOfFuel := Except.noConfusion hc (fun h => h)
          subst he
          exact foldVisit_no_fuel g univ fuel IH tid (g.depsOf tid)
            (fun _ hd => hd) (pushTid s tid) inv₁ hlast₁ hcount₁ hfo
        | ok s₂ =>
          intro hc
          exact Except.noConfusion hc

/-- The initial traversal state satisfies the invariant. -/
theorem init_inv (g : TaskGraph) (univ : List String) :
    TopoInv g univ
      { state := fun _ => Visit.UNVISITED, out := [], stack := [], pos := [] } := by
  refine ⟨?_, ?_, ?_, ?_, ?_, ?_, ?_, ?_, ?_⟩
  · intro x
    exact ⟨fun h => Visit.noConfusion h, fun h => absurd h (List.not_mem_nil x)⟩
  · intro x
    exact ⟨fun h => Visit.noConfusion h, fun h => absurd h (List.not_mem_nil x)⟩
  · exact List.nodup_nil
  · exact List.nodup_nil
  · intro x hx
    exact absurd hx (List.not_mem_nil x)
  · intro x hx
    exact absurd hx (List.not_mem_nil x)
  · exact List.chain'_nil
  · intro i x hix
    rw [List.getElem?_nil] at hix
    exact Option.noConfusion hix
  · intro j x hjx
    rw [List.getElem?_nil] at hjx
    exact Option.noConfusion hjx

/-- Soundness of the top-level fold of `_toposort` over the sorted
universe. -/
theorem topFold_sound (g : TaskGraph) (univ : List String) (fuel : Nat) :
    ∀ (l : List String), (∀ x ∈ l, x ∈ univ) →
    ∀ s : TopoState, TopoInv g univ s → s.stack = [] →
    (∀ e, l.foldlM (fun t tid => visit g univ fuel tid t) s = .error e →
      ErrSound g univ e ∧ (univ.Nodup → fuel = univ.length + 1 → e ≠ .OutOfFuel)) ∧
    (∀ s', l.foldlM (fun t tid => visit g univ fuel tid t) s = .ok s' →
      TopoInv g univ s' ∧ s'.stack = [] ∧ (∃ t, s'.out = s.out ++ t) ∧
      (∀ x, s.state x ≠ Visit.UNVISITED → s'.state x = s.state x) ∧
      (∀ x ∈ l, s'.state x = Visit.VISITED)) := by
  intro l
  induction l with
  | nil =>
    intro _ s inv hstack
    constructor
    · intro e he
      rw [List.foldlM_nil] at he
      exact Except.noConfusion he
    · intro s' hs'
      rw [List.foldlM_nil] at hs'
      have : s = s' := Except.noConfusion hs' (fun h => h)
      subst this
      exact ⟨inv, hstack, ⟨[], by simp⟩, fun _ _ => rfl, by simp⟩
  | cons tid l ihl =>
    intro hsub s inv hstack
    rw [List.foldlM_cons]
    have htid : tid ∈ univ := hsub tid (List.mem_cons_self tid l)
    have ctx : CtxOK g s tid := by
      intro p hp
      rw [hstack] at hp
      exact Option.noConfusion hp
    rcases visit_sound g univ fuel tid s inv htid ctx with ⟨herr, hok⟩
    cases hv : visit g univ fuel tid s with
    | error e =>
      constructor
      · intro e' he'
        have he : e = e' := Except.noConfusion he' (fun h => h)
        subst he
        refine ⟨herr e hv, ?_⟩
        intro hnd hfuel hoof
        subst hoof
        subst hfuel
        have hcount : ucount univ s < univ.length + 1 :=
          Nat.lt_succ_of_le (List.countP_le_length _)
        exact visit_no_fuel g hnd (univ.length + 1) tid s inv htid ctx hcount hv
      · intro s' hs'
        exact Except.noConfusion hs'
    | ok s₁ =>
      have post := hok s₁ hv
      have hstack₁ : s₁.stack = [] := by rw [post.stack_eq]; exact hstack
      rcases ihl (fun x hx => hsub x (List.mem_cons_of_mem tid hx)) s₁
        post.inv hstack₁ with ⟨herr₂, hok₂⟩
      constructor
      · intro e he
        exact herr₂ e he
      · intro s' hs'
        rcases hok₂ s' hs' with ⟨inv₂, hstack₂, hout₂, hmono₂, hvisited₂⟩
        refine ⟨inv₂, hstack₂, ?_, ?_, ?_⟩
        · rcases post.out_ext with ⟨t₁, ht₁⟩
          rcases hout₂ with ⟨t₂, ht₂⟩
          exact ⟨t₁ ++ t₂, by rw [ht₂, ht₁, List.append_assoc]⟩
        · intro x hx
          rw [hmono₂ x (by rw [post.mono x hx]; exact hx), post.mono x hx]
        · intro x hx
          rcases List.mem_cons.mp hx with hx | hx
          · subst hx
            rw [hmono₂ x (by rw [post.visited]; exact fun h => Visit.noConfusion h)]
            exact post.visited
          · exact hvisited₂ x hx

/-- Every error of `_toposort` is a sound `CycleError`, provided the
universe has no duplicates. -/
theorem _toposort_err_sound (g : TaskGraph) {univ : List String}
    (hnd : univ.Nodup) {e : PyError} (he : g._toposort univ = .error e) :
    ∃ p, e = .CycleError p ∧ CycleSound g univ p := by
  have he₂ : ((pySorted univ).foldlM
      (fun t tid => visit g univ (univ.length + 1) tid t)
      { state := fun _ => Visit.UNVISITED, out := [], stack := [],
        pos := [] }).bind (fun s => Except.ok s.out) = Except.error e := he
  rcases topFold_sound g univ (univ.length + 1) (pySorted univ)
    (fun x hx => mem_pySorted.mp hx)
    { state := fun _ => Visit.UNVISITED, out := [], stack := [], pos := [] }
    (init_inv g univ) rfl with ⟨herr, hok⟩
  cases hfo : (pySorted univ).foldlM
      (fun t tid => visit g univ (univ.length + 1) tid t)
      { state := fun _ => Visit.UNVISITED, out := [], stack := [], pos := [] } with
  | error e' =>
    rw [hfo] at he₂
    have : e' = e := Except.noConfusion he₂ (fun h => h)
    subst this
    rcases herr e' hfo with ⟨hsound, hnotfuel⟩
    cases e' with
    | KeyError t => exact absurd hsound (by intro h; exact h)
    | CycleError p => exact ⟨p, rfl, hsound⟩
    | OutOfFuel => exact absurd rfl (hnotfuel hnd rfl)
  | ok s' =>
    rw [hfo] at he₂
    exact Except.noConfusion he₂

/-- Success of `_toposort` produces a duplicate-free enumeration of the
universe in which every in-universe dependency of an element appears
strictly earlier. -/
theorem _toposort_ok_sound (g : TaskGraph) {univ : List String}
    {r : List String} (hr : g._toposort univ = .ok r) :
    (∀ x, x ∈ r ↔ x ∈ univ) ∧ r.Nodup ∧
      (∀ (j : Nat) (x : String), r[j]? = some x → ∀ d ∈ g.depsOf x,
        d ∈ univ → ∃ i, i < j ∧ r[i]? = some d) := by
  have hr₂ : ((pySorted univ).foldlM
      (fun t tid => visit g univ (univ.length + 1) tid t)
      { state := fun _ => Visit.UNVISITED, out := [], stack := [],
        pos := [] }).bind (fun s => Except.ok s.out) = Except.ok r := hr
  rcases topFold_sound g univ (univ.length + 1) (pySorted univ)
    (fun x hx => mem_pySorted.mp hx)
    { state := fun _ => Visit.UNVISITED, out := [], stack := [], pos := [] }
    (init_inv g univ) rfl with ⟨herr, hok⟩
  cases hfo : (pySorted univ).foldlM
      (fun t tid => visit g univ (univ.length + 1) tid t)
      { state := fun _ => Visit.UNVISITED, out := [], stack := [], pos := [] } with
  | error e' =>
    rw [hfo] at hr₂
    exact Except.noConfusion hr₂
  | ok s' =>
    rw [hfo] at hr₂
    have hr' : s'.out = r := Except.noConfusion hr₂ (fun h => h)
    rcases hok s' hfo with ⟨inv', _, _, _, hvisited'⟩
    subst hr'
    refine ⟨?_, inv'.out_nodup, ?_⟩
    · intro x
      constructor
      · exact inv'.out_univ x
      · intro hx
        exact (inv'.visited_iff x).mp
          (hvisited' x (mem_pySorted.mpr hx))
    · intro j x hjx d hd hdu
      exact inv'.out_before j x hjx d hd hdu

theorem contains_append_singleton_ne {l : List String} {x y : String}
    (h : y ≠ x) : (l ++ [x]).contains y = l.contains y := by
  by_cases hm : y ∈ l
  · have h₁ : (l ++ [x]).contains y = true :=
      List.elem_iff.mpr (List.mem_append_left _ hm)
    have h₂ : l.contains y = true := List.elem_iff.mpr hm
    rw [h₁, h₂]
  · have h₁ : (l ++ [x]).contains y = false := by
      rw [← Bool.not_eq_true]
      intro hc
      rcases List.mem_append.mp (List.elem_iff.mp hc) with hc | hc
      · exact hm hc
      · exact h (List.mem_singleton.mp hc)
    have h₂ : l.contains y = false := by
      rw [← Bool.not_eq_true]
      intro hc
      exact hm (List.elem_iff.mp hc)
    rw [h₁, h₂]

theorem closureFuel_skip (g : TaskGraph) (needed rest : List String)
    (x : String) :
    closureFuel g needed rest < closureFuel g needed (x :: rest) := by
  unfold closureFuel
  simp only [List.length_cons]
  omega

theorem closureFuel_expand (g : TaskGraph)
    (hkeys : (g._deps.map Prod.fst).Nodup) (needed rest : List String)
    (x : String) (hx : x ∉ needed) :
    closureFuel g (needed ++ [x]) ((g.depsOf x).reverse ++ rest) <
      closureFuel g needed (x :: rest) := by
  by_cases hk : x ∈ g._deps.map Prod.fst
  · rcases List.append_of_mem hk with ⟨k₁, k₂, hsplit⟩
    have hx₁ : x ∉ k₁ := by
      rw [hsplit, List.nodup_append] at hkeys
      exact fun hc => hkeys.2.2 hc (List.mem_cons_self x k₂)
    have hx₂ : x ∉ k₂ := by
      rw [hsplit, List.nodup_append, List.nodup_cons] at hkeys
      exact hkeys.2.1.1
    have hagree : ∀ y, y ≠ x →
        (!(needed ++ [x]).contains y) = (!needed.contains y) := by
      intro y hy
      rw [contains_append_singleton_ne hy]
    have hfilter : ∀ k : List String, x ∉ k →
        k.filter (fun y => !(needed ++ [x]).contains y) =
          k.filter (fun y => !needed.contains y) := by
      intro k hxk
      apply List.filter_congr
      intro y hyk
      exact hagree y (fun he => hxk (he ▸ hyk))
    have hxnew : (!(needed ++ [x]).contains x) = false := by
      have : (needed ++ [x]).contains x = true :=
        List.elem_iff.mpr (List.mem_append_right _ (List.mem_singleton_self x))
      rw [this]
      rfl
    have hxold : (!needed.contains x) = true := by
      have : needed.contains x = false := by
        rw [← Bool.not_eq_true]
        intro hc
        exact hx (List.elem_iff.mp hc)
      rw [this]
      rfl
    unfold closureFuel
    rw [hsplit]
    rw [List.filter_append, List.filter_append, List.filter_cons,
      List.filter_cons, hfilter k₁ hx₁, hfilter k₂ hx₂, hxnew, hxold,
      if_neg Bool.false_ne_true, if_pos rfl]
    simp only [List.map_append, List.sum_append, List.length_append,
      List.length_cons, List.length_reverse, List.map_cons, List.sum_cons]
    omega
  · have hdeps : g.depsOf x = [] := by
      unfold depsOf
      rw [lookup_eq_none_of_not_mem hk]
      rfl
    have hfilter : (g._deps.map Prod.fst).filter
        (fun y => !(needed ++ [x]).contains y) =
        (g._deps.map Prod.fst).filter (fun y => !needed.contains y) := by
      apply List.filter_congr
      intro y hyk
      rw [contains_append_singleton_ne (fun (he : y = x) => hk (he ▸ hyk))]
    unfold closureFuel
    rw [hfilter, hdeps]
    simp only [List.length_append, List.length_cons, List.reverse_nil,
      List.length_nil]
    omega

/-- Characterization of the worklist closure loop: with sufficient fuel it
succeeds and returns a duplicate-free set that is reachable from the
target, closed under dependencies, and contains the target. -/
theorem closureLoop_ok (g : TaskGraph) (target : String)
    (hkeys : (g._deps.map Prod.fst).Nodup) :
    ∀ (fuel : Nat) (wl needed : List String),
      closureFuel g needed wl < fuel →
      needed.Nodup →
      (∀ y ∈ needed, Relation.ReflTransGen (Step g) target y) →
      (∀ y ∈ wl, Relation.ReflTransGen (Step g) target y) →
      (∀ y ∈ needed, ∀ d ∈ g.depsOf y, d ∈ needed ∨ d ∈ wl) →
      (target ∈ needed ∨ target ∈ wl) →
      ∃ res, closureLoop g fuel wl needed = .ok res ∧ res.Nodup ∧
        (∀ y ∈ res, Relation.ReflTransGen (Step g) target y) ∧
        (∀ y ∈ res, ∀ d ∈ g.depsOf y, d ∈ res) ∧ target ∈ res := by
  intro fuel
  induction fuel with
  | zero =>
    intro wl needed hm
    omega
  | succ fuel IH =>
    intro wl needed hm hnd hreach hwreach hclosed htarget
    cases wl with
    | nil =>
      refine ⟨needed, rfl, hnd, hreach, ?_, ?_⟩
      · intro y hy d hd
        rcases hclosed y hy d hd with h | h
        · exact h
        · exact absurd h (List.not_mem_nil d)
      · rcases htarget with h | h
        · exact h
        · exact absurd h (List.not_mem_nil target)
    | cons x rest =>
      have hstep : closureLoop g (fuel + 1) (x :: rest) needed =
          if x ∈ needed then closureLoop g fuel rest needed
          else closureLoop g fuel ((g.depsOf x).reverse ++ rest)
            (needed ++ [x]) := rfl
      rw [hstep]
      by_cases hxn : x ∈ needed
      · rw [if_pos hxn]
        apply IH rest needed
        · exact lt_of_lt_of_le (closureFuel_skip g needed rest x)
            (Nat.lt_succ_iff.mp hm)
        · exact hnd
        · exact hreach
        · exact fun y hy => hwreach y (List.mem_cons_of_mem x hy)
        · intro y hy d hd
          rcases hclosed y hy d hd with h | h
          · exact Or.inl h
          · rcases List.mem_cons.mp h with h | h
            · exact Or.inl (h ▸ hxn)
            · exact Or.inr h
        · rcases htarget with h | h
          · exact Or.inl h
          · rcases List.mem_cons.mp h with h | h
            · exact Or.inl (h ▸ hxn)
            · exact Or.inr h
      · rw [if_neg hxn]
        have hxreach : Relation.ReflTransGen (Step g) target x :=
          hwreach x (List.mem_cons_self x rest)
        apply IH
        · exact lt_of_lt_of_le (closureFuel_expand g hkeys needed rest x hxn)
            (Nat.lt_succ_iff.mp hm)
        · rw [List.nodup_append]
          exact ⟨hnd, List.nodup_singleton x,
            fun y hy hy' => hxn ((List.mem_singleton.mp hy') ▸ hy)⟩
        · intro y hy
          rcases List.mem_append.mp hy with h | h
          · exact hreach y h
          · rw [List.mem_singleton.mp h]
            exact hxreach
        · intro y hy
          rcases List.mem_append.mp hy with h | h
          · exact Relation.ReflTransGen.tail hxreach
              (by rw [List.mem_reverse] at h; exact h)
          · exact hwreach y (List.mem_cons_of_mem x h)
        · intro y hy d hd
          rcases List.mem_append.mp hy with h | h
          · rcases hclosed y h d hd with h' | h'
            · exact Or.inl (List.mem_append_left _ h')
            · rcases List.mem_cons.mp h' with h' | h'
              · exact Or.inl (List.mem_append_right _
                  (List.mem_singleton.mpr h'))
              · exact Or.inr (List.mem_append_right _ h')
          · have hyx : y = x := List.mem_singleton.mp h
            subst hyx
            exact Or.inr (List.mem_append_left _ (List.mem_reverse.mpr hd))
        · rcases htarget with h | h
          · exact Or.inl (List.mem_append_left _ h)
          · rcases List.mem_cons.mp h with h | h
            · exact Or.inl (List.mem_append_right _ (List.mem_singleton.mpr h))
            · exact Or.inr (List.mem_append_right _ h)

end TaskGraph

/-! ## Bridging the graph to the project's declared dependency relation -/

theorem mem_of_lookup_some {β : Type} {k : String} {v : β} :
    ∀ {d : List (String × β)}, d.lookup k = some v → k ∈ d.map Prod.fst := by
  intro d
  induction d with
  | nil => intro h; exact Option.noConfusion h
  | cons p d ih =>
    intro h
    cases p with
    | mk a b =>
      by_cases he : k = a
      · subst he
        exact List.mem_cons_self _ _
      · have hb : (k == a) = false := beq_eq_false_iff_ne.mpr he
        simp only [List.lookup, hb] at h
        exact List.mem_cons_of_mem _ (ih h)

namespace TaskGraph

theorem from_project_keys (p : ProjectConfig) :
    (from_project p)._deps.map Prod.fst = p.tasks_ids := by
  unfold from_project
  rw [List.map_map]
  have : ∀ x ∈ p.tasks_ids,
      (Prod.fst ∘ fun task_id =>
        (task_id, pySorted (((p.get_task task_id).map TaskConfig.deps).getD []))) x
        = id x := fun x _ => rfl
  rw [List.map_congr_left this, List.map_id]

theorem from_project_lookup (p : ProjectConfig) (a : String) :
    (from_project p)._deps.lookup a =
      if a ∈ p.tasks_ids then
        some (pySorted (((p.get_task a).map TaskConfig.deps).getD []))
      else none := by
  unfold from_project
  exact lookup_map_pair _ a p.tasks_ids

theorem mem_tasks_ids_iff (p : ProjectConfig) (a : String) :
    a ∈ p.tasks_ids ↔ a ∈ p.keys :=
  mem_pySorted

theorem from_project_depsOf (p : ProjectConfig) (a : String) :
    (from_project p).depsOf a =
      if a ∈ p.keys then
        pySorted (((p.get_task a).map TaskConfig.deps).getD [])
      else [] := by
  unfold depsOf
  rw [from_project_lookup]
  by_cases h : a ∈ p.keys
  · rw [if_pos ((mem_tasks_ids_iff p a).mpr h), if_pos h]
    rfl
  · rw [if_neg (fun hc => h ((mem_tasks_ids_iff p a).mp hc)), if_neg h]
    rfl

theorem from_project_step_iff (p : ProjectConfig) (a b : String) :
    Step (from_project p) a b ↔ p.DepRel a b := by
  unfold Step
  rw [from_project_depsOf]
  by_cases h : a ∈ p.keys
  · rw [if_pos h]
    cases hg : p.get_task a with
    | none =>
      rcases lookup_isSome_of_mem h with ⟨w, hw⟩
      rw [show p.get_task a = p.tasks.lookup a from rfl, hw] at hg
      exact Option.noConfusion hg
    | some t =>
      simp only [Option.map_some', Option.getD_some]
      constructor
      · intro hb
        exact ⟨t, hg, mem_pySorted.mp hb⟩
      · rintro ⟨t', ht', hb⟩
        have : t = t' := Option.some_inj.mp (hg ▸ ht')
        subst this
        exact mem_pySorted.mpr hb
  · rw [if_neg h]
    constructor
    · intro hb
      exact absurd hb (List.not_mem_nil b)
    · rintro ⟨t, ht, _⟩
      rw [show p.get_task a = p.tasks.lookup a from rfl,
        lookup_eq_none_of_not_mem h] at ht
      exact Option.noConfusion ht

end TaskGraph

/-! ## From reported cycle lists to the transitive closure -/

theorem chain_head_last_rtg {α : Type} {R : α → α → Prop} :
    ∀ (l : List α) (a b : α), l.Chain' R → l.head? = some a →
      l.getLast? = some b → Relation.ReflTransGen R a b := by
  intro l
  induction l with
  | nil =>
    intro a b _ ha _
    exact Option.noConfusion ha
  | cons x rest ih =>
    intro a b hchain ha hb
    have hax : a = x := Option.some_inj.mp ha.symm ▸ rfl
    cases rest with
    | nil =>
      have hbx : b = x := by
        simp only [List.getLast?_singleton, Option.some_inj] at hb
        exact hb.symm
      rw [show a = x from Option.some_inj.mp (by rw [← ha]; rfl)]
      rw [hbx]
    | cons y t =>
      rw [show a = x from Option.some_inj.mp (by rw [← ha]; rfl)]
      have hchain' := List.chain'_cons.mp hchain
      have hlast : (y :: t).getLast? = some b := by
        rw [← List.getLast?_cons_cons]
        exact hb
      exact Relation.ReflTransGen.head hchain'.1
        (ih y b hchain'.2 rfl hlast)

theorem isCycleList_transGen {α : Type} {R : α → α → Prop} {p : List α}
    (h : IsCycleList R p) : ∃ x, x ∈ p ∧ Relation.TransGen R x x := by
  rcases h with ⟨hchain, hclosed, hlen⟩
  cases p with
  | nil => simp at hlen
  | cons x rest =>
    cases rest with
    | nil => simp at hlen
    | cons y t =>
      refine ⟨x, List.mem_cons_self _ _, ?_⟩
      have hchain' := List.chain'_cons.mp hchain
      have hlast : (y :: t).getLast? = some x := by
        rw [← List.getLast?_cons_cons, ← hclosed]
        rfl
      exact Relation.TransGen.head' hchain'.1
        (chain_head_last_rtg (y :: t) y x hchain'.2 rfl hlast)

/-- A successful `_toposort`-style output admits no dependency cycle among
universe members. -/
theorem topo_ok_no_cycle {g : TaskGraph} {univ r : List String}
    (hmem : ∀ x, x ∈ r ↔ x ∈ univ) (hnd : r.Nodup)
    (hbefore : ∀ (j : Nat) (x : String), r[j]? = some x →
      ∀ d ∈ g.depsOf x, d ∈ univ → ∃ i, i < j ∧ r[i]? = some d)
    {x : String}
    (hcyc : Relation.TransGen
      (fun a b => b ∈ g.depsOf a ∧ a ∈ univ ∧ b ∈ univ) x x) :
    False := by
  have main : ∀ a b, Relation.TransGen
      (fun a b => b ∈ g.depsOf a ∧ a ∈ univ ∧ b ∈ univ) a b →
      ∀ (j : Nat), r[j]? = some a → ∃ i, i < j ∧ r[i]? = some b := by
    intro a b htg
    induction htg with
    | @single b' h =>
      intro j hj
      exact hbefore j a hj b' h.1 h.2.2
    | @tail b' c' htg hstep ih =>
      intro j hj
      rcases ih j hj with ⟨i, hij, hi⟩
      rcases hbefore i b' hi c' hstep.1 hstep.2.2 with ⟨i₂, hi₂, hri₂⟩
      exact ⟨i₂, lt_trans hi₂ hij, hri₂⟩
  have hxu : x ∈ univ := by
    cases hcyc with
    | single h => exact h.2.1
    | tail _ hstep => exact hstep.2.2
  rcases List.mem_iff_getElem?.mp ((hmem x).mpr hxu) with ⟨j, hj⟩
  rcases main x x hcyc j hj with ⟨i, hij, hi⟩
  have hlen : i < r.length := by
    rcases List.getElem?_eq_some.mp hi with ⟨hb, _⟩
    exact hb
  have : i = j := List.getElem?_inj hlen hnd (by rw [hi, hj])
  omega

/-- On a cycle of the declared relation every node is a key, so the cycle
lifts to the key-restricted relation. -/
theorem transGen_cycle_strengthen {p : ProjectConfig} {x : String}
    (h : Relation.TransGen p.DepRel x x) :
    Relation.TransGen
      (fun a b => p.DepRel a b ∧ a ∈ p.keys ∧ b ∈ p.keys) x x := by
  have hmemof : ∀ a b, p.DepRel a b → a ∈ p.keys := by
    rintro a b ⟨t, ht, _⟩
    exact mem_of_lookup_some ht
  have hsrc : ∀ a b, Relation.TransGen p.DepRel a b → a ∈ p.keys := by
    intro a b htg
    induction htg with
    | single h' => exact hmemof _ _ h'
    | tail _ _ ih => exact ih
  have hxk : x ∈ p.keys := hsrc x x h
  have main : ∀ a b, Relation.TransGen p.DepRel a b → b ∈ p.keys →
      Relation.TransGen
        (fun a b => p.DepRel a b ∧ a ∈ p.keys ∧ b ∈ p.keys) a b := by
    intro a b htg
    induction htg with
    | single h' =>
      intro hb
      exact Relation.TransGen.single ⟨h', hmemof _ _ h', hb⟩
    | tail htg hstep ih =>
      intro hc
      exact Relation.TransGen.tail (ih (hmemof _ _ hstep))
        ⟨hstep, hmemof _ _ hstep, hc⟩
  exact main x x h hxk

/-! ## Congruence: the traversal reads only the `_deps` table -/

theorem foldlM_congr {β : Type} {f g : β → String → Except PyError β}
    (h : ∀ t d, f t d = g t d) :
    ∀ (l : List String) (s : β), l.foldlM f s = l.foldlM g s := by
  intro l
  induction l with
  | nil => intro s; rfl
  | cons d l ih =>
    intro s
    rw [List.foldlM_cons, List.foldlM_cons, h s d]
    cases g s d with
    | error e => rfl
    | ok s₁ => exact ih s₁

namespace TaskGraph

theorem depsOf_congr {g₁ g₂ : TaskGraph} (h : g₁._deps = g₂._deps)
    (a : String) : g₁.depsOf a = g₂.depsOf a := by
  unfold depsOf
  rw [h]

theorem visit_congr {g₁ g₂ : TaskGraph} (h : g₁._deps = g₂._deps)
    (univ : List String) :
    ∀ (fuel : Nat) (tid : String) (s : TopoState),
      visit g₁ univ fuel tid s = visit g₂ univ fuel tid s := by
  intro fuel
  induction fuel with
  | zero =>
    intro tid s
    by_cases h₁ : s.state tid = Visit.VISITING
    · rw [visit_visiting h₁, visit_visiting h₁]
    · by_cases h₂ : s.state tid = Visit.VISITED
      · rw [visit_visited h₁ h₂, visit_visited h₁ h₂]
      · rw [visit_zero h₁ h₂, visit_zero h₁ h₂]
  | succ fuel IH =>
    intro tid s
    by_cases h₁ : s.state tid = Visit.VISITING
    · rw [visit_visiting h₁, visit_visiting h₁]
    · by_cases h₂ : s.state tid = Visit.VISITED
      · rw [visit_visited h₁ h₂, visit_visited h₁ h₂]
      · rw [visit_succ h₁ h₂, visit_succ h₁ h₂, depsOf_congr h tid]
        have hfuncs : ∀ (t : TopoState) (dep : String),
            (if dep ∈ univ then visit g₁ univ fuel dep t else .ok t) =
              (if dep ∈ univ then visit g₂ univ fuel dep t else .ok t) := by
          intro t dep
          by_cases hd : dep ∈ univ
          · rw [if_pos hd, if_pos hd, IH]
          · rw [if_neg hd, if_neg hd]
        rw [foldlM_congr hfuncs]

theorem _toposort_congr {g₁ g₂ : TaskGraph} (h : g₁._deps = g₂._deps)
    (univ : List String) : g₁._toposort univ = g₂._toposort univ := by
  show (((pySorted univ).foldlM
      (fun t tid => visit g₁ univ (univ.length + 1) tid t)
      { state := fun _ => Visit.UNVISITED, out := [], stack := [],
        pos := [] }).bind (fun s => Except.ok s.out)) = _
  rw [foldlM_congr (fun t tid => visit_congr h univ (univ.length + 1) tid t)]
  rfl

theorem topo_order_congr {g₁ g₂ : TaskGraph} (h : g₁._deps = g₂._deps) :
    g₁.topo_order = g₂.topo_order := by
  unfold topo_order
  rw [h, _toposort_congr h]

theorem closureLoop_congr {g₁ g₂ : TaskGraph} (h : g₁._deps = g₂._deps) :
    ∀ (fuel : Nat) (wl needed : List String),
      closureLoop g₁ fuel wl needed = closureLoop g₂ fuel wl needed := by
  intro fuel
  induction fuel with
  | zero =>
    intro wl needed
    cases wl with
    | nil => rfl
    | cons x rest => rfl
  | succ fuel IH =>
    intro wl needed
    cases wl with
    | nil => rfl
    | cons x rest =>
      show (if x ∈ needed then closureLoop g₁ fuel rest needed
        else closureLoop g₁ fuel ((g₁.depsOf x).reverse ++ rest)
          (needed ++ [x])) =
        (if x ∈ needed then closureLoop g₂ fuel rest needed
        else closureLoop g₂ fuel ((g₂.depsOf x).reverse ++ rest)
          (needed ++ [x]))
      by_cases hx : x ∈ needed
      · rw [if_pos hx, if_pos hx, IH]
      · rw [if_neg hx, if_neg hx, depsOf_congr h x, IH]

theorem closureFuel_congr {g₁ g₂ : TaskGraph} (h : g₁._deps = g₂._deps)
    (needed wl : List String) :
    closureFuel g₁ needed wl = closureFuel g₂ needed wl := by
  unfold closureFuel
  rw [h]
  congr 1
  have : (List.map (fun x => 1 + (g₁.depsOf x).length)
        ((g₂._deps.map Prod.fst).filter (fun x => !needed.contains x))) =
      (List.map (fun x => 1 + (g₂.depsOf x).length)
        ((g₂._deps.map Prod.fst).filter (fun x => !needed.contains x))) := by
    apply List.map_congr_left
    intro x _
    rw [depsOf_congr h x]
  rw [this]

theorem subgraph_order_congr {g₁ g₂ : TaskGraph} (h : g₁._deps = g₂._deps)
    (target : String) :
    g₁.subgraph_order target = g₂.subgraph_order target := by
  unfold subgraph_order
  rw [h]
  by_cases ht : (g₂._deps.lookup target).isSome
  · rw [if_pos ht, if_pos ht, closureFuel_congr h, closureLoop_congr h]
    cases hc : closureLoop g₂ (closureFuel g₂ [] [target] + 1) [target] [] with
    | error e => rfl
    | ok needed =>
      show (Except.ok needed).bind _ = (Except.ok needed).bind _
      show g₁._toposort needed = g₂._toposort needed
      exact _toposort_congr h needed
  · rw [if_neg ht, if_neg ht]

/-- Two projects with the same key set and, per key, the same dependency
set produce identical `_deps` tables. -/
theorem from_project_deps_eq {p₁ p₂ : ProjectConfig}
    (hperm : p₁.keys.Perm p₂.keys)
    (hdeps : ∀ a, match p₁.get_task a, p₂.get_task a with
      | some t₁, some t₂ => t₁.deps.Perm t₂.deps
      | none, none => True
      | _, _ => False) :
    (from_project p₁)._deps = (from_project p₂)._deps := by
  have hids : p₁.tasks_ids = p₂.tasks_ids := pySorted_eq_of_perm hperm
  unfold from_project
  rw [hids]
  apply List.map_congr_left
  intro a _
  have hda := hdeps a
  cases h₁ : p₁.get_task a with
  | none =>
    cases h₂ : p₂.get_task a with
    | none => rfl
    | some t₂ =>
      rw [h₁, h₂] at hda
      exact hda.elim
  | some t₁ =>
    cases h₂ : p₂.get_task a with
    | none =>
      rw [h₁, h₂] at hda
      exact hda.elim
    | some t₂ =>
      rw [h₁, h₂] at hda
      simp only [Option.map_some', Option.getD_some, Prod.mk.injEq, true_and]
      exact pySorted_eq_of_perm hda

end TaskGraph

theorem mem_of_lookup {β : Type} {k : String} {v : β} :
    ∀ {d : List (String × β)}, d.lookup k = some v → (k, v) ∈ d := by
  intro d
  induction d with
  | nil => intro h; exact Option.noConfusion h
  | cons p d ih =>
    intro h
    cases p with
    | mk a b =>
      by_cases he : k = a
      · subst he
        simp only [List.lookup, beq_self_eq_true] at h
        have : b = v := Option.some_inj.mp h
        subst this
        exact List.mem_cons_self _ _
      · have hb : (k == a) = false := beq_eq_false_iff_ne.mpr he
        simp only [List.lookup, hb] at h
        exact List.mem_cons_of_mem _ (ih h)

/-- A task set admitting a rank function that strictly decreases along
every declared dependency is acyclic. -/
theorem acyclic_of_rank (p : ProjectConfig) (rank : String → Nat)
    (hrank : ∀ pr ∈ p.tasks, ∀ d ∈ pr.2.deps, rank d < rank pr.1) :
    ∀ x, ¬ Relation.TransGen p.DepRel x x := by
  have hstep : ∀ a b, p.DepRel a b → rank b < rank a := by
    rintro a b ⟨t, ht, hb⟩
    exact hrank (a, t) (mem_of_lookup ht) b hb
  have hdesc : ∀ a b, Relation.TransGen p.DepRel a b → rank b < rank a := by
    intro a b htg
    induction htg with
    | @single b' h => exact hstep _ _ h
    | @tail b' c' htg hs ih => exact lt_trans (hstep _ _ hs) ih
  intro x hx
  exact lt_irrefl _ (hdesc x x hx)

/-- If no task lists itself as a dependency of itself, the declared
relation is irreflexive. -/
theorem noself_of_tasks (p : ProjectConfig)
    (h : ∀ pr ∈ p.tasks, pr.1 ∉ pr.2.deps) : ∀ a, ¬ p.DepRel a a := by
  rintro a ⟨t, ht, hmem⟩
  exact h (a, t) (mem_of_lookup ht) hmem

/-- Referential closure from a per-entry check on the task list. -/
theorem closed_of_tasks (p : ProjectConfig)
    (h : ∀ pr ∈ p.tasks, ∀ d ∈ pr.2.deps, d ∈ p.keys) :
    ∀ a t, p.get_task a = some t → ∀ d ∈ t.deps, d ∈ p.keys := by
  intro a t ht d hd
  exact h (a, t) (mem_of_lookup ht) d hd

namespace TaskGraph

theorem from_project_mem_depsOf_iff (p : ProjectConfig) (a b : String) :
    b ∈ (from_project p).depsOf a ↔ p.DepRel a b :=
  from_project_step_iff p a b

/-- Sound cycle reports have length at least three when the relation has
no self-loops on the universe. -/
theorem cycleSound_len3 {g : TaskGraph} {univ path : List String}
    (hs : CycleSound g univ path)
    (hnoself : ∀ x ∈ univ, x ∉ g.depsOf x) : 3 ≤ path.length := by
  rcases hs with ⟨⟨hchain, hclosed, hlen⟩, hmem⟩
  cases path with
  | nil => simp at hlen
  | cons x rest =>
    cases rest with
    | nil => simp at hlen
    | cons y t =>
      cases t with
      | nil =>
        exfalso
        have hxy : x = y := by
          have h₁ : (x :: [y]).head? = some x := rfl
          have h₂ : (x :: [y]).getLast? = some y := by
            rw [List.getLast?_cons_cons, List.getLast?_singleton]
          rw [h₁, h₂] at hclosed
          exact Option.some_inj.mp hclosed
        subst hxy
        have hdep : x ∈ g.depsOf x := (List.chain'_cons.mp hchain).1
        exact hnoself x (hmem x (List.mem_cons_self _ _)) hdep
      | cons z t₂ => simp only [List.length_cons]; omega

/-- For a duplicate-free key set, an acyclic declared relation makes the
full order succeed. -/
theorem topo_order_ok_of_acyclic (p : ProjectConfig)
    (hnd : p.keys.Nodup)
    (hacyc : ∀ x, ¬ Relation.TransGen p.DepRel x x) :
    ∃ r, (from_project p).topo_order = .ok r := by
  have hndu : ((from_project p)._deps.map Prod.fst).Nodup := by
    rw [from_project_keys]
    exact pySorted_nodup hnd
  cases hres : (from_project p).topo_order with
  | ok r => exact ⟨r, rfl⟩
  | error e =>
    exfalso
    rcases _toposort_err_sound (from_project p) hndu hres with ⟨path, _, hsound⟩
    rcases isCycleList_transGen hsound.1 with ⟨x, _, htg⟩
    exact hacyc x (Relation.TransGen.mono
      (fun a b h => (from_project_mem_depsOf_iff p a b).mp h) htg)

end TaskGraph

/-- On a cycle through `x`, reachability of `x` from `target` extends to a
cycle within the reachable closure of `target`. -/
theorem transGen_cycle_reach {p : ProjectConfig} {target x : String}
    (hreach : Relation.ReflTransGen p.DepRel target x)
    (h : Relation.TransGen p.DepRel x x) :
    Relation.TransGen
      (fun a b => p.DepRel a b ∧ Relation.ReflTransGen p.DepRel target a ∧
        Relation.ReflTransGen p.DepRel target b) x x := by
  have main : ∀ a b, Relation.TransGen p.DepRel a b →
      Relation.ReflTransGen p.DepRel target a →
      Relation.TransGen
        (fun a b => p.DepRel a b ∧ Relation.ReflTransGen p.DepRel target a ∧
          Relation.ReflTransGen p.DepRel target b) a b := by
    intro a b htg
    induction htg with
    | @single b' h' =>
      intro ha
      exact Relation.TransGen.single ⟨h', ha, ha.tail h'⟩
    | @tail b' c' htg hs ih =>
      intro ha
      have hb : Relation.ReflTransGen p.DepRel target b' :=
        ha.trans htg.to_reflTransGen
      exact Relation.TransGen.tail (ih ha) ⟨hs, hb, hb.tail hs⟩
  exact main x x h hreach

namespace TaskGraph

/-- Running `subgraph_order` on a present target computes `_toposort` of a
set `needed` that is exactly the reachable closure of the target. -/
theorem subgraph_run (g : TaskGraph) (target : String)
    (hkeys : (g._deps.map Prod.fst).Nodup)
    (hpres : (g._deps.lookup target).isSome) :
    ∃ needed, g.subgraph_order target = g._toposort needed ∧ needed.Nodup ∧
      (∀ y ∈ needed, Relation.ReflTransGen (Step g) target y) ∧
      (∀ y ∈ needed, ∀ d ∈ g.depsOf y, d ∈ needed) ∧ target ∈ needed ∧
      (∀ y, Relation.ReflTransGen (Step g) target y → y ∈ needed) := by
  rcases closureLoop_ok g target hkeys (closureFuel g [] [target] + 1)
    [target] [] (Nat.lt_succ_self _) List.nodup_nil
    (fun y hy => absurd hy (List.not_mem_nil y))
    (fun y hy => by
      rw [List.mem_singleton.mp hy])
    (fun y hy => absurd hy (List.not_mem_nil y))
    (Or.inr (List.mem_singleton_self target))
    with ⟨needed, hloop, hnd, hsound, hclosed, htarg⟩
  have hcompl : ∀ y, Relation.ReflTransGen (Step g) target y → y ∈ needed := by
    intro y h
    induction h with
    | refl => exact htarg
    | @tail b c h₁ hstep ih => exact hclosed b ih c hstep
  refine ⟨needed, ?_, hnd, hsound, hclosed, htarg, hcompl⟩
  unfold subgraph_order
  rw [if_pos hpres, hloop]
  rfl

/-- The key set of a `from_project` graph is duplicate-free whenever the
project's keys are. -/
theorem from_project_keys_nodup {p : ProjectConfig} (hnd : p.keys.Nodup) :
    ((from_project p)._deps.map Prod.fst).Nodup := by
  rw [from_project_keys]
  exact pySorted_nodup hnd

/-- Membership in the graph universe of a `from_project` graph. -/
theorem mem_from_project_univ {p : ProjectConfig} {y : String} :
    y ∈ (from_project p)._deps.map Prod.fst ↔ y ∈ p.keys := by
  rw [from_project_keys]
  exact mem_tasks_ids_iff p y

end TaskGraph

/-! ## Claims -/

/-- C6: requesting the subgraph order for an identifier absent from the
task set fails with `KeyError` carrying that identifier (and nothing is
returned). -/
theorem C6_unknown_target (p : ProjectConfig) (target : String)
    (habsent : p.get_task target = none) :
    (TaskGraph.from_project p).subgraph_order target =
      .error (.KeyError target) := by
  unfold TaskGraph.subgraph_order
  have hl : (TaskGraph.from_project p)._deps.lookup target = none := by
    rw [TaskGraph.from_project_lookup]
    rw [if_neg]
    intro hc
    have hk : target ∈ p.keys := (TaskGraph.mem_tasks_ids_iff p target).mp hc
    rcases lookup_isSome_of_mem hk with ⟨w, hw⟩
    have : p.get_task target = some w := hw
    rw [habsent] at this
    exact Option.noConfusion this
  rw [hl]
  rw [if_neg (by intro hc; exact Bool.noConfusion hc)]

/-- Witness for C6 at a concrete project and missing identifier. -/
theorem C6_witness :
    wpDiamond1.get_task "Z" = none ∧
      (TaskGraph.from_project wpDiamond1).subgraph_order "Z" =
        .error (.KeyError "Z") :=
  ⟨rfl, C6_unknown_target wpDiamond1 "Z" rfl⟩

/-- C2 fails as stated: here is a cyclic dependency relation for which the
subgraph-order operation succeeds (the cycle is not reachable from the
requested target), so not every order operation fails. -/
theorem C2_counterexample :
    Relation.TransGen wpMixed.DepRel "B" "B" ∧
      (TaskGraph.from_project wpMixed).subgraph_order "A" = .ok ["A"] := by
  constructor
  · have hBC : wpMixed.DepRel "B" "C" :=
      ⟨mkTask "B" "echo B" ["C"], rfl, List.mem_singleton_self _⟩
    have hCB : wpMixed.DepRel "C" "B" :=
      ⟨mkTask "C" "echo C" ["B"], rfl, List.mem_singleton_self _⟩
    exact Relation.TransGen.head' hBC (Relation.ReflTransGen.single hCB)
  · rfl

/-- C2 (amended): for a task set with duplicate-free keys and no
self-dependencies, any cycle of the declared relation makes the full-order
operation fail with a `CycleError` whose path is a closed loop (first
element equals last) of length at least three, and the subgraph-order
operation fails the same way whenever a cycle node is reachable from the
(present) target; in both cases the caller gets an error, not a partial
order. -/
theorem C2_cycle_detected (p : ProjectConfig) (hnd : p.keys.Nodup)
    (hnoself : ∀ a, ¬ p.DepRel a a) :
    (∀ x, Relation.TransGen p.DepRel x x →
      ∃ path, (TaskGraph.from_project p).topo_order =
          .error (.CycleError path) ∧
        path.head? = path.getLast? ∧ 3 ≤ path.length) ∧
    (∀ target x, (p.get_task target).isSome →
      Relation.TransGen p.DepRel x x →
      Relation.ReflTransGen p.DepRel target x →
      ∃ path, (TaskGraph.from_project p).subgraph_order target =
          .error (.CycleError path) ∧
        path.head? = path.getLast? ∧ 3 ≤ path.length) := by
  set g := TaskGraph.from_project p with hg
  have hndu := TaskGraph.from_project_keys_nodup hnd
  have hnoselfg : ∀ univ : List String, (∀ y ∈ univ, y ∈ p.keys → True) →
      ∀ x ∈ univ, x ∉ g.depsOf x := by
    intro univ _ x _ hc
    exact hnoself x ((TaskGraph.from_project_mem_depsOf_iff p x x).mp hc)
  constructor
  · intro x hcyc
    cases hres : g.topo_order with
    | ok r =>
      exfalso
      rcases TaskGraph._toposort_ok_sound g hres with ⟨hmem, hndr, hbefore⟩
      apply topo_ok_no_cycle hmem hndr hbefore
      refine Relation.TransGen.mono ?_ (transGen_cycle_strengthen hcyc)
      rintro a b ⟨hd, ha, hb⟩
      exact ⟨(TaskGraph.from_project_mem_depsOf_iff p a b).mpr hd,
        TaskGraph.mem_from_project_univ.mpr ha,
        TaskGraph.mem_from_project_univ.mpr hb⟩
    | error e =>
      rcases TaskGraph._toposort_err_sound g hndu hres with ⟨path, he, hsound⟩
      subst he
      exact ⟨path, rfl, hsound.1.2.1,
        TaskGraph.cycleSound_len3 hsound
          (fun y _ hc => hnoself y
            ((TaskGraph.from_project_mem_depsOf_iff p y y).mp hc))⟩
  · intro target x hpres hcyc hreach
    have hpres' : (g._deps.lookup target).isSome := by
      rcases Option.isSome_iff_exists.mp hpres with ⟨t, ht⟩
      rw [TaskGraph.from_project_lookup,
        if_pos ((TaskGraph.mem_tasks_ids_iff p target).mpr
          (mem_of_lookup_some ht))]
      rfl
    rcases TaskGraph.subgraph_run g target hndu hpres' with
      ⟨needed, hrun, hndneeded, hsound, hclosed, htarg, hcompl⟩
    have hDepToStep : ∀ a b, p.DepRel a b → TaskGraph.Step g a b :=
      fun a b h => (TaskGraph.from_project_mem_depsOf_iff p a b).mpr h
    have hneed : ∀ y, Relation.ReflTransGen p.DepRel target y → y ∈ needed :=
      fun y h => hcompl y (Relation.ReflTransGen.mono hDepToStep h)
    cases hres : g._toposort needed with
    | ok r =>
      exfalso
      rcases TaskGraph._toposort_ok_sound g hres with ⟨hmem, hndr, hbefore⟩
      apply topo_ok_no_cycle hmem hndr hbefore
      refine Relation.TransGen.mono ?_ (transGen_cycle_reach hreach hcyc)
      rintro a b ⟨hd, ha, hb⟩
      exact ⟨(TaskGraph.from_project_mem_depsOf_iff p a b).mpr hd,
        hneed a ha, hneed b hb⟩
    | error e =>
      rcases TaskGraph._toposort_err_sound g hndneeded hres with
        ⟨path, he, hsound'⟩
      subst he
      refine ⟨path, by rw [hrun]; exact hres, hsound'.1.2.1,
        TaskGraph.cycleSound_len3 hsound'
          (fun y _ hc => hnoself y
            ((TaskGraph.from_project_mem_depsOf_iff p y y).mp hc))⟩

/-- Witness for C2 (amended) at the two-task cycle `A ↔ B`: both the full
order and the subgraph order fail with a closed loop of length at least
three. -/
theorem C2_witness :
    (∃ path, (TaskGraph.from_project wpCyc).topo_order =
        .error (.CycleError path) ∧
      path.head? = path.getLast? ∧ 3 ≤ path.length) ∧
    (∃ path, (TaskGraph.from_project wpCyc).subgraph_order "A" =
        .error (.CycleError path) ∧
      path.head? = path.getLast? ∧ 3 ≤ path.length) := by
  have hAB : wpCyc.DepRel "A" "B" :=
    ⟨mkTask "A" "echo A" ["B"], rfl, List.mem_singleton_self _⟩
  have hBA : wpCyc.DepRel "B" "A" :=
    ⟨mkTask "B" "echo B" ["A"], rfl, List.mem_singleton_self _⟩
  have hcyc : Relation.TransGen wpCyc.DepRel "A" "A" :=
    Relation.TransGen.head' hAB (Relation.ReflTransGen.single hBA)
  have hmain := C2_cycle_detected wpCyc (by decide)
    (noself_of_tasks wpCyc (by decide))
  exact ⟨hmain.1 "A" hcyc,
    hmain.2 "A" "A" (by rfl) hcyc Relation.ReflTransGen.refl⟩

/-- C10: every raised `CycleError` carries a genuine cycle: consecutive
path entries are declared dependency steps, and every entry lies in the
traversed universe (the full key set for `topo_order`; the reachable
closure of the target for `subgraph_order`). -/
theorem C10_cycle_path_genuine (p : ProjectConfig) (hnd : p.keys.Nodup) :
    (∀ path, (TaskGraph.from_project p).topo_order =
        .error (.CycleError path) →
      path.Chain' p.DepRel ∧ ∀ x ∈ path, x ∈ p.keys) ∧
    (∀ target path, (TaskGraph.from_project p).subgraph_order target =
        .error (.CycleError path) →
      path.Chain' p.DepRel ∧
        ∀ x ∈ path, Relation.ReflTransGen p.DepRel target x) := by
  set g := TaskGraph.from_project p with hg
  have hndu := TaskGraph.from_project_keys_nodup hnd
  constructor
  · intro path hres
    rcases TaskGraph._toposort_err_sound g hndu hres with ⟨path', he, hsound⟩
    injection he with hpp
    subst hpp
    refine ⟨hsound.1.1.imp
      (fun a b h => (TaskGraph.from_project_mem_depsOf_iff p a b).mp h), ?_⟩
    intro x hx
    exact TaskGraph.mem_from_project_univ.mp (hsound.2 x hx)
  · intro target path hres
    by_cases hpres : (g._deps.lookup target).isSome
    · rcases TaskGraph.subgraph_run g target hndu hpres with
        ⟨needed, hrun, hndneeded, hsound, hclosed, htarg, hcompl⟩
      rw [hrun] at hres
      rcases TaskGraph._toposort_err_sound g hndneeded hres with
        ⟨path', he, hsound'⟩
      injection he with hpp
      subst hpp
      refine ⟨hsound'.1.1.imp
        (fun a b h => (TaskGraph.from_project_mem_depsOf_iff p a b).mp h), ?_⟩
      intro x hx
      exact Relation.ReflTransGen.mono
        (fun a b h => (TaskGraph.from_project_mem_depsOf_iff p a b).mp h)
        (hsound x (hsound'.2 x hx))
    · exfalso
      unfold TaskGraph.subgraph_order at hres
      rw [if_neg hpres] at hres
      have := Except.noConfusion hres (fun h => h)
      exact PyError.noConfusion this
      
/-- Witness for C10 at the two-task cycle. -/
theorem C10_witness :
    (TaskGraph.from_project wpCyc).topo_order =
      .error (.CycleError ["A", "B", "A"]) ∧
    List.Chain' wpCyc.DepRel ["A", "B", "A"] ∧
    (∀ x ∈ ["A", "B", "A"], x ∈ wpCyc.keys) := by
  have h := (C10_cycle_path_genuine wpCyc (by decide)).1 ["A", "B", "A"] rfl
  exact ⟨rfl, h.1, h.2⟩

/-- Pointwise dependency-set agreement (conditional form) plus key
permutation gives the total match form used by `from_project_deps_eq`. -/
theorem deps_match_of_perm {p₁ p₂ : ProjectConfig}
    (hperm : p₁.keys.Perm p₂.keys)
    (hdeps : ∀ a t₁ t₂, p₁.get_task a = some t₁ → p₂.get_task a = some t₂ →
      t₁.deps.Perm t₂.deps) :
    ∀ a, match p₁.get_task a, p₂.get_task a with
      | some t₁, some t₂ => t₁.deps.Perm t₂.deps
      | none, none => True
      | _, _ => False := by
  intro a
  cases h₁ : p₁.get_task a with
  | some t₁ =>
    cases h₂ : p₂.get_task a with
    | some t₂ => exact hdeps a t₁ t₂ h₁ h₂
    | none =>
      have ha : a ∈ p₂.keys := hperm.mem_iff.mp (mem_of_lookup_some h₁)
      rcases lookup_isSome_of_mem ha with ⟨w, hw⟩
      have hw' : p₂.get_task a = some w := hw
      rw [h₂] at hw'
      exact Option.noConfusion hw'
  | none =>
    cases h₂ : p₂.get_task a with
    | some t₂ =>
      have ha : a ∈ p₁.keys := hperm.mem_iff.mpr (mem_of_lookup_some h₂)
      rcases lookup_isSome_of_mem ha with ⟨w, hw⟩
      have hw' : p₁.get_task a = some w := hw
      rw [h₁] at hw'
      exact Option.noConfusion hw'
    | none => trivial

/-- C1: for an acyclic, referentially closed task set with unique ids, the
full order succeeds, enumerates exactly the task identifiers without
duplicates, places every declared dependency strictly before its
dependent, and is identical for any second task set with the same
(id → dependency-set) relation regardless of declaration order. -/
theorem C1_topo_order_correct_deterministic (p₁ p₂ : ProjectConfig)
    (hnd₁ : p₁.keys.Nodup)
    (hclosed : ∀ a t, p₁.get_task a = some t → ∀ d ∈ t.deps, d ∈ p₁.keys)
    (hacyc : ∀ x, ¬ Relation.TransGen p₁.DepRel x x)
    (hperm : p₁.keys.Perm p₂.keys)
    (hdeps : ∀ a t₁ t₂, p₁.get_task a = some t₁ → p₂.get_task a = some t₂ →
      t₁.deps.Perm t₂.deps) :
    ∃ r, (TaskGraph.from_project p₁).topo_order = .ok r ∧
      (TaskGraph.from_project p₂).topo_order = .ok r ∧
      (∀ x, x ∈ r ↔ x ∈ p₁.keys) ∧ r.Nodup ∧
      ∀ (j : Nat) (x : String) (t : TaskConfig), r[j]? = some x →
        p₁.get_task x = some t → ∀ d ∈ t.deps,
          ∃ i, i < j ∧ r[i]? = some d := by
  have hdeps' := deps_match_of_perm hperm hdeps
  rcases TaskGraph.topo_order_ok_of_acyclic p₁ hnd₁ hacyc with ⟨r, hr⟩
  have hcong := TaskGraph.topo_order_congr
    (TaskGraph.from_project_deps_eq hperm hdeps')
  rcases TaskGraph._toposort_ok_sound (TaskGraph.from_project p₁) hr with
    ⟨hmem, hndr, hbefore⟩
  refine ⟨r, hr, by rw [← hcong]; exact hr, ?_, hndr, ?_⟩
  · intro x
    rw [hmem x]
    exact TaskGraph.mem_from_project_univ
  · intro j x t hj ht d hd
    exact hbefore j x hj d
      ((TaskGraph.from_project_mem_depsOf_iff p₁ x d).mpr ⟨t, ht, hd⟩)
      (TaskGraph.mem_from_project_univ.mpr (hclosed x t ht d hd))

/-- Witness for C1 on the diamond, with the second project declared in
reverse order and with a reversed dependency list. -/
theorem C1_witness :
    ∃ r, (TaskGraph.from_project wpDiamond1).topo_order = .ok r ∧
      (TaskGraph.from_project wpDiamond2).topo_order = .ok r ∧
      (∀ x, x ∈ r ↔ x ∈ wpDiamond1.keys) ∧ r.Nodup ∧
      ∀ (j : Nat) (x : String) (t : TaskConfig), r[j]? = some x →
        wpDiamond1.get_task x = some t → ∀ d ∈ t.deps,
          ∃ i, i < j ∧ r[i]? = some d := by
  apply C1_topo_order_correct_deterministic wpDiamond1 wpDiamond2
    (by decide)
    (closed_of_tasks wpDiamond1 (by decide))
    (acyclic_of_rank wpDiamond1
      (fun s => if s = "A" then 2 else if s = "D" then 0 else 1) (by decide))
    (by decide)
  intro a t₁ t₂ h₁ h₂
  have ha : a ∈ wpDiamond1.keys := mem_of_lookup_some h₁
  have hkeys : wpDiamond1.keys = ["A", "B", "C", "D"] := rfl
  rw [hkeys] at ha
  have ha' : a = "A" ∨ a = "B" ∨ a = "C" ∨ a = "D" := by
    simpa only [List.mem_cons, List.not_mem_nil, or_false] using ha
  rcases ha' with ha' | ha' | ha' | ha' <;> subst ha' <;>
    rw [show t₁ = _ from Option.some_inj.mp h₁.symm,
      show t₂ = _ from Option.some_inj.mp h₂.symm] <;>
    first
      | exact List.Perm.refl _
      | exact List.Perm.swap _ _ _

theorem eq_singleton_of_mem_nodup {l : List String} {a : String}
    (hnd : l.Nodup) (hmem : ∀ x, x ∈ l ↔ x = a) : l = [a] := by
  cases l with
  | nil =>
    exfalso
    exact (List.not_mem_nil a) ((hmem a).mpr rfl)
  | cons b l' =>
    have hb : b = a := (hmem b).mp (List.mem_cons_self b l')
    subst hb
    cases l' with
    | nil => rfl
    | cons c l₂ =>
      exfalso
      have hc : c = b :=
        (hmem c).mp (List.mem_cons_of_mem b (List.mem_cons_self c l₂))
      rw [List.nodup_cons] at hnd
      exact hnd.1 (hc ▸ List.mem_cons_self c l₂)

namespace TaskGraph

/-- `_toposort` of a singleton universe whose member has no dependencies. -/
theorem _toposort_singleton (g : TaskGraph) (target : String)
    (hdeps : g.depsOf target = []) : g._toposort [target] = .ok [target] := by
  have h₁ : (fun (_ : String) => Visit.UNVISITED) target ≠ Visit.VISITING :=
    fun h => Visit.noConfusion h
  have h₂ : (fun (_ : String) => Visit.UNVISITED) target ≠ Visit.VISITED :=
    fun h => Visit.noConfusion h
  have hv : visit g [target] ([target].length + 1) target
      { state := fun _ => Visit.UNVISITED, out := [], stack := [],
        pos := [] } =
      .ok (popTid (pushTid
        { state := fun _ => Visit.UNVISITED, out := [], stack := [],
          pos := [] } target) target) := by
    rw [visit_succ h₁ h₂, hdeps]
    rfl
  show ((pySorted [target]).foldlM
      (fun t tid => visit g [target] ([target].length + 1) tid t)
      { state := fun _ => Visit.UNVISITED, out := [], stack := [],
        pos := [] }).bind (fun s => Except.ok s.out) = .ok [target]
  rw [show pySorted [target] = [target] from rfl, List.foldlM_cons, hv]
  rfl

end TaskGraph

/-- C5: for a task set with unique ids and a target present in it, a
successful subgraph order is exactly the reachable dependency closure of
the target, duplicate-free and topologically sorted; the output is
invariant under re-declaring the task set with the same relation; and a
target without dependencies yields exactly `[target]`. -/
theorem C5_subgraph_order (p₁ p₂ : ProjectConfig) (target : String)
    (hnd₁ : p₁.keys.Nodup)
    (hpres : (p₁.get_task target).isSome)
    (hperm : p₁.keys.Perm p₂.keys)
    (hdeps : ∀ a t₁ t₂, p₁.get_task a = some t₁ → p₂.get_task a = some t₂ →
      t₁.deps.Perm t₂.deps) :
    (∀ l, (TaskGraph.from_project p₁).subgraph_order target = .ok l →
      (∀ x, x ∈ l ↔ Relation.ReflTransGen p₁.DepRel target x) ∧ l.Nodup ∧
      ∀ (j : Nat) (x : String) (t : TaskConfig), l[j]? = some x →
        p₁.get_task x = some t → ∀ d ∈ t.deps,
          ∃ i, i < j ∧ l[i]? = some d) ∧
    (TaskGraph.from_project p₁).subgraph_order target =
      (TaskGraph.from_project p₂).subgraph_order target ∧
    (∀ t, p₁.get_task target = some t → t.deps = [] →
      (TaskGraph.from_project p₁).subgraph_order target = .ok [target]) := by
  set g := TaskGraph.from_project p₁ with hg
  have hndu := TaskGraph.from_project_keys_nodup hnd₁
  have hpres' : (g._deps.lookup target).isSome := by
    rcases Option.isSome_iff_exists.mp hpres with ⟨t, ht⟩
    rw [hg, TaskGraph.from_project_lookup,
      if_pos ((TaskGraph.mem_tasks_ids_iff p₁ target).mpr
        (mem_of_lookup_some ht))]
    rfl
  rcases TaskGraph.subgraph_run g target hndu hpres' with
    ⟨needed, hrun, hndneeded, hsound, hclosed, htarg, hcompl⟩
  have hstep_iff : ∀ a b, TaskGraph.Step g a b ↔ p₁.DepRel a b :=
    fun a b => TaskGraph.from_project_step_iff p₁ a b
  have hreach_iff : ∀ y, Relation.ReflTransGen (TaskGraph.Step g) target y ↔
      Relation.ReflTransGen p₁.DepRel target y := by
    intro y
    constructor
    · exact Relation.ReflTransGen.mono (fun a b h => (hstep_iff a b).mp h)
    · exact Relation.ReflTransGen.mono (fun a b h => (hstep_iff a b).mpr h)
  refine ⟨?_, ?_, ?_⟩
  · intro l hl
    rw [hrun] at hl
    rcases TaskGraph._toposort_ok_sound g hl with ⟨hmem, hndl, hbefore⟩
    refine ⟨?_, hndl, ?_⟩
    · intro x
      rw [hmem x]
      constructor
      · intro hx
        exact (hreach_iff x).mp (hsound x hx)
      · intro hx
        exact hcompl x ((hreach_iff x).mpr hx)
    · intro j x t hj ht d hd
      have hxl : x ∈ needed := (hmem x).mp (TaskGraph.mem_of_getElem hj)
      exact hbefore j x hj d
        ((TaskGraph.from_project_mem_depsOf_iff p₁ x d).mpr ⟨t, ht, hd⟩)
        (hclosed x hxl d
          ((TaskGraph.from_project_mem_depsOf_iff p₁ x d).mpr ⟨t, ht, hd⟩))
  · exact TaskGraph.subgraph_order_congr
      (TaskGraph.from_project_deps_eq hperm (deps_match_of_perm hperm hdeps))
      target
  · intro t ht hleaf
    have hdeps0 : g.depsOf target = [] := by
      rw [hg, TaskGraph.from_project_depsOf,
        if_pos (show target ∈ p₁.keys from mem_of_lookup_some ht), ht]
      simp only [Option.map_some', Option.getD_some]
      rw [hleaf]
      rfl
    have hrtg_eq : ∀ y, Relation.ReflTransGen (TaskGraph.Step g) target y →
        y = target := by
      intro y h
      induction h with
      | refl => rfl
      | @tail b c h₁ hstep ih =>
        exfalso
        have hc : c ∈ g.depsOf b := hstep
        rw [ih, hdeps0] at hc
        exact List.not_mem_nil c hc
    have honly : ∀ y, y ∈ needed ↔ y = target := by
      intro y
      constructor
      · intro hy
        exact hrtg_eq y (hsound y hy)
      · intro hy
        rw [hy]
        exact htarg
    have hneed : needed = [target] :=
      eq_singleton_of_mem_nodup hndneeded honly
    rw [hrun, hneed]
    exact TaskGraph._toposort_singleton g target hdeps0

/-- Witness for C5 on the diamond with target `A`, and the redeclared
diamond as the second project. -/
theorem C5_witness :
    ((∀ l, (TaskGraph.from_project wpDiamond1).subgraph_order "A" = .ok l →
      (∀ x, x ∈ l ↔ Relation.ReflTransGen wpDiamond1.DepRel "A" x) ∧
        l.Nodup ∧
      ∀ (j : Nat) (x : String) (t : TaskConfig), l[j]? = some x →
        wpDiamond1.get_task x = some t → ∀ d ∈ t.deps,
          ∃ i, i < j ∧ l[i]? = some d) ∧
    (TaskGraph.from_project wpDiamond1).subgraph_order "A" =
      (TaskGraph.from_project wpDiamond2).subgraph_order "A" ∧
    (∀ t, wpDiamond1.get_task "A" = some t → t.deps = [] →
      (TaskGraph.from_project wpDiamond1).subgraph_order "A" =
        .ok ["A"])) ∧
    (TaskGraph.from_project wpDiamond1).subgraph_order "D" = .ok ["D"] := by
  constructor
  · apply C5_subgraph_order wpDiamond1 wpDiamond2 "A" (by decide) (by rfl)
      (by decide)
    intro a t₁ t₂ h₁ h₂
    have ha : a ∈ wpDiamond1.keys := mem_of_lookup_some h₁
    have hkeys : wpDiamond1.keys = ["A", "B", "C", "D"] := rfl
    rw [hkeys] at ha
    have ha' : a = "A" ∨ a = "B" ∨ a = "C" ∨ a = "D" := by
      simpa only [List.mem_cons, List.not_mem_nil, or_false] using ha
    rcases ha' with ha' | ha' | ha' | ha' <;> subst ha' <;>
      rw [show t₁ = _ from Option.some_inj.mp h₁.symm,
        show t₂ = _ from Option.some_inj.mp h₂.symm] <;>
      first
        | exact List.Perm.refl _
        | exact List.Perm.swap _ _ _
  · exact ((C5_subgraph_order wpDiamond1 wpDiamond1 "D" (by decide) (by rfl)
      (List.Perm.refl _) (fun a t₁ t₂ h₁ h₂ => by
        rw [h₁] at h₂
        rw [Option.some_inj.mp h₂])).2.2) (mkTask "D" "echo D" []) rfl rfl

/-! ## Unfolding lemmas for the executor loop -/

namespace Executor

theorem runLoop_nil (spawn : SpawnRequest → SpawnResult)
    (ambient : List (String × String)) (project : ProjectConfig)
    (fail_fast : Bool) (st : ExecState) :
    runLoop spawn ambient project fail_fast [] st = .ok st := rfl

theorem runLoop_cons (spawn : SpawnRequest → SpawnResult)
    (ambient : List (String × String)) (project : ProjectConfig)
    (fail_fast : Bool) (tid : String) (rest : List String) (st : ExecState) :
    runLoop spawn ambient project fail_fast (tid :: rest) st =
      match project.get_task tid with
      | none => .error tid
      | some task =>
        if task.deps.any
            (fun dep => st.failed_set.contains dep || st.skipped_set.contains dep) then
          runLoop spawn ambient project fail_fast rest
            { st with
              skipped_list := st.skipped_list ++ [tid]
              skipped_set := st.skipped_set ++ [tid]
              processed := st.processed ++ [tid] }
        else
          let res := spawn (mkSpawnRequest ambient task)
          let st₁ : ExecState :=
            { st with
              results := dictSet st.results tid
                ⟨tid, res.returncode, res.stdout, res.stderr, res.duration_s⟩ }
          if res.returncode = 0 then
            runLoop spawn ambient project fail_fast rest
              { st₁ with
                succeeded_set := st₁.succeeded_set ++ [tid]
                processed := st₁.processed ++ [tid] }
          else
            let st₂ : ExecState :=
              { st₁ with
                failed_list := st₁.failed_list ++ [tid]
                failed_set := st₁.failed_set ++ [tid]
                processed := st₁.processed ++ [tid] }
            if fail_fast then
              .ok { st₂ with stopped_early := true }
            else
              runLoop spawn ambient project fail_fast rest st₂ := rfl

theorem runLoop_none {project : ProjectConfig} {tid : String}
    (spawn : SpawnRequest → SpawnResult) (ambient : List (String × String))
    (fail_fast : Bool) (rest : List String) (st : ExecState)
    (hget : project.get_task tid = none) :
    runLoop spawn ambient project fail_fast (tid :: rest) st =
      .error tid := by
  rw [runLoop_cons, hget]

theorem runLoop_skip {project : ProjectConfig} {tid : String}
    {task : TaskConfig} {st : ExecState}
    (spawn : SpawnRequest → SpawnResult) (ambient : List (String × String))
    (fail_fast : Bool) (rest : List String)
    (hget : project.get_task tid = some task)
    (hskip : task.deps.any
      (fun dep => st.failed_set.contains dep || st.skipped_set.contains dep)
      = true) :
    runLoop spawn ambient project fail_fast (tid :: rest) st =
      runLoop spawn ambient project fail_fast rest
        { st with
          skipped_list := st.skipped_list ++ [tid]
          skipped_set := st.skipped_set ++ [tid]
          processed := st.processed ++ [tid] } := by
  rw [runLoop_cons, hget]
  show (if (task.deps.any
    fun dep => st.failed_set.contains dep || st.skipped_set.contains dep) = true
    then _ else _) = _
  rw [if_pos hskip]

theorem runLoop_exec_ok {project : ProjectConfig} {tid : String}
    {task : TaskConfig} {st : ExecState}
    {spawn : SpawnRequest → SpawnResult} {ambient : List (String × String)}
    (fail_fast : Bool) (rest : List String)
    (hget : project.get_task tid = some task)
    (hskip : task.deps.any
      (fun dep => st.failed_set.contains dep || st.skipped_set.contains dep)
      = false)
    (hrc : (spawn (mkSpawnRequest ambient task)).returncode = 0) :
    runLoop spawn ambient project fail_fast (tid :: rest) st =
      runLoop spawn ambient project fail_fast rest
        { st with
          results := dictSet st.results tid
            ⟨tid, (spawn (mkSpawnRequest ambient task)).returncode,
              (spawn (mkSpawnRequest ambient task)).stdout,
              (spawn (mkSpawnRequest ambient task)).stderr,
              (spawn (mkSpawnRequest ambient task)).duration_s⟩
          succeeded_set := st.succeeded_set ++ [tid]
          processed := st.processed ++ [tid] } := by
  rw [runLoop_cons, hget]
  show (if (task.deps.any
    fun dep => st.failed_set.contains dep || st.skipped_set.contains dep) = true
    then _ else _) = _
  rw [if_neg (by rw [hskip]; exact Bool.false_ne_true)]
  show (if (spawn (mkSpawnRequest ambient task)).returncode = 0 then _ else _) = _
  rw [if_pos hrc]

theorem runLoop_exec_stop {project : ProjectConfig} {tid : String}
    {task : TaskConfig} {st : ExecState}
    {spawn : SpawnRequest → SpawnResult} {ambient : List (String × String)}
    (rest : List String)
    (hget : project.get_task tid = some task)
    (hskip : task.deps.any
      (fun dep => st.failed_set.contains dep || st.skipped_set.contains dep)
      = false)
    (hrc : (spawn (mkSpawnRequest ambient task)).returncode ≠ 0) :
    runLoop spawn ambient project true (tid :: rest) st =
      .ok { st with
        results := dictSet st.results tid
          ⟨tid, (spawn (mkSpawnRequest ambient task)).returncode,
            (spawn (mkSpawnRequest ambient task)).stdout,
            (spawn (mkSpawnRequest ambient task)).stderr,
            (spawn (mkSpawnRequest ambient task)).duration_s⟩
        failed_list := st.failed_list ++ [tid]
        failed_set := st.failed_set ++ [tid]
        processed := st.processed ++ [tid]
        stopped_early := true } := by
  rw [runLoop_cons, hget]
  show (if (task.deps.any
    fun dep => st.failed_set.contains dep || st.skipped_set.contains dep) = true
    then _ else _) = _
  rw [if_neg (by rw [hskip]; exact Bool.false_ne_true)]
  show (if (spawn (mkSpawnRequest ambient task)).returncode = 0 then _ else _) = _
  rw [if_neg hrc]
  rfl

theorem runLoop_exec_cont {project : ProjectConfig} {tid : String}
    {task : TaskConfig} {st : ExecState}
    {spawn : SpawnRequest → SpawnResult} {ambient : List (String × String)}
    (rest : List String)
    (hget : project.get_task tid = some task)
    (hskip : task.deps.any
      (fun dep => st.failed_set.contains dep || st.skipped_set.contains dep)
      = false)
    (hrc : (spawn (mkSpawnRequest ambient task)).returncode ≠ 0) :
    runLoop spawn ambient project false (tid :: rest) st =
      runLoop spawn ambient project false rest
        { st with
          results := dictSet st.results tid
            ⟨tid, (spawn (mkSpawnRequest ambient task)).returncode,
              (spawn (mkSpawnRequest ambient task)).stdout,
              (spawn (mkSpawnRequest ambient task)).stderr,
              (spawn (mkSpawnRequest ambient task)).duration_s⟩
          failed_list := st.failed_list ++ [tid]
          failed_set := st.failed_set ++ [tid]
          processed := st.processed ++ [tid] } := by
  rw [runLoop_cons, hget]
  show (if (task.deps.any
    fun dep => st.failed_set.contains dep || st.skipped_set.contains dep) = true
    then _ else _) = _
  rw [if_neg (by rw [hskip]; exact Bool.false_ne_true)]
  show (if (spawn (mkSpawnRequest ambient task)).returncode = 0 then _ else _) = _
  rw [if_neg hrc]
  rfl

/-- Master characterization of a completed walk of `Executor._run`'s loop
from a state whose pending identifiers are fresh: the loop succeeds and
extends every report field by a well-described delta. -/
theorem runLoop_main (spawn : SpawnRequest → SpawnResult)
    (ambient : List (String × String)) (project : ProjectConfig)
    (fail_fast : Bool) :
    ∀ (order : List String) (st : ExecState),
      (∀ t ∈ order, (project.get_task t).isSome) →
      order.Nodup →
      (∀ t ∈ order, t ∉ st.processed) →
      ExecInv st → st.stopped_early = false →
      ∃ st' Δr Δf Δs Δp,
        runLoop spawn ambient project fail_fast order st = .ok st' ∧
        st'.results = st.results ++ Δr ∧
        st'.failed_list = st.failed_list ++ Δf ∧
        st'.skipped_list = st.skipped_list ++ Δs ∧
        st'.processed = st.processed ++ Δp ∧
        ExecInv st' ∧
        (∀ x, x ∈ Δp ↔ (x ∈ Δr.map Prod.fst ∨ x ∈ Δs)) ∧
        (Δp.Nodup ∧ (Δr.map Prod.fst).Nodup ∧ Δs.Nodup) ∧
        (∀ x ∈ Δp, x ∈ order) ∧
        (∀ x ∈ Δr.map Prod.fst, x ∉ Δs) ∧
        Δf = (Δr.filter (fun pr => !(pr.2.returncode == 0))).map Prod.fst ∧
        (∀ pr ∈ Δr, ∃ task, project.get_task pr.1 = some task ∧
          pr.2 = ⟨pr.1, (spawn (mkSpawnRequest ambient task)).returncode,
            (spawn (mkSpawnRequest ambient task)).stdout,
            (spawn (mkSpawnRequest ambient task)).stderr,
            (spawn (mkSpawnRequest ambient task)).duration_s⟩) ∧
        (fail_fast = false → st'.stopped_early = false) ∧
        (st'.stopped_early = false → ∀ t ∈ order, t ∈ Δp) ∧
        (st'.stopped_early = true → fail_fast = true ∧
          ∃ pre f post, order = pre ++ f :: post ∧ Δf = [f] ∧
            (∀ t ∈ pre, t ∈ Δp) ∧ (∀ t, t ∈ Δp → t ∈ pre ∨ t = f) ∧
            f ∈ Δr.map Prod.fst) := by
  intro order
  induction order with
  | nil =>
    intro st _ _ _ hinv hflag
    refine ⟨st, [], [], [], [], runLoop_nil spawn ambient project fail_fast st,
      by simp, by simp, by simp, by simp, hinv, by simp, by simp, by simp,
      by simp, by simp, by simp, fun _ => hflag, by simp, ?_⟩
    intro h
    rw [hflag] at h
    exact absurd h Bool.false_ne_true
  | cons tid rest ih =>
    intro st hres hnd hfresh hinv hflag
    have hndr : rest.Nodup := (List.nodup_cons.mp hnd).2
    have htidrest : tid ∉ rest := (List.nodup_cons.mp hnd).1
    rcases Option.isSome_iff_exists.mp
      (hres tid (List.mem_cons_self tid rest)) with ⟨task, hget⟩
    have hresr : ∀ t ∈ rest, (project.get_task t).isSome :=
      fun t ht => hres t (List.mem_cons_of_mem tid ht)
    have htid_proc : tid ∉ st.processed :=
      hfresh tid (List.mem_cons_self tid rest)
    have htid_res : tid ∉ st.results.map Prod.fst := by
      intro hc
      exact htid_proc ((hinv.proc_iff tid).mpr (Or.inl hc))
    have htid_skip : tid ∉ st.skipped_list := by
      intro hc
      exact htid_proc ((hinv.proc_iff tid).mpr (Or.inr hc))
    by_cases hsk : task.deps.any
        (fun dep => st.failed_set.contains dep || st.skipped_set.contains dep)
        = true
    · -- dependency-skip branch
      have hinv₁ : ExecInv
          { st with
            skipped_list := st.skipped_list ++ [tid]
            skipped_set := st.skipped_set ++ [tid]
            processed := st.processed ++ [tid] } := by
        refine ⟨hinv.fs_eq, ?_, ?_⟩
        · show st.skipped_set ++ [tid] = st.skipped_list ++ [tid]
          rw [hinv.ss_eq]
        · intro x
          show x ∈ st.processed ++ [tid] ↔
            x ∈ st.results.map Prod.fst ∨ x ∈ st.skipped_list ++ [tid]
          simp only [List.mem_append, List.mem_singleton]
          have := hinv.proc_iff x
          tauto
      have hfresh₁ : ∀ t ∈ rest, t ∉
          ({ st with
            skipped_list := st.skipped_list ++ [tid]
            skipped_set := st.skipped_set ++ [tid]
            processed := st.processed ++ [tid] } : ExecState).processed := by
        intro t ht hc
        rcases List.mem_append.mp hc with hc | hc
        · exact hfresh t (List.mem_cons_of_mem tid ht) hc
        · exact htidrest ((List.mem_singleton.mp hc) ▸ ht)
      rcases ih _ hresr hndr hfresh₁ hinv₁ hflag with
        ⟨st', Δr, Δf, Δs, Δp, hrun, h2, h3, h4, h5, h6, h7, h8, h9, h10,
          h11, h12, h13, h14, h15⟩
      have htidΔp : tid ∉ Δp := fun hc => htidrest (h9 tid hc)
      have htidΔs : tid ∉ Δs := fun hc =>
        htidΔp ((h7 tid).mpr (Or.inr hc))
      refine ⟨st', Δr, Δf, tid :: Δs, tid :: Δp, ?_, h2, h3, ?_, ?_, h6,
        ?_, ?_, ?_, ?_, h11, h12, h13, ?_, ?_⟩
      · rw [runLoop_skip spawn ambient fail_fast rest hget hsk]
        exact hrun
      · rw [h4]
        show (st.skipped_list ++ [tid]) ++ Δs = st.skipped_list ++ (tid :: Δs)
        rw [List.append_assoc, List.singleton_append]
      · rw [h5]
        show (st.processed ++ [tid]) ++ Δp = st.processed ++ (tid :: Δp)
        rw [List.append_assoc, List.singleton_append]
      · intro x
        simp only [List.mem_cons]
        have := h7 x
        tauto
      · refine ⟨List.nodup_cons.mpr ⟨htidΔp, h8.1⟩, h8.2.1,
          List.nodup_cons.mpr ⟨htidΔs, h8.2.2⟩⟩
      · intro x hx
        rcases List.mem_cons.mp hx with hx | hx
        · exact hx ▸ List.mem_cons_self tid rest
        · exact List.mem_cons_of_mem tid (h9 x hx)
      · intro x hx hc
        rcases List.mem_cons.mp hc with hc | hc
        · subst hc
          exact htidΔp ((h7 x).mpr (Or.inl hx))
        · exact h10 x hx hc
      · intro hfl t ht
        rcases List.mem_cons.mp ht with ht | ht
        · exact ht ▸ List.mem_cons_self tid Δp
        · exact List.mem_cons_of_mem tid (h14 hfl t ht)
      · intro hfl
        rcases h15 hfl with ⟨hff, pre, f, post, hsplit, hΔf, hpre, hΔpf, hfres⟩
        refine ⟨hff, tid :: pre, f, post, by rw [hsplit]; rfl, hΔf, ?_, ?_, hfres⟩
        · intro t ht
          rcases List.mem_cons.mp ht with ht | ht
          · exact ht ▸ List.mem_cons_self tid Δp
          · exact List.mem_cons_of_mem tid (hpre t ht)
        · intro t ht
          rcases List.mem_cons.mp ht with ht | ht
          · exact Or.inl (ht ▸ List.mem_cons_self tid pre)
          · rcases hΔpf t ht with h | h
            · exact Or.inl (List.mem_cons_of_mem tid h)
            · exact Or.inr h
    · -- execute branch
      have hskF : task.deps.any
          (fun dep => st.failed_set.contains dep || st.skipped_set.contains dep)
          = false := by
        cases hc : task.deps.any
            (fun dep => st.failed_set.contains dep ||
              st.skipped_set.contains dep) with
        | true => exact absurd hc hsk
        | false => rfl
      have hdset : dictSet st.results tid
          ⟨tid, (spawn (mkSpawnRequest ambient task)).returncode,
            (spawn (mkSpawnRequest ambient task)).stdout,
            (spawn (mkSpawnRequest ambient task)).stderr,
            (spawn (mkSpawnRequest ambient task)).duration_s⟩ =
          st.results ++ [(tid,
            ⟨tid, (spawn (mkSpawnRequest ambient task)).returncode,
              (spawn (mkSpawnRequest ambient task)).stdout,
              (spawn (mkSpawnRequest ambient task)).stderr,
              (spawn (mkSpawnRequest ambient task)).duration_s⟩)] :=
        dictSet_of_not_mem _ htid_res
      by_cases hrc : (spawn (mkSpawnRequest ambient task)).returncode = 0
      · -- successful execution
        have hinv₁ : ExecInv
            { st with
              results := st.results ++ [(tid,
                ⟨tid, (spawn (mkSpawnRequest ambient task)).returncode,
                  (spawn (mkSpawnRequest ambient task)).stdout,
                  (spawn (mkSpawnRequest ambient task)).stderr,
                  (spawn (mkSpawnRequest ambient task)).duration_s⟩)]
              succeeded_set := st.succeeded_set ++ [tid]
              processed := st.processed ++ [tid] } := by
          refine ⟨hinv.fs_eq, hinv.ss_eq, ?_⟩
          intro x
          show x ∈ st.processed ++ [tid] ↔
            x ∈ (st.results ++ [(tid, _)]).map Prod.fst ∨ x ∈ st.skipped_list
          simp only [List.mem_append, List.mem_singleton, List.map_append,
            List.map_cons, List.map_nil]
          have := hinv.proc_iff x
          simp only [List.mem_append] at this
          constructor
          · intro h
            rcases h with h | h
            · rcases this.mp h with h' | h'
              · exact Or.inl (Or.inl h')
              · exact Or.inr h'
            · exact Or.inl (Or.inr (by simp [h]))
          · intro h
            rcases h with (h | h) | h
            · exact Or.inl (this.mpr (Or.inl h))
            · exact Or.inr h
            · exact Or.inl (this.mpr (Or.inr h))
        have hfresh₁ : ∀ t ∈ rest, t ∉ st.processed ++ [tid] := by
          intro t ht hc
          rcases List.mem_append.mp hc with hc | hc
          · exact hfresh t (List.mem_cons_of_mem tid ht) hc
          · exact htidrest ((List.mem_singleton.mp hc) ▸ ht)
        rcases ih _ hresr hndr hfresh₁ hinv₁ hflag with
          ⟨st', Δr, Δf, Δs, Δp, hrun, h2, h3, h4, h5, h6, h7, h8, h9, h10,
            h11, h12, h13, h14, h15⟩
        have htidΔp : tid ∉ Δp := fun hc => htidrest (h9 tid hc)
        have htidΔs : tid ∉ Δs := fun hc =>
          htidΔp ((h7 tid).mpr (Or.inr hc))
        have htidΔr : tid ∉ Δr.map Prod.fst := fun hc =>
          htidΔp ((h7 tid).mpr (Or.inl hc))
        refine ⟨st', (tid, ⟨tid, (spawn (mkSpawnRequest ambient task)).returncode,
            (spawn (mkSpawnRequest ambient task)).stdout,
            (spawn (mkSpawnRequest ambient task)).stderr,
            (spawn (mkSpawnRequest ambient task)).duration_s⟩) :: Δr,
          Δf, Δs, tid :: Δp, ?_, ?_, h3, h4, ?_, h6, ?_, ?_, ?_, ?_, ?_,
          ?_, h13, ?_, ?_⟩
        · rw [runLoop_exec_ok fail_fast rest hget hskF hrc, hdset]
          exact hrun
        · rw [h2]
          show (st.results ++ [_]) ++ Δr = st.results ++ (_ :: Δr)
          rw [List.append_assoc, List.singleton_append]
        · rw [h5]
          show (st.processed ++ [tid]) ++ Δp = st.processed ++ (tid :: Δp)
          rw [List.append_assoc, List.singleton_append]
        · intro x
          simp only [List.mem_cons, List.map_cons]
          have := h7 x
          tauto
        · exact ⟨List.nodup_cons.mpr ⟨htidΔp, h8.1⟩,
            List.nodup_cons.mpr ⟨htidΔr, h8.2.1⟩, h8.2.2⟩
        · intro x hx
          rcases List.mem_cons.mp hx with hx | hx
          · exact hx ▸ List.mem_cons_self tid rest
          · exact List.mem_cons_of_mem tid (h9 x hx)
        · intro x hx hc
          simp only [List.map_cons, List.mem_cons] at hx
          rcases hx with hx | hx
          · subst hx
            exact htidΔs hc
          · exact h10 x hx hc
        · rw [List.filter_cons, if_neg (by simp [hrc])]
          exact h11
        · intro pr hpr
          rcases List.mem_cons.mp hpr with hpr | hpr
          · subst hpr
            exact ⟨task, hget, rfl⟩
          · exact h12 pr hpr
        · intro hfl t ht
          rcases List.mem_cons.mp ht with ht | ht
          · exact ht ▸ List.mem_cons_self tid Δp
          · exact List.mem_cons_of_mem tid (h14 hfl t ht)
        · intro hfl
          rcases h15 hfl with ⟨hff, pre, f, post, hsplit, hΔf, hpre, hΔpf, hfres⟩
          refine ⟨hff, tid :: pre, f, post, by rw [hsplit]; rfl, hΔf, ?_, ?_, ?_⟩
          · intro t ht
            rcases List.mem_cons.mp ht with ht | ht
            · exact ht ▸ List.mem_cons_self tid Δp
            · exact List.mem_cons_of_mem tid (hpre t ht)
          · intro t ht
            rcases List.mem_cons.mp ht with ht | ht
            · exact Or.inl (ht ▸ List.mem_cons_self tid pre)
            · rcases hΔpf t ht with h | h
              · exact Or.inl (List.mem_cons_of_mem tid h)
              · exact Or.inr h
          · simp only [List.map_cons, List.mem_cons]
            exact Or.inr hfres
      · -- failing execution
        cases hff : fail_fast with
        | true =>
          refine ⟨{ st with
              results := dictSet st.results tid
                ⟨tid, (spawn (mkSpawnRequest ambient task)).returncode,
                  (spawn (mkSpawnRequest ambient task)).stdout,
                  (spawn (mkSpawnRequest ambient task)).stderr,
                  (spawn (mkSpawnRequest ambient task)).duration_s⟩
              failed_list := st.failed_list ++ [tid]
              failed_set := st.failed_set ++ [tid]
              processed := st.processed ++ [tid]
              stopped_early := true },
            [(tid, ⟨tid, (spawn (mkSpawnRequest ambient task)).returncode,
              (spawn (mkSpawnRequest ambient task)).stdout,
              (spawn (mkSpawnRequest ambient task)).stderr,
              (spawn (mkSpawnRequest ambient task)).duration_s⟩)],
            [tid], [], [tid], ?_, ?_, ?_, ?_, ?_, ?_, ?_, ?_, ?_, ?_, ?_,
            ?_, ?_, ?_, ?_⟩
          · rw [runLoop_exec_stop rest hget hskF hrc]
          · show dictSet st.results tid _ = st.results ++ [_]
            exact hdset
          · rfl
          · show st.skipped_list = st.skipped_list ++ []
            rw [List.append_nil]
          · rfl
          · refine ⟨?_, ?_, ?_⟩
            · show st.failed_set ++ [tid] = st.failed_list ++ [tid]
              rw [hinv.fs_eq]
            · exact hinv.ss_eq
            · intro x
              show x ∈ st.processed ++ [tid] ↔
                x ∈ (dictSet st.results tid _).map Prod.fst ∨ x ∈ st.skipped_list
              rw [hdset]
              simp only [List.mem_append, List.mem_singleton, List.map_append,
                List.map_cons, List.map_nil]
              have := hinv.proc_iff x
              simp only [List.mem_append] at this
              constructor
              · intro h
                rcases h with h | h
                · rcases this.mp h with h' | h'
                  · exact Or.inl (Or.inl h')
                  · exact Or.inr h'
                · exact Or.inl (Or.inr (by simp [h]))
              · intro h
                rcases h with (h | h) | h
                · exact Or.inl (this.mpr (Or.inl h))
                · exact Or.inr h
                · exact Or.inl (this.mpr (Or.inr h))
          · intro x
            simp only [List.map_cons, List.map_nil, List.mem_cons,
              List.mem_singleton, List.not_mem_nil, or_false]
          · exact ⟨List.nodup_singleton tid, by simp, List.nodup_nil⟩
          · intro x hx
            rw [List.mem_singleton.mp hx]
            exact List.mem_cons_self tid rest
          · intro x _ hc
            exact List.not_mem_nil x hc
          · rw [List.filter_cons, if_pos (by simp [hrc]), List.filter_nil]
            rfl
          · intro pr hpr
            rw [List.mem_singleton.mp hpr]
            exact ⟨task, hget, rfl⟩
          · intro h
            exact Bool.noConfusion h
          · intro h
            exact Bool.noConfusion h
          · intro _
            refine ⟨rfl, [], tid, rest, rfl, rfl, ?_, ?_, ?_⟩
            · intro t ht
              exact absurd ht (List.not_mem_nil t)
            · intro t ht
              exact Or.inr (List.mem_singleton.mp ht)
            · simp
        | false =>
          rw [hff] at ih
          have hinv₁ : ExecInv
              { st with
                results := st.results ++ [(tid,
                  ⟨tid, (spawn (mkSpawnRequest ambient task)).returncode,
                    (spawn (mkSpawnRequest ambient task)).stdout,
                    (spawn (mkSpawnRequest ambient task)).stderr,
                    (spawn (mkSpawnRequest ambient task)).duration_s⟩)]
                failed_list := st.failed_list ++ [tid]
                failed_set := st.failed_set ++ [tid]
                processed := st.processed ++ [tid] } := by
            refine ⟨?_, hinv.ss_eq, ?_⟩
            · show st.failed_set ++ [tid] = st.failed_list ++ [tid]
              rw [hinv.fs_eq]
            · intro x
              show x ∈ st.processed ++ [tid] ↔
                x ∈ (st.results ++ [(tid, _)]).map Prod.fst ∨ x ∈ st.skipped_list
              simp only [List.mem_append, List.mem_singleton, List.map_append,
                List.map_cons, List.map_nil]
              have := hinv.proc_iff x
              simp only [List.mem_append] at this
              constructor
              · intro h
                rcases h with h | h
                · rcases this.mp h with h' | h'
                  · exact Or.inl (Or.inl h')
                  · exact Or.inr h'
                · exact Or.inl (Or.inr (by simp [h]))
              · intro h
                rcases h with (h | h) | h
                · exact Or.inl (this.mpr (Or.inl h))
                · exact Or.inr h
                · exact Or.inl (this.mpr (Or.inr h))
          have hfresh₁ : ∀ t ∈ rest, t ∉ st.processed ++ [tid] := by
            intro t ht hc
            rcases List.mem_append.mp hc with hc | hc
            · exact hfresh t (List.mem_cons_of_mem tid ht) hc
            · exact htidrest ((List.mem_singleton.mp hc) ▸ ht)
          rcases ih _ hresr hndr hfresh₁ hinv₁ hflag with
            ⟨st', Δr, Δf, Δs, Δp, hrun, h2, h3, h4, h5, h6, h7, h8, h9, h10,
              h11, h12, h13, h14, h15⟩
          have htidΔp : tid ∉ Δp := fun hc => htidrest (h9 tid hc)
          have htidΔs : tid ∉ Δs := fun hc =>
            htidΔp ((h7 tid).mpr (Or.inr hc))
          have htidΔr : tid ∉ Δr.map Prod.fst := fun hc =>
            htidΔp ((h7 tid).mpr (Or.inl hc))
          refine ⟨st', (tid, ⟨tid, (spawn (mkSpawnRequest ambient task)).returncode,
              (spawn (mkSpawnRequest ambient task)).stdout,
              (spawn (mkSpawnRequest ambient task)).stderr,
              (spawn (mkSpawnRequest ambient task)).duration_s⟩) :: Δr,
            tid :: Δf, Δs, tid :: Δp, ?_, ?_, ?_, h4, ?_, h6, ?_, ?_, ?_, ?_,
            ?_, ?_, h13, ?_, ?_⟩
          · rw [runLoop_exec_cont rest hget hskF hrc, hdset]
            exact hrun
          · rw [h2]
            show (st.results ++ [_]) ++ Δr = st.results ++ (_ :: Δr)
            rw [List.append_assoc, List.singleton_append]
          · rw [h3]
            show (st.failed_list ++ [tid]) ++ Δf = st.failed_list ++ (tid :: Δf)
            rw [List.append_assoc, List.singleton_append]
          · rw [h5]
            show (st.processed ++ [tid]) ++ Δp = st.processed ++ (tid :: Δp)
            rw [List.append_assoc, List.singleton_append]
          · intro x
            simp only [List.mem_cons, List.map_cons]
            have := h7 x
            tauto
          · exact ⟨List.nodup_cons.mpr ⟨htidΔp, h8.1⟩,
              List.nodup_cons.mpr ⟨htidΔr, h8.2.1⟩, h8.2.2⟩
          · intro x hx
            rcases List.mem_cons.mp hx with hx | hx
            · exact hx ▸ List.mem_cons_self tid rest
            · exact List.mem_cons_of_mem tid (h9 x hx)
          · intro x hx hc
            simp only [List.map_cons, List.mem_cons] at hx
            rcases hx with hx | hx
            · subst hx
              exact htidΔs hc
            · exact h10 x hx hc
          · rw [List.filter_cons, if_pos (by simp [hrc]), List.map_cons]
            rw [h11]
          · intro pr hpr
            rcases List.mem_cons.mp hpr with hpr | hpr
            · subst hpr
              exact ⟨task, hget, rfl⟩
            · exact h12 pr hpr
          · intro hfl t ht
            rcases List.mem_cons.mp ht with ht | ht
            · exact ht ▸ List.mem_cons_self tid Δp
            · exact List.mem_cons_of_mem tid (h14 hfl t ht)
          · intro hfl
            rcases h15 hfl with ⟨hffc, _⟩
            exact absurd hffc (by intro hc; exact Bool.noConfusion hc)

theorem mem_of_contains {l : List String} {a : String}
    (h : l.contains a = true) : a ∈ l := List.elem_iff.mp h

theorem contains_of_mem {l : List String} {a : String}
    (h : a ∈ l) : l.contains a = true := List.elem_iff.mpr h

theorem depCheck_iff {task : TaskConfig} {st : ExecState} (hinv : ExecInv st) :
    task.deps.any
        (fun dep => st.failed_set.contains dep || st.skipped_set.contains dep)
        = true ↔
      ∃ d ∈ task.deps, d ∈ st.failed_list ∨ d ∈ st.skipped_list := by
  rw [List.any_eq_true]
  constructor
  · rintro ⟨d, hd, hdc⟩
    refine ⟨d, hd, ?_⟩
    rw [Bool.or_eq_true] at hdc
    rcases hdc with h | h
    · exact Or.inl (hinv.fs_eq ▸ mem_of_contains h)
    · exact Or.inr (hinv.ss_eq ▸ mem_of_contains h)
  · rintro ⟨d, hd, hdf⟩
    refine ⟨d, hd, ?_⟩
    rw [Bool.or_eq_true]
    rcases hdf with h | h
    · exact Or.inl (contains_of_mem (hinv.fs_eq ▸ h))
    · exact Or.inr (contains_of_mem (hinv.ss_eq ▸ h))

theorem lateSkip_fold :
    ∀ (order : List String) (st : ExecState),
      order.foldl
        (fun t tid =>
          if t.processed.contains tid then t
          else
            { t with
              skipped_list := t.skipped_list ++ [tid]
              skipped_set := t.skipped_set ++ [tid] })
        st =
      { st with
        skipped_list := st.skipped_list ++
          order.filter (fun tid => !(st.processed.contains tid))
        skipped_set := st.skipped_set ++
          order.filter (fun tid => !(st.processed.contains tid)) }
  | [], st => by
    show st = _
    simp only [List.filter_nil, List.append_nil]
  | tid :: order, st => by
    cases hc : st.processed.contains tid with
    | true =>
      show List.foldl _ (if st.processed.contains tid = true then st
        else { st with
          skipped_list := st.skipped_list ++ [tid]
          skipped_set := st.skipped_set ++ [tid] }) order = _
      rw [if_pos hc, lateSkip_fold order st, List.filter_cons,
        if_neg (by
          intro hx
          have hx' : (!(st.processed.contains tid)) = true := hx
          rw [hc] at hx'
          exact Bool.noConfusion hx')]
    | false =>
      show List.foldl _ (if st.processed.contains tid = true then st
        else { st with
          skipped_list := st.skipped_list ++ [tid]
          skipped_set := st.skipped_set ++ [tid] }) order = _
      rw [if_neg (by rw [hc]; exact Bool.false_ne_true), lateSkip_fold order _]
      show ({ st with
          skipped_list := (st.skipped_list ++ [tid]) ++
            order.filter (fun td => !(st.processed.contains td))
          skipped_set := (st.skipped_set ++ [tid]) ++
            order.filter (fun td => !(st.processed.contains td)) } : ExecState)
        = _
      rw [List.filter_cons,
        if_pos (by show (!(st.processed.contains tid)) = true; rw [hc]; rfl)]
      simp only [List.append_assoc, List.singleton_append]

theorem lateSkip_false {st : ExecState} (order : List String)
    (h : st.stopped_early = false) : lateSkip order st = st := by
  unfold lateSkip
  rw [if_neg (by rw [h]; exact Bool.false_ne_true)]

theorem lateSkip_true {st : ExecState} (order : List String)
    (h : st.stopped_early = true) :
    lateSkip order st =
      { st with
        skipped_list := st.skipped_list ++
          order.filter (fun tid => !(st.processed.contains tid))
        skipped_set := st.skipped_set ++
          order.filter (fun tid => !(st.processed.contains tid)) } := by
  unfold lateSkip
  rw [if_pos h]
  exact lateSkip_fold order st

theorem runLoop_noStop_frozen (spawn : SpawnRequest → SpawnResult)
    (ambient : List (String × String)) (project : ProjectConfig) :
    ∀ (order : List String) (st st' : ExecState),
      runLoop spawn ambient project true order st = .ok st' →
      st'.stopped_early = false → st'.failed_list = st.failed_list := by
  intro order
  induction order with
  | nil =>
    intro st st' h _
    rw [runLoop_nil] at h
    injection h with h
    rw [← h]
  | cons tid rest ih =>
    intro st st' h hf
    cases hget : project.get_task tid with
    | none =>
      rw [runLoop_none spawn ambient true rest st hget] at h
      exact Except.noConfusion h
    | some task =>
      by_cases hsk : task.deps.any
          (fun dep => st.failed_set.contains dep || st.skipped_set.contains dep)
          = true
      · rw [runLoop_skip spawn ambient true rest hget hsk] at h
        rw [ih _ _ h hf]
      · have hskF : task.deps.any
            (fun dep => st.failed_set.contains dep ||
              st.skipped_set.contains dep) = false := by
          cases hx : task.deps.any
              (fun dep => st.failed_set.contains dep ||
                st.skipped_set.contains dep) with
          | true => exact absurd hx hsk
          | false => rfl
        by_cases hrc : (spawn (mkSpawnRequest ambient task)).returncode = 0
        · rw [runLoop_exec_ok true rest hget hskF hrc] at h
          rw [ih _ _ h hf]
        · rw [runLoop_exec_stop rest hget hskF hrc] at h
          injection h with h
          rw [← h] at hf
          exact Bool.noConfusion hf

theorem topoOK_cons_true {project : ProjectConfig} {seen : List String}
    {t : String} {rest : List String}
    (h : topoOK project seen (t :: rest) = true) :
    (∃ task, project.get_task t = some task ∧ ∀ d ∈ task.deps, d ∈ seen) ∧
      topoOK project (seen ++ [t]) rest = true := by
  have h' : ((match project.get_task t with
      | some task => task.deps.all (fun d => seen.contains d)
      | none => false) && topoOK project (seen ++ [t]) rest) = true := h
  rw [Bool.and_eq_true] at h'
  rcases h' with ⟨h1, h2⟩
  refine ⟨?_, h2⟩
  cases hget : project.get_task t with
  | none =>
    rw [hget] at h1
    exact absurd h1 Bool.false_ne_true
  | some task =>
    rw [hget] at h1
    have h1' : task.deps.all (fun d => seen.contains d) = true := h1
    refine ⟨task, rfl, fun d hd => ?_⟩
    exact mem_of_contains (List.all_eq_true.mp h1' d hd)

theorem runLoop_ff_inv (spawn : SpawnRequest → SpawnResult)
    (ambient : List (String × String)) (project : ProjectConfig) :
    ∀ (rest pre : List String) (st : ExecState),
      (pre ++ rest).Nodup →
      (∀ t ∈ pre, ∀ task, project.get_task t = some task →
        ∀ d ∈ task.deps, d ∈ pre) →
      topoOK project pre rest = true →
      st.stopped_early = false →
      ExecInv st →
      (∀ x, x ∈ st.processed ↔ x ∈ pre) →
      (∀ x ∈ st.failed_list, x ∈ st.results.map Prod.fst) →
      (∀ x ∈ st.results.map Prod.fst, x ∉ st.skipped_list) →
      (∀ t, t ∈ st.skipped_list ↔ (t ∈ pre ∧ ∃ task,
        project.get_task t = some task ∧
        ∃ d ∈ task.deps, d ∈ st.failed_list ∨ d ∈ st.skipped_list)) →
      ∃ st', runLoop spawn ambient project false rest st = .ok st' ∧
        st'.stopped_early = false ∧ ExecInv st' ∧
        (∀ x, x ∈ st'.processed ↔ x ∈ pre ++ rest) ∧
        (∀ x ∈ st'.failed_list, x ∈ st'.results.map Prod.fst) ∧
        (∀ x ∈ st'.results.map Prod.fst, x ∉ st'.skipped_list) ∧
        (∀ t, t ∈ st'.skipped_list ↔ (t ∈ pre ++ rest ∧ ∃ task,
          project.get_task t = some task ∧
          ∃ d ∈ task.deps, d ∈ st'.failed_list ∨ d ∈ st'.skipped_list)) := by
  intro rest
  induction rest with
  | nil =>
    intro pre st _ _ _ hflag hinv hproc hF hdisj hskip
    exact ⟨st, runLoop_nil spawn ambient project false st, hflag, hinv,
      by simpa using hproc, hF, hdisj, by simpa using hskip⟩
  | cons tid rest ih =>
    intro pre st hnd htopoPre htopo hflag hinv hproc hF hdisj hskip
    rcases topoOK_cons_true htopo with ⟨⟨task, hget, hdeps⟩, htopo'⟩
    have htid_pre : tid ∉ pre := by
      rcases List.nodup_append.mp hnd with ⟨_, _, hdj⟩
      intro hc
      exact hdj hc (List.mem_cons_self tid rest)
    have hnd' : ((pre ++ [tid]) ++ rest).Nodup := by
      rw [List.append_assoc, List.singleton_append]
      exact hnd
    have hlist : (pre ++ [tid]) ++ rest = pre ++ tid :: rest := by
      rw [List.append_assoc, List.singleton_append]
    have htid_proc : tid ∉ st.processed := fun hc => htid_pre ((hproc tid).mp hc)
    have htid_res : tid ∉ st.results.map Prod.fst := by
      intro hc
      exact htid_proc ((hinv.proc_iff tid).mpr (Or.inl hc))
    have htid_skip : tid ∉ st.skipped_list := by
      intro hc
      exact htid_proc ((hinv.proc_iff tid).mpr (Or.inr hc))
    have htopoPre' : ∀ t ∈ pre ++ [tid], ∀ task',
        project.get_task t = some task' → ∀ d ∈ task'.deps, d ∈ pre ++ [tid] := by
      intro t ht task' hget' d hd
      rcases List.mem_append.mp ht with ht | ht
      · exact List.mem_append.mpr (Or.inl (htopoPre t ht task' hget' d hd))
      · rw [List.mem_singleton.mp ht] at hget'
        rw [hget] at hget'
        injection hget' with he
        subst he
        exact List.mem_append.mpr (Or.inl (hdeps d hd))
    by_cases hsk : task.deps.any
        (fun dep => st.failed_set.contains dep || st.skipped_set.contains dep)
        = true
    · -- dependency-skip step
      have hskP := (depCheck_iff hinv).mp hsk
      have hinv₁ : ExecInv
          { st with
            skipped_list := st.skipped_list ++ [tid]
            skipped_set := st.skipped_set ++ [tid]
            processed := st.processed ++ [tid] } := by
        refine ⟨hinv.fs_eq, ?_, ?_⟩
        · show st.skipped_set ++ [tid] = st.skipped_list ++ [tid]
          rw [hinv.ss_eq]
        · intro x
          show x ∈ st.processed ++ [tid] ↔
            x ∈ st.results.map Prod.fst ∨ x ∈ st.skipped_list ++ [tid]
          simp only [List.mem_append, List.mem_singleton]
          have := hinv.proc_iff x
          tauto
      have hproc₁ : ∀ x, x ∈ st.processed ++ [tid] ↔ x ∈ pre ++ [tid] := by
        intro x
        simp only [List.mem_append, List.mem_singleton]
        have := hproc x
        tauto
      have hdisj₁ : ∀ x ∈ st.results.map Prod.fst,
          x ∉ st.skipped_list ++ [tid] := by
        intro x hx hc
        rcases List.mem_append.mp hc with hc | hc
        · exact hdisj x hx hc
        · rw [List.mem_singleton.mp hc] at hx
          exact htid_res hx
      have hskip₁ : ∀ t, t ∈ st.skipped_list ++ [tid] ↔
          (t ∈ pre ++ [tid] ∧ ∃ task', project.get_task t = some task' ∧
            ∃ d ∈ task'.deps,
              d ∈ st.failed_list ∨ d ∈ st.skipped_list ++ [tid]) := by
        intro t
        constructor
        · intro ht
          rcases List.mem_append.mp ht with ht | ht
          · rcases (hskip t).mp ht with ⟨htpre, task', hget', d, hd, hdf⟩
            refine ⟨List.mem_append.mpr (Or.inl htpre), task', hget', d, hd, ?_⟩
            rcases hdf with h | h
            · exact Or.inl h
            · exact Or.inr (List.mem_append.mpr (Or.inl h))
          · rw [List.mem_singleton.mp ht]
            refine ⟨List.mem_append.mpr (Or.inr (List.mem_singleton.mpr rfl)),
              task, hget, ?_⟩
            rcases hskP with ⟨d, hd, hdf⟩
            refine ⟨d, hd, ?_⟩
            rcases hdf with h | h
            · exact Or.inl h
            · exact Or.inr (List.mem_append.mpr (Or.inl h))
        · rintro ⟨htm, task', hget', d, hd, hdf⟩
          rcases List.mem_append.mp htm with htm | htm
          · have hd_pre : d ∈ pre := htopoPre t htm task' hget' d hd
            have hd_ne : d ≠ tid := fun he => htid_pre (he ▸ hd_pre)
            have hdf' : d ∈ st.failed_list ∨ d ∈ st.skipped_list := by
              rcases hdf with h | h
              · exact Or.inl h
              · rcases List.mem_append.mp h with h | h
                · exact Or.inr h
                · exact absurd (List.mem_singleton.mp h) hd_ne
            exact List.mem_append.mpr
              (Or.inl ((hskip t).mpr ⟨htm, task', hget', d, hd, hdf'⟩))
          · exact List.mem_append.mpr (Or.inr htm)
      rcases ih (pre ++ [tid])
          { st with
            skipped_list := st.skipped_list ++ [tid]
            skipped_set := st.skipped_set ++ [tid]
            processed := st.processed ++ [tid] }
          hnd' htopoPre' htopo' hflag hinv₁ hproc₁ hF hdisj₁ hskip₁ with
        ⟨st', hrun, hflag', hinv', hproc', hF', hdisj', hskip'⟩
      simp only [hlist] at hproc' hskip'
      refine ⟨st', ?_, hflag', hinv', hproc', hF', hdisj', hskip'⟩
      rw [runLoop_skip spawn ambient false rest hget hsk]
      exact hrun
    · -- execute step
      have hskP_neg : ¬ ∃ d ∈ task.deps,
          d ∈ st.failed_list ∨ d ∈ st.skipped_list :=
        fun hc => hsk ((depCheck_iff hinv).mpr hc)
      have hskF : task.deps.any
          (fun dep => st.failed_set.contains dep || st.skipped_set.contains dep)
          = false := by
        cases hx : task.deps.any
            (fun dep => st.failed_set.contains dep ||
              st.skipped_set.contains dep) with
        | true => exact absurd hx hsk
        | false => rfl
      have hdset : dictSet st.results tid
          (⟨tid, (spawn (mkSpawnRequest ambient task)).returncode,
            (spawn (mkSpawnRequest ambient task)).stdout,
            (spawn (mkSpawnRequest ambient task)).stderr,
            (spawn (mkSpawnRequest ambient task)).duration_s⟩ : TaskResult) =
          st.results ++ [(tid,
            (⟨tid, (spawn (mkSpawnRequest ambient task)).returncode,
              (spawn (mkSpawnRequest ambient task)).stdout,
              (spawn (mkSpawnRequest ambient task)).stderr,
              (spawn (mkSpawnRequest ambient task)).duration_s⟩ : TaskResult))] :=
        dictSet_of_not_mem _ htid_res
      have hprociff : ∀ x, x ∈ st.processed ++ [tid] ↔
          x ∈ (st.results ++ [(tid,
            (⟨tid, (spawn (mkSpawnRequest ambient task)).returncode,
              (spawn (mkSpawnRequest ambient task)).stdout,
              (spawn (mkSpawnRequest ambient task)).stderr,
              (spawn (mkSpawnRequest ambient task)).duration_s⟩ : TaskResult))]).map Prod.fst
            ∨ x ∈ st.skipped_list := by
        intro x
        simp only [List.mem_append, List.mem_singleton, List.map_append,
          List.map_cons, List.map_nil]
        have := hinv.proc_iff x
        simp only [List.mem_append] at this
        constructor
        · intro h
          rcases h with h | h
          · rcases this.mp h with h' | h'
            · exact Or.inl (Or.inl h')
            · exact Or.inr h'
          · exact Or.inl (Or.inr (by simp [h]))
        · intro h
          rcases h with (h | h) | h
          · exact Or.inl (this.mpr (Or.inl h))
          · exact Or.inr h
          · exact Or.inl (this.mpr (Or.inr h))
      have hproc₁ : ∀ x, x ∈ st.processed ++ [tid] ↔ x ∈ pre ++ [tid] := by
        intro x
        simp only [List.mem_append, List.mem_singleton]
        have := hproc x
        tauto
      have hkeys : (st.results ++ [(tid,
          (⟨tid, (spawn (mkSpawnRequest ambient task)).returncode,
            (spawn (mkSpawnRequest ambient task)).stdout,
            (spawn (mkSpawnRequest ambient task)).stderr,
            (spawn (mkSpawnRequest ambient task)).duration_s⟩ : TaskResult))]).map Prod.fst =
          st.results.map Prod.fst ++ [tid] := by
        rw [List.map_append]
        rfl
      have hdisj₁ : ∀ x ∈ (st.results ++ [(tid,
          (⟨tid, (spawn (mkSpawnRequest ambient task)).returncode,
            (spawn (mkSpawnRequest ambient task)).stdout,
            (spawn (mkSpawnRequest ambient task)).stderr,
            (spawn (mkSpawnRequest ambient task)).duration_s⟩ : TaskResult))]).map Prod.fst,
          x ∉ st.skipped_list := by
        rw [hkeys]
        intro x hx hc
        rcases List.mem_append.mp hx with hx | hx
        · exact hdisj x hx hc
        · rw [List.mem_singleton.mp hx] at hc
          exact htid_skip hc
      by_cases hrc : (spawn (mkSpawnRequest ambient task)).returncode = 0
      · -- successful execution
        have hinv₁ : ExecInv
            { st with
              results := st.results ++ [(tid,
                (⟨tid, (spawn (mkSpawnRequest ambient task)).returncode,
                  (spawn (mkSpawnRequest ambient task)).stdout,
                  (spawn (mkSpawnRequest ambient task)).stderr,
                  (spawn (mkSpawnRequest ambient task)).duration_s⟩ : TaskResult))]
              succeeded_set := st.succeeded_set ++ [tid]
              processed := st.processed ++ [tid] } :=
          ⟨hinv.fs_eq, hinv.ss_eq, hprociff⟩
        have hF₁ : ∀ x ∈ st.failed_list, x ∈ (st.results ++ [(tid,
            (⟨tid, (spawn (mkSpawnRequest ambient task)).returncode,
              (spawn (mkSpawnRequest ambient task)).stdout,
              (spawn (mkSpawnRequest ambient task)).stderr,
              (spawn (mkSpawnRequest ambient task)).duration_s⟩ : TaskResult))]).map Prod.fst := by
          rw [hkeys]
          intro x hx
          exact List.mem_append.mpr (Or.inl (hF x hx))
        have hskip₁ : ∀ t, t ∈ st.skipped_list ↔
            (t ∈ pre ++ [tid] ∧ ∃ task', project.get_task t = some task' ∧
              ∃ d ∈ task'.deps,
                d ∈ st.failed_list ∨ d ∈ st.skipped_list) := by
          intro t
          rw [hskip t]
          constructor
          · rintro ⟨htpre, hrest⟩
            exact ⟨List.mem_append.mpr (Or.inl htpre), hrest⟩
          · rintro ⟨htm, task', hget', d, hd, hdf⟩
            rcases List.mem_append.mp htm with htm | htm
            · exact ⟨htm, task', hget', d, hd, hdf⟩
            · exfalso
              have hteq := List.mem_singleton.mp htm
              subst hteq
              rw [hget] at hget'
              injection hget' with he
              subst he
              exact hskP_neg ⟨d, hd, hdf⟩
        rcases ih (pre ++ [tid])
            { st with
              results := st.results ++ [(tid,
                (⟨tid, (spawn (mkSpawnRequest ambient task)).returncode,
                  (spawn (mkSpawnRequest ambient task)).stdout,
                  (spawn (mkSpawnRequest ambient task)).stderr,
                  (spawn (mkSpawnRequest ambient task)).duration_s⟩ : TaskResult))]
              succeeded_set := st.succeeded_set ++ [tid]
              processed := st.processed ++ [tid] }
            hnd' htopoPre' htopo' hflag hinv₁ hproc₁ hF₁ hdisj₁ hskip₁ with
          ⟨st', hrun, hflag', hinv', hproc', hF', hdisj', hskip'⟩
        simp only [hlist] at hproc' hskip'
        refine ⟨st', ?_, hflag', hinv', hproc', hF', hdisj', hskip'⟩
        rw [runLoop_exec_ok false rest hget hskF hrc, hdset]
        exact hrun
      · -- failing execution, fail_fast is off: record and continue
        have hinv₁ : ExecInv
            { st with
              results := st.results ++ [(tid,
                (⟨tid, (spawn (mkSpawnRequest ambient task)).returncode,
                  (spawn (mkSpawnRequest ambient task)).stdout,
                  (spawn (mkSpawnRequest ambient task)).stderr,
                  (spawn (mkSpawnRequest ambient task)).duration_s⟩ : TaskResult))]
              failed_list := st.failed_list ++ [tid]
              failed_set := st.failed_set ++ [tid]
              processed := st.processed ++ [tid] } := by
          refine ⟨?_, hinv.ss_eq, hprociff⟩
          show st.failed_set ++ [tid] = st.failed_list ++ [tid]
          rw [hinv.fs_eq]
        have hF₁ : ∀ x ∈ st.failed_list ++ [tid], x ∈ (st.results ++ [(tid,
            (⟨tid, (spawn (mkSpawnRequest ambient task)).returncode,
              (spawn (mkSpawnRequest ambient task)).stdout,
              (spawn (mkSpawnRequest ambient task)).stderr,
              (spawn (mkSpawnRequest ambient task)).duration_s⟩ : TaskResult))]).map Prod.fst := by
          rw [hkeys]
          intro x hx
          rcases List.mem_append.mp hx with hx | hx
          · exact List.mem_append.mpr (Or.inl (hF x hx))
          · exact List.mem_append.mpr (Or.inr hx)
        have hskip₁ : ∀ t, t ∈ st.skipped_list ↔
            (t ∈ pre ++ [tid] ∧ ∃ task', project.get_task t = some task' ∧
              ∃ d ∈ task'.deps,
                d ∈ st.failed_list ++ [tid] ∨ d ∈ st.skipped_list) := by
          intro t
          rw [hskip t]
          constructor
          · rintro ⟨htpre, task', hget', d, hd, hdf⟩
            refine ⟨List.mem_append.mpr (Or.inl htpre), task', hget', d, hd, ?_⟩
            rcases hdf with h | h
            · exact Or.inl (List.mem_append.mpr (Or.inl h))
            · exact Or.inr h
          · rintro ⟨htm, task', hget', d, hd, hdf⟩
            rcases List.mem_append.mp htm with htm | htm
            · have hd_pre : d ∈ pre := htopoPre t htm task' hget' d hd
              have hd_ne : d ≠ tid := fun he => htid_pre (he ▸ hd_pre)
              have hdf' : d ∈ st.failed_list ∨ d ∈ st.skipped_list := by
                rcases hdf with h | h
                · rcases List.mem_append.mp h with h | h
                  · exact Or.inl h
                  · exact absurd (List.mem_singleton.mp h) hd_ne
                · exact Or.inr h
              exact ⟨htm, task', hget', d, hd, hdf'⟩
            · exfalso
              have hteq := List.mem_singleton.mp htm
              rw [hteq] at hget'
              rw [hget] at hget'
              injection hget' with he
              subst he
              have hd_pre : d ∈ pre := hdeps d hd
              have hd_ne : d ≠ tid := fun he => htid_pre (he ▸ hd_pre)
              have hdf' : d ∈ st.failed_list ∨ d ∈ st.skipped_list := by
                rcases hdf with h | h
                · rcases List.mem_append.mp h with h | h
                  · exact Or.inl h
                  · exact absurd (List.mem_singleton.mp h) hd_ne
                · exact Or.inr h
              exact hskP_neg ⟨d, hd, hdf'⟩
        rcases ih (pre ++ [tid])
            { st with
              results := st.results ++ [(tid,
                (⟨tid, (spawn (mkSpawnRequest ambient task)).returncode,
                  (spawn (mkSpawnRequest ambient task)).stdout,
                  (spawn (mkSpawnRequest ambient task)).stderr,
                  (spawn (mkSpawnRequest ambient task)).duration_s⟩ : TaskResult))]
              failed_list := st.failed_list ++ [tid]
              failed_set := st.failed_set ++ [tid]
              processed := st.processed ++ [tid] }
            hnd' htopoPre' htopo' hflag hinv₁ hproc₁ hF₁ hdisj₁ hskip₁ with
          ⟨st', hrun, hflag', hinv', hproc', hF', hdisj', hskip'⟩
        simp only [hlist] at hproc' hskip'
        refine ⟨st', ?_, hflag', hinv', hproc', hF', hdisj', hskip'⟩
        rw [runLoop_exec_cont rest hget hskF hrc, hdset]
        exact hrun

theorem _run_eq (spawn : SpawnRequest → SpawnResult)
    (ambient : List (String × String)) (project : ProjectConfig)
    (order : List String) (fail_fast : Bool) (st' : ExecState)
    (h : runLoop spawn ambient project fail_fast order ExecState.init =
      .ok st') :
    _run spawn ambient project order fail_fast =
      .ok { order := order
            results := (lateSkip order st').results
            failed := (lateSkip order st').failed_list
            skipped := (lateSkip order st').skipped_list } := by
  show (runLoop spawn ambient project fail_fast order ExecState.init).bind
      (fun st => Except.ok
        ({ order := order
           results := (lateSkip order st).results
           failed := (lateSkip order st).failed_list
           skipped := (lateSkip order st).skipped_list } : RunResult)) = _
  rw [h]
  rfl

theorem run_result_eq {spawn : SpawnRequest → SpawnResult}
    {ambient : List (String × String)} {project : ProjectConfig}
    {order : List String} {fail_fast : Bool} {st' : ExecState} {rr : RunResult}
    (h : runLoop spawn ambient project fail_fast order ExecState.init =
      .ok st')
    (hrr : _run spawn ambient project order fail_fast = .ok rr) :
    rr = { order := order
           results := (lateSkip order st').results
           failed := (lateSkip order st').failed_list
           skipped := (lateSkip order st').skipped_list } := by
  have hh := (_run_eq spawn ambient project order fail_fast st' h).symm.trans hrr
  injection hh with hh
  exact hh.symm

theorem execInv_init : ExecInv ExecState.init :=
  ⟨rfl, rfl, fun x => by simp [ExecState.init]⟩

theorem lateSkip_filter_eq_post {Δp pre post : List String} {f : String}
    (hnd : (pre ++ f :: post).Nodup)
    (hpre : ∀ t ∈ pre, t ∈ Δp)
    (hΔpf : ∀ t ∈ Δp, t ∈ pre ∨ t = f)
    (hfΔp : f ∈ Δp) :
    (pre ++ f :: post).filter (fun t => !(Δp.contains t)) = post := by
  rcases List.nodup_append.mp hnd with ⟨_, hnd₂, hdj⟩
  have hfpost : f ∉ post := (List.nodup_cons.mp hnd₂).1
  rw [List.filter_append, List.filter_cons]
  have h1 : pre.filter (fun t => !(Δp.contains t)) = [] := by
    rw [List.filter_eq_nil_iff]
    intro a ha hx
    have hx' : (!(Δp.contains a)) = true := hx
    rw [contains_of_mem (hpre a ha)] at hx'
    exact Bool.noConfusion hx'
  have h2 : ¬ ((fun t => !(Δp.contains t)) f = true) := by
    intro hx
    have hx' : (!(Δp.contains f)) = true := hx
    rw [contains_of_mem hfΔp] at hx'
    exact Bool.noConfusion hx'
  have h3 : post.filter (fun t => !(Δp.contains t)) = post := by
    rw [List.filter_eq_self]
    intro a ha
    show (!(Δp.contains a)) = true
    have hap : a ∉ Δp := by
      intro hc
      rcases hΔpf a hc with h | h
      · exact hdj h (List.mem_cons_of_mem f ha)
      · exact hfpost (h ▸ ha)
    have hac : Δp.contains a = false := by
      cases hx : Δp.contains a with
      | true => exact absurd (mem_of_contains hx) hap
      | false => rfl
    rw [hac]
    rfl
  rw [h1, if_neg h2, h3, List.nil_append]

theorem topoOK_split {project : ProjectConfig} :
    ∀ (rest seen : List String), topoOK project seen rest = true →
      ∀ p t s, rest = p ++ t :: s → ∀ task,
        project.get_task t = some task → ∀ d ∈ task.deps, d ∈ seen ++ p := by
  intro rest
  induction rest with
  | nil =>
    intro seen _ p t s hsplit
    cases p with
    | nil => exact absurd hsplit (by simp)
    | cons b p' => exact absurd hsplit (by simp)
  | cons a rest ih =>
    intro seen h p t s hsplit task hget d hd
    rcases topoOK_cons_true h with ⟨⟨taska, hgeta, hdepsa⟩, h'⟩
    cases p with
    | nil =>
      rw [List.nil_append] at hsplit
      injection hsplit with he₁ he₂
      subst he₁
      rw [hgeta] at hget
      injection hget with he₃
      subst he₃
      rw [List.append_nil]
      exact hdepsa d hd
    | cons b p' =>
      rw [List.cons_append] at hsplit
      injection hsplit with he₁ he₂
      subst he₁
      have hrec := ih (seen ++ [a]) h' p' t s he₂ task hget d hd
      rw [List.append_assoc, List.singleton_append] at hrec
      exact hrec

theorem reach_of_skipped {project : ProjectConfig} {F S ord : List String}
    (hmp : ∀ t ∈ S, ∃ task, project.get_task t = some task ∧
      ∃ d ∈ task.deps, d ∈ F ∨ d ∈ S)
    (htopo : ∀ p t s, ord = p ++ t :: s → ∀ task,
      project.get_task t = some task → ∀ d ∈ task.deps, d ∈ p) :
    ∀ pre, (∃ suf, ord = pre ++ suf) →
      ∀ t ∈ pre, t ∈ S → ∃ f, f ∈ F ∧ Relation.TransGen project.DepRel t f := by
  intro pre
  induction pre using List.reverseRecOn with
  | nil =>
    intro _ t ht
    exact absurd ht (List.not_mem_nil t)
  | append_singleton p t' ihp =>
    rintro ⟨suf, hsplit⟩ t ht htS
    rw [List.append_assoc, List.singleton_append] at hsplit
    rcases List.mem_append.mp ht with ht | ht
    · exact ihp ⟨t' :: suf, hsplit⟩ t ht htS
    · have hteq := List.mem_singleton.mp ht
      rw [← hteq] at hsplit
      rcases hmp t htS with ⟨task, hget, d, hd, hdf⟩
      have hd_p : d ∈ p := htopo p t suf hsplit task hget d hd
      have hstep : project.DepRel t d := ⟨task, hget, hd⟩
      rcases hdf with hdF | hdS
      · exact ⟨d, hdF, Relation.TransGen.single hstep⟩
      · rcases ihp ⟨t :: suf, hsplit⟩ d hd_p hdS with ⟨f, hfF, htg⟩
        exact ⟨f, hfF, Relation.TransGen.head hstep htg⟩

theorem skipped_of_reach {project : ProjectConfig} {F S ord : List String}
    (hiff : ∀ t, t ∈ S ↔ (t ∈ ord ∧ ∃ task,
      project.get_task t = some task ∧
      ∃ d ∈ task.deps, d ∈ F ∨ d ∈ S))
    (htopo : ∀ p t s, ord = p ++ t :: s → ∀ task,
      project.get_task t = some task → ∀ d ∈ task.deps, d ∈ p) :
    ∀ t f, Relation.TransGen project.DepRel t f → f ∈ F → t ∈ ord → t ∈ S := by
  intro t f htg hfF
  induction htg using Relation.TransGen.head_induction_on with
  | base h =>
    intro htord
    rcases h with ⟨task, hget, hfd⟩
    exact (hiff _).mpr ⟨htord, task, hget, f, hfd, Or.inl hfF⟩
  | @ih a c hstep _ ihc =>
    intro htord
    rcases hstep with ⟨task, hget, hcd⟩
    rcases List.append_of_mem htord with ⟨p, s, hsplit⟩
    have hc_p : c ∈ p := htopo p a s hsplit task hget c hcd
    have hc_ord : c ∈ ord := by
      rw [hsplit]
      exact List.mem_append.mpr (Or.inl hc_p)
    have hcS : c ∈ S := ihc hc_ord
    exact (hiff _).mpr ⟨htord, task, hget, c, hcd, Or.inr hcS⟩

/-- C7: for every resolvable, duplicate-free order and either fail-fast
setting, the execution engine raises no error: it always returns a
`RunResult` whose `order` is the input verbatim, and a task appearing in
`failed` has a recorded `TaskResult` with a non-zero exit code — process
failures are data, not engine errors. -/
theorem C7_engine_totality (spawn : SpawnRequest → SpawnResult)
    (ambient : List (String × String)) (project : ProjectConfig)
    (order : List String) (fail_fast : Bool)
    (hres : ∀ t ∈ order, (project.get_task t).isSome)
    (hnd : order.Nodup) :
    ∃ rr : RunResult,
      _run spawn ambient project order fail_fast = .ok rr ∧
      rr.order = order ∧
      ∀ t ∈ rr.failed, ∃ pr ∈ rr.results, pr.1 = t ∧ pr.2.returncode ≠ 0 := by
  rcases runLoop_main spawn ambient project fail_fast order ExecState.init hres
      hnd (fun t _ hc => absurd hc (List.not_mem_nil t)) execInv_init rfl with
    ⟨st', Δr, Δf, Δs, Δp, hrun, h2, h3, h4, h5, h6, h7, h8, h9, h10, h11,
      h12, h13, h14, h15⟩
  have h2' : st'.results = Δr := by rw [h2]; rfl
  have h3' : st'.failed_list = Δf := by rw [h3]; rfl
  have hls_res : (lateSkip order st').results = st'.results := by
    cases hx : st'.stopped_early with
    | true => rw [lateSkip_true order hx]
    | false => rw [lateSkip_false order hx]
  have hls_fail : (lateSkip order st').failed_list = st'.failed_list := by
    cases hx : st'.stopped_early with
    | true => rw [lateSkip_true order hx]
    | false => rw [lateSkip_false order hx]
  refine ⟨_, _run_eq spawn ambient project order fail_fast st' hrun, rfl, ?_⟩
  intro t ht
  have ht' : t ∈ (lateSkip order st').failed_list := ht
  rw [hls_fail, h3', h11] at ht'
  rcases List.mem_map.mp ht' with ⟨pr, hpr, hfst⟩
  rcases List.mem_filter.mp hpr with ⟨hprΔ, hcond⟩
  refine ⟨pr, ?_, hfst, ?_⟩
  · show pr ∈ (lateSkip order st').results
    rw [hls_res, h2']
    exact hprΔ
  · have hcond' : (!(pr.2.returncode == 0)) = true := hcond
    intro h0
    rw [h0] at hcond'
    exact absurd hcond' (by decide)

/-- Witness for C7 at the concrete fixture with `fail_fast = true`. -/
theorem C7_witness :
    (∀ t ∈ exOrder, (exProj.get_task t).isSome) ∧ exOrder.Nodup ∧
      ∃ rr : RunResult,
        _run exSpawn exAmbient exProj exOrder true = .ok rr ∧
        rr.order = exOrder ∧
        ∀ t ∈ rr.failed, ∃ pr ∈ rr.results, pr.1 = t ∧ pr.2.returncode ≠ 0 :=
  ⟨by decide, by decide,
    C7_engine_totality exSpawn exAmbient exProj exOrder true (by decide)
      (by decide)⟩

/-- C3: with `fail_fast` on, a run whose `failed` list is non-empty stopped
at its single failing task `f`: the order splits as `pre ++ f :: post`,
`failed = [f]`, only identifiers of `pre` and `f` were executed, the
dependency-skips all lie in `pre`, and the entire untouched suffix `post`
is appended to the skipped list, regardless of any dependency relation to
`f`. -/
theorem C3_fail_fast_stops (spawn : SpawnRequest → SpawnResult)
    (ambient : List (String × String)) (project : ProjectConfig)
    (order : List String) (rr : RunResult)
    (hres : ∀ t ∈ order, (project.get_task t).isSome)
    (hnd : order.Nodup)
    (hrr : _run spawn ambient project order true = .ok rr)
    (hfail : rr.failed ≠ []) :
    ∃ pre f post,
      order = pre ++ f :: post ∧
      rr.failed = [f] ∧
      (∀ pr ∈ rr.results, pr.1 ∈ pre ∨ pr.1 = f) ∧
      ∃ early, rr.skipped = early ++ post ∧ ∀ t ∈ early, t ∈ pre := by
  rcases runLoop_main spawn ambient project true order ExecState.init hres hnd
      (fun t _ hc => absurd hc (List.not_mem_nil t)) execInv_init rfl with
    ⟨st', Δr, Δf, Δs, Δp, hrun, h2, h3, h4, h5, h6, h7, h8, h9, h10, h11,
      h12, h13, h14, h15⟩
  have h2' : st'.results = Δr := by rw [h2]; rfl
  have h3' : st'.failed_list = Δf := by rw [h3]; rfl
  have h4' : st'.skipped_list = Δs := by rw [h4]; rfl
  have h5' : st'.processed = Δp := by rw [h5]; rfl
  have hrreq := run_result_eq hrun hrr
  cases hflag : st'.stopped_early with
  | false =>
    exfalso
    have hfr : st'.failed_list = ExecState.init.failed_list :=
      runLoop_noStop_frozen spawn ambient project order ExecState.init st'
        hrun hflag
    apply hfail
    rw [hrreq]
    show (lateSkip order st').failed_list = []
    rw [lateSkip_false order hflag, hfr]
    rfl
  | true =>
    rcases h15 hflag with ⟨_, pre, f, post, hsplit, hΔf, hpre, hΔpf, hfres⟩
    have hfΔp : f ∈ Δp := (h7 f).mpr (Or.inl hfres)
    have hndsp : (pre ++ f :: post).Nodup := hsplit ▸ hnd
    have hfilter : order.filter (fun t => !(st'.processed.contains t)) = post := by
      simp only [h5']
      rw [hsplit]
      exact lateSkip_filter_eq_post hndsp hpre hΔpf hfΔp
    refine ⟨pre, f, post, hsplit, ?_, ?_, Δs, ?_, ?_⟩
    · rw [hrreq]
      show (lateSkip order st').failed_list = [f]
      rw [lateSkip_true order hflag]
      show st'.failed_list = [f]
      rw [h3']
      exact hΔf
    · intro pr hpr
      rw [hrreq] at hpr
      have hpr' : pr ∈ (lateSkip order st').results := hpr
      rw [lateSkip_true order hflag] at hpr'
      have hpr2 : pr ∈ st'.results := hpr'
      rw [h2'] at hpr2
      have hkey : pr.1 ∈ Δr.map Prod.fst := List.mem_map.mpr ⟨pr, hpr2, rfl⟩
      exact hΔpf pr.1 ((h7 pr.1).mpr (Or.inl hkey))
    · rw [hrreq]
      show (lateSkip order st').skipped_list = Δs ++ post
      rw [lateSkip_true order hflag]
      show st'.skipped_list ++
        order.filter (fun t => !(st'.processed.contains t)) = Δs ++ post
      rw [h4', hfilter]
    · intro t ht
      rcases hΔpf t ((h7 t).mpr (Or.inr ht)) with h | h
      · exact h
      · exfalso
        rw [h] at ht
        exact h10 f hfres ht

/-- Witness for C3 at the concrete fixture: the failure of `a_fail` stops
the walk and both later tasks, dependent or not, are skipped. -/
theorem C3_witness :
    _run exSpawn exAmbient exProj exOrder true = .ok exRunTT ∧
    exRunTT.failed ≠ [] ∧
    ∃ pre f post,
      exOrder = pre ++ f :: post ∧
      exRunTT.failed = [f] ∧
      (∀ pr ∈ exRunTT.results, pr.1 ∈ pre ∨ pr.1 = f) ∧
      ∃ early, exRunTT.skipped = early ++ post ∧ ∀ t ∈ early, t ∈ pre :=
  ⟨by rfl, by decide,
    C3_fail_fast_stops exSpawn exAmbient exProj exOrder exRunTT (by decide)
      (by decide) (by rfl) (by decide)⟩

/-- C9: for every report of `_run` over a resolvable, duplicate-free order
and either fail-fast setting, the identifiers of the order are partitioned
between the keys of `results` and the `skipped` list (each id of the order
is in exactly one of the two, and nothing outside the order is in either),
the skipped list has no duplicates, and `failed` is exactly the keys of
the non-zero-exit entries of `results`, in execution order. -/
theorem C9_report_partition (spawn : SpawnRequest → SpawnResult)
    (ambient : List (String × String)) (project : ProjectConfig)
    (order : List String) (fail_fast : Bool) (rr : RunResult)
    (hres : ∀ t ∈ order, (project.get_task t).isSome)
    (hnd : order.Nodup)
    (hrr : _run spawn ambient project order fail_fast = .ok rr) :
    (∀ t, t ∈ order ↔ (t ∈ rr.results.map Prod.fst ∨ t ∈ rr.skipped)) ∧
    (∀ t ∈ rr.results.map Prod.fst, t ∉ rr.skipped) ∧
    rr.skipped.Nodup ∧
    rr.failed =
      (rr.results.filter (fun pr => !(pr.2.returncode == 0))).map Prod.fst := by
  rcases runLoop_main spawn ambient project fail_fast order ExecState.init hres
      hnd (fun t _ hc => absurd hc (List.not_mem_nil t)) execInv_init rfl with
    ⟨st', Δr, Δf, Δs, Δp, hrun, h2, h3, h4, h5, h6, h7, h8, h9, h10, h11,
      h12, h13, h14, h15⟩
  have h2' : st'.results = Δr := by rw [h2]; rfl
  have h3' : st'.failed_list = Δf := by rw [h3]; rfl
  have h4' : st'.skipped_list = Δs := by rw [h4]; rfl
  have h5' : st'.processed = Δp := by rw [h5]; rfl
  have hrreq := run_result_eq hrun hrr
  have hrr_res : rr.results = Δr := by
    rw [hrreq]
    show (lateSkip order st').results = Δr
    cases hx : st'.stopped_early with
    | true =>
      rw [lateSkip_true order hx]
      exact h2'
    | false =>
      rw [lateSkip_false order hx]
      exact h2'
  have hrr_fail : rr.failed = Δf := by
    rw [hrreq]
    show (lateSkip order st').failed_list = Δf
    cases hx : st'.stopped_early with
    | true =>
      rw [lateSkip_true order hx]
      exact h3'
    | false =>
      rw [lateSkip_false order hx]
      exact h3'
  have hmain : (∀ t, t ∈ order ↔ (t ∈ Δr.map Prod.fst ∨ t ∈ rr.skipped)) ∧
      (∀ t ∈ Δr.map Prod.fst, t ∉ rr.skipped) ∧ rr.skipped.Nodup := by
    cases hflag : st'.stopped_early with
    | false =>
      have hrr_skip : rr.skipped = Δs := by
        rw [hrreq]
        show (lateSkip order st').skipped_list = Δs
        rw [lateSkip_false order hflag]
        exact h4'
      rw [hrr_skip]
      refine ⟨?_, h10, h8.2.2⟩
      intro t
      constructor
      · intro ht
        exact (h7 t).mp (h14 hflag t ht)
      · intro ht
        exact h9 t ((h7 t).mpr ht)
    | true =>
      rcases h15 hflag with ⟨_, pre, f, post, hsplit, hΔf, hpre, hΔpf, hfres⟩
      have hfΔp : f ∈ Δp := (h7 f).mpr (Or.inl hfres)
      have hndsp : (pre ++ f :: post).Nodup := hsplit ▸ hnd
      rcases List.nodup_append.mp hndsp with ⟨hndpre, hndfp, hdj⟩
      have hfpost : f ∉ post := (List.nodup_cons.mp hndfp).1
      have hndpost : post.Nodup := (List.nodup_cons.mp hndfp).2
      have hfilter : order.filter (fun t => !(st'.processed.contains t)) =
          post := by
        simp only [h5']
        rw [hsplit]
        exact lateSkip_filter_eq_post hndsp hpre hΔpf hfΔp
      have hrr_skip : rr.skipped = Δs ++ post := by
        rw [hrreq]
        show (lateSkip order st').skipped_list = Δs ++ post
        rw [lateSkip_true order hflag]
        show st'.skipped_list ++
          order.filter (fun t => !(st'.processed.contains t)) = Δs ++ post
        rw [h4', hfilter]
      rw [hrr_skip]
      refine ⟨?_, ?_, ?_⟩
      · intro t
        constructor
        · intro ht
          rw [hsplit] at ht
          rcases List.mem_append.mp ht with ht | ht
          · rcases (h7 t).mp (hpre t ht) with h | h
            · exact Or.inl h
            · exact Or.inr (List.mem_append.mpr (Or.inl h))
          · rcases List.mem_cons.mp ht with ht | ht
            · exact Or.inl (by rw [ht]; exact hfres)
            · exact Or.inr (List.mem_append.mpr (Or.inr ht))
        · intro ht
          rcases ht with ht | ht
          · exact h9 t ((h7 t).mpr (Or.inl ht))
          · rcases List.mem_append.mp ht with ht | ht
            · exact h9 t ((h7 t).mpr (Or.inr ht))
            · rw [hsplit]
              exact List.mem_append.mpr (Or.inr (List.mem_cons_of_mem f ht))
      · intro t htk hc
        rcases List.mem_append.mp hc with hc | hc
        · exact h10 t htk hc
        · rcases hΔpf t ((h7 t).mpr (Or.inl htk)) with h | h
          · exact hdj h (List.mem_cons_of_mem f hc)
          · refine hfpost ?_
            rw [← h]
            exact hc
      · refine List.nodup_append.mpr ⟨h8.2.2, hndpost, ?_⟩
        intro a ha hb
        rcases hΔpf a ((h7 a).mpr (Or.inr ha)) with h | h
        · exact hdj h (List.mem_cons_of_mem f hb)
        · refine hfpost ?_
          rw [← h]
          exact hb
  refine ⟨?_, ?_, hmain.2.2, by rw [hrr_fail, hrr_res]; exact h11⟩
  · intro t
    rw [hrr_res]
    exact hmain.1 t
  · intro t
    rw [hrr_res]
    exact hmain.2.1 t

/-- Witness for C9 at the concrete fixture with `fail_fast = false`. -/
theorem C9_witness :
    (∀ t ∈ exOrder, (exProj.get_task t).isSome) ∧ exOrder.Nodup ∧
    ((∀ t, t ∈ exOrder ↔
        (t ∈ exRunFF.results.map Prod.fst ∨ t ∈ exRunFF.skipped)) ∧
      (∀ t ∈ exRunFF.results.map Prod.fst, t ∉ exRunFF.skipped) ∧
      exRunFF.skipped.Nodup ∧
      exRunFF.failed =
        (exRunFF.results.filter
          (fun pr => !(pr.2.returncode == 0))).map Prod.fst) :=
  ⟨by decide, by decide,
    C9_report_partition exSpawn exAmbient exProj exOrder false exRunFF
      (by decide) (by decide) (by rfl)⟩

/-- C8: every recorded `TaskResult` of a run comes from spawning exactly
the request built fresh from the ambient snapshot and that task alone:
the shell command is the task's command; the environment is the ambient
snapshot merged with the task's overrides, where the task's entries win on
every conflicting key; and the working directory is the task's directory
when set (and non-empty), else the caller's current directory (`none`). -/
theorem C8_spawn_environment (spawn : SpawnRequest → SpawnResult)
    (ambient : List (String × String)) (project : ProjectConfig)
    (order : List String) (fail_fast : Bool) (rr : RunResult)
    (hres : ∀ t ∈ order, (project.get_task t).isSome)
    (hnd : order.Nodup)
    (hrr : _run spawn ambient project order fail_fast = .ok rr) :
    ∀ pr ∈ rr.results, ∃ task,
      project.get_task pr.1 = some task ∧
      pr.2 = ⟨pr.1, (spawn (mkSpawnRequest ambient task)).returncode,
        (spawn (mkSpawnRequest ambient task)).stdout,
        (spawn (mkSpawnRequest ambient task)).stderr,
        (spawn (mkSpawnRequest ambient task)).duration_s⟩ ∧
      (mkSpawnRequest ambient task).command = task.command ∧
      ((task.env.map Prod.fst).Nodup → ∀ k,
        ((mkSpawnRequest ambient task).env.lookup k) =
          match task.env.lookup k with
          | some v => some v
          | none => ambient.lookup k) ∧
      (task.working_dir = none → (mkSpawnRequest ambient task).cwd = none) ∧
      (∀ wd, task.working_dir = some wd → wd ≠ "" →
        (mkSpawnRequest ambient task).cwd = some wd) := by
  rcases runLoop_main spawn ambient project fail_fast order ExecState.init hres
      hnd (fun t _ hc => absurd hc (List.not_mem_nil t)) execInv_init rfl with
    ⟨st', Δr, Δf, Δs, Δp, hrun, h2, h3, h4, h5, h6, h7, h8, h9, h10, h11,
      h12, h13, h14, h15⟩
  have h2' : st'.results = Δr := by rw [h2]; rfl
  have hrreq := run_result_eq hrun hrr
  have hrr_res : rr.results = Δr := by
    rw [hrreq]
    show (lateSkip order st').results = Δr
    cases hx : st'.stopped_early with
    | true =>
      rw [lateSkip_true order hx]
      exact h2'
    | false =>
      rw [lateSkip_false order hx]
      exact h2'
  intro pr hpr
  rw [hrr_res] at hpr
  rcases h12 pr hpr with ⟨task, hget, heq⟩
  refine ⟨task, hget, heq, rfl, ?_, ?_, ?_⟩
  · intro henv k
    exact lookup_dictMerge henv ambient k
  · intro hwd
    show pyOrNone task.working_dir = none
    rw [hwd]
    rfl
  · intro wd hwd hne
    show pyOrNone task.working_dir = some wd
    rw [hwd]
    show (if wd = "" then none else some wd) = some wd
    rw [if_neg hne]

/-- Witness for C8 at the concrete fixture with `fail_fast = false`
(whose `c_ind` task carries environment overrides and a working
directory). -/
theorem C8_witness :
    (∀ t ∈ exOrder, (exProj.get_task t).isSome) ∧ exOrder.Nodup ∧
    ∀ pr ∈ exRunFF.results, ∃ task,
      exProj.get_task pr.1 = some task ∧
      pr.2 = ⟨pr.1, (exSpawn (mkSpawnRequest exAmbient task)).returncode,
        (exSpawn (mkSpawnRequest exAmbient task)).stdout,
        (exSpawn (mkSpawnRequest exAmbient task)).stderr,
        (exSpawn (mkSpawnRequest exAmbient task)).duration_s⟩ ∧
      (mkSpawnRequest exAmbient task).command = task.command ∧
      ((task.env.map Prod.fst).Nodup → ∀ k,
        ((mkSpawnRequest exAmbient task).env.lookup k) =
          match task.env.lookup k with
          | some v => some v
          | none => exAmbient.lookup k) ∧
      (task.working_dir = none → (mkSpawnRequest exAmbient task).cwd = none) ∧
      (∀ wd, task.working_dir = some wd → wd ≠ "" →
        (mkSpawnRequest exAmbient task).cwd = some wd) :=
  ⟨by decide, by decide,
    C8_spawn_environment exSpawn exAmbient exProj exOrder false exRunFF
      (by decide) (by decide) (by rfl)⟩

/-- C4: during a `fail_fast = false` run of a topologically ordered,
duplicate-free sequence, a task is skipped exactly when one of its declared
dependencies is failed or skipped, it has a recorded result exactly when it
is not skipped, and consequently a task is skipped exactly when some task
it transitively depends on is in the failed list — tasks with no dependency
path to a failure execute and appear in `results`. -/
theorem C4_dependency_skip (spawn : SpawnRequest → SpawnResult)
    (ambient : List (String × String)) (project : ProjectConfig)
    (order : List String) (rr : RunResult)
    (htopo : topoOK project [] order = true)
    (hnd : order.Nodup)
    (hrr : _run spawn ambient project order false = .ok rr) :
    (∀ t ∈ order, (t ∈ rr.skipped ↔ ∃ task,
      project.get_task t = some task ∧
      ∃ d ∈ task.deps, d ∈ rr.failed ∨ d ∈ rr.skipped)) ∧
    (∀ t ∈ order, (t ∈ rr.results.map Prod.fst ↔ t ∉ rr.skipped)) ∧
    (∀ t ∈ order, (t ∈ rr.skipped ↔ ∃ f, f ∈ rr.failed ∧
      Relation.TransGen project.DepRel t f)) := by
  rcases runLoop_ff_inv spawn ambient project order [] ExecState.init hnd
      (fun t ht => absurd ht (List.not_mem_nil t)) htopo rfl execInv_init
      (fun x => Iff.rfl) (fun x hx => absurd hx (List.not_mem_nil x))
      (fun x hx => absurd hx (List.not_mem_nil x))
      (fun t => ⟨fun h => absurd h (List.not_mem_nil t),
        fun h => absurd h.1 (List.not_mem_nil t)⟩) with
    ⟨st', hrun, hflag', hinv', hproc', hF', hdisj', hskip'⟩
  simp only [List.nil_append] at hproc' hskip'
  have hrreq := run_result_eq hrun hrr
  have hrr_res : rr.results = st'.results := by
    rw [hrreq]
    show (lateSkip order st').results = st'.results
    rw [lateSkip_false order hflag']
  have hrr_fail : rr.failed = st'.failed_list := by
    rw [hrreq]
    show (lateSkip order st').failed_list = st'.failed_list
    rw [lateSkip_false order hflag']
  have hrr_skip : rr.skipped = st'.skipped_list := by
    rw [hrreq]
    show (lateSkip order st').skipped_list = st'.skipped_list
    rw [lateSkip_false order hflag']
  have htopo_split : ∀ p t s, order = p ++ t :: s → ∀ task,
      project.get_task t = some task → ∀ d ∈ task.deps, d ∈ p := by
    intro p t s hsplit task hget d hd
    have hh := topoOK_split order [] htopo p t s hsplit task hget d hd
    rw [List.nil_append] at hh
    exact hh
  refine ⟨?_, ?_, ?_⟩
  · intro t ht
    rw [hrr_skip, hrr_fail]
    constructor
    · intro hS
      exact ((hskip' t).mp hS).2
    · intro hC
      exact (hskip' t).mpr ⟨ht, hC⟩
  · intro t ht
    rw [hrr_res, hrr_skip]
    constructor
    · intro hk
      exact hdisj' t hk
    · intro hns
      rcases (hinv'.proc_iff t).mp ((hproc' t).mpr ht) with h | h
      · exact h
      · exact absurd h hns
  · intro t ht
    rw [hrr_skip, hrr_fail]
    constructor
    · intro hS
      exact reach_of_skipped (fun u hu => ((hskip' u).mp hu).2) htopo_split
        order ⟨[], (List.append_nil order).symm⟩ t ht hS
    · rintro ⟨f, hfF, htg⟩
      exact skipped_of_reach hskip' htopo_split t f htg hfF ht

/-- Witness for C4 at the concrete fixture: `b_dep` is skipped because it
reaches the failed `a_fail`, while the unrelated `c_ind` executes. -/
theorem C4_witness :
    topoOK exProj [] exOrder = true ∧ exOrder.Nodup ∧
    ((∀ t ∈ exOrder, (t ∈ exRunFF.skipped ↔ ∃ task,
        exProj.get_task t = some task ∧
        ∃ d ∈ task.deps, d ∈ exRunFF.failed ∨ d ∈ exRunFF.skipped)) ∧
      (∀ t ∈ exOrder,
        (t ∈ exRunFF.results.map Prod.fst ↔ t ∉ exRunFF.skipped)) ∧
      (∀ t ∈ exOrder, (t ∈ exRunFF.skipped ↔ ∃ f, f ∈ exRunFF.failed ∧
        Relation.TransGen exProj.DepRel t f))) :=
  ⟨by decide, by decide,
    C4_dependency_skip exSpawn exAmbient exProj exOrder exRunFF (by decide)
      (by decide) (by rfl)⟩

end Executor

end Taskforge
